import Mathlib

/-!
# siebns: size codec, header parser and in-place patcher

A shallow embedding of the Go package `siebns` (files `size.go`, `nsheader.go`,
`linereader.go`, `nsfile.go`, `cmd/siebnsfix/siebnsfix.go`) together with the parts of
the Go standard library it calls (`encoding/base64`, `encoding/binary`, `strings.Trim`,
`bufio.Reader.ReadBytes`, and a byte-addressable file).

Conventions of the embedding:
* a Go `byte` is a `Fin 256`, a `[]byte` is a `List Byte` (the nil slice is `[]`);
* a Go `int64` is an `Int`; conversions from `uint64` wrap modulo `2^64`;
* a Go call that may panic returns a `Run α`, either `ret a` or `panicked e`;
* a Go `error` result is an `Option GoError`, `none` standing for `nil`.
-/

namespace Siebns

/-! ## Basic types -/

/-- A Go `byte`. -/
abbrev Byte := Fin 256

/-- Truncating conversion `byte(x)` of an unsigned integer. -/
def toByte (x : Nat) : Byte := ⟨x % 256, Nat.mod_lt x (by decide)⟩

/-- The error values that the embedded code can return or panic with. -/
inductive GoError where
  | errNotInitialised
  | errNotSiebns
  | errByteOrderNil
  | errZeroFilesize
  | errChecksumCorrupt
  /-- `base64.CorruptInputError(offset)` -/
  | corruptInput (offset : Nat)
  /-- `io.EOF` -/
  | eof
  /-- `io.ErrUnexpectedEOF` -/
  | unexpectedEOF
  /-- the error of `Seek` to a negative position -/
  | negativePosition
  /-- the run-time panic of a slice expression out of range -/
  | sliceBounds
  /-- the run-time panic of a nil pointer dereference -/
  | nilPointer
  /-- the error of `os.Stat` on a path that does not exist -/
  | notExist
  deriving DecidableEq, Repr

/-- Outcome of running Go code: it returns a value or it panics. -/
inductive Run (α : Type) where
  | ret (a : α)
  | panicked (e : GoError)
  deriving DecidableEq, Repr

/-- Sequencing of Go statements: a panic aborts everything after it. -/
def Run.bind {α β : Type} (x : Run α) (f : α → Run β) : Run β :=
  match x with
  | .ret a => f a
  | .panicked e => .panicked e

instance : Monad Run where
  pure := Run.ret
  bind := Run.bind

/-- The two implementations of `binary.ByteOrder`; a nil interface is `none`. -/
inductive ByteOrder where
  | LittleEndian
  | BigEndian
  deriving DecidableEq, Repr

/-! ## Package constants (nsfile.go) -/

def headerSize : Nat := 82
def checksumSz : Nat := 12

/-- The text `Siebel Name Server Backing File`. -/
def signature : List Byte :=
  [83, 105, 101, 98, 101, 108, 32, 78, 97, 109, 101, 32, 83, 101, 114, 118, 101, 114, 32,
   66, 97, 99, 107, 105, 110, 103, 32, 70, 105, 108, 101]

/-- Unicode BOM. -/
def bom : List Byte := [0xef, 0xbb, 0xbf]

/-- DOS carriage return and line feed. -/
def crlf : List Byte := [0x0d, 0x0a]

/-! ## encoding/base64, `StdEncoding` -/

/-- The alphabet of `base64.StdEncoding`:
`ABCDEFGHIJKLMNOPQRSTUVWXYZabcdefghijklmnopqrstuvwxyz0123456789+/`. -/
def encodeStd : List Byte :=
  [65, 66, 67, 68, 69, 70, 71, 72, 73, 74, 75, 76, 77, 78, 79, 80, 81, 82, 83, 84, 85, 86,
   87, 88, 89, 90,
   97, 98, 99, 100, 101, 102, 103, 104, 105, 106, 107, 108, 109, 110, 111, 112, 113, 114,
   115, 116, 117, 118, 119, 120, 121, 122,
   48, 49, 50, 51, 52, 53, 54, 55, 56, 57, 43, 47]

/-- The padding character `=`. -/
def padChar : Byte := 61

/-- Table `enc.encode[i]`. -/
def encodeChar (i : Nat) : Byte := encodeStd.getD i 0

/-- Table `enc.decodeMap[c]`: the index of `c` in the alphabet, `0xff` for any other byte. -/
def decodeMap (c : Byte) : Nat :=
  if encodeStd.indexOf c < 64 then encodeStd.indexOf c else 0xff

/-- `enc.EncodedLen(n)` for a padded encoding. -/
def EncodedLen (n : Nat) : Nat := (n + 2) / 3 * 4

/-- `enc.DecodedLen(n)` for a padded encoding. -/
def DecodedLen (n : Nat) : Nat := n / 4 * 3

/-- `enc.Encode(dst, src)` with `dst` of length `EncodedLen(len(src))`: the bytes written
to `dst`. Full 3-byte groups give 4 characters; a final group of 1 or 2 bytes is padded. -/
def Encode : List Byte → List Byte
  | [] => []
  | [a] =>
    let val := a.val <<< 16
    [encodeChar ((val >>> 18) &&& 0x3F), encodeChar ((val >>> 12) &&& 0x3F), padChar, padChar]
  | [a, b] =>
    let val := (a.val <<< 16) ||| (b.val <<< 8)
    [encodeChar ((val >>> 18) &&& 0x3F), encodeChar ((val >>> 12) &&& 0x3F),
     encodeChar ((val >>> 6) &&& 0x3F), padChar]
  | a :: b :: c :: rest =>
    let val := (a.val <<< 16) ||| (b.val <<< 8) ||| c.val
    encodeChar ((val >>> 18) &&& 0x3F) :: encodeChar ((val >>> 12) &&& 0x3F) ::
      encodeChar ((val >>> 6) &&& 0x3F) :: encodeChar (val &&& 0x3F) :: Encode rest

/-- The loop `for si < len(src) && (src[si] == '\n' || src[si] == '\r') { si++ }`:
the unread input and the new `si`. -/
def skipNewlines : List Byte → Nat → List Byte × Nat
  | [], si => ([], si)
  | c :: rest, si => if c = 10 ∨ c = 13 then skipNewlines rest (si + 1) else (c :: rest, si)

/-- The tail of `decodeQuantum`: converts the 6-bit values `dbuf` (missing ones are 0)
into 3 bytes and keeps the `dlen - 1` bytes that are written to `dst`. -/
def quantumBytes (dbuf : List Nat) (dlen : Nat) : List Byte :=
  let val := (dbuf.getD 0 0 <<< 18) ||| (dbuf.getD 1 0 <<< 12) ||| (dbuf.getD 2 0 <<< 6) |||
    dbuf.getD 3 0
  [toByte (val >>> 16), toByte (val >>> 8), toByte (val >>> 0)].take (dlen - 1)

/-- `enc.Decode`, as one pass over the unread input. `n` is `len(src)`, `si` the index of
the next byte, `j` and `dbuf` the state of the running `decodeQuantum` call (a fresh call
starts at `j = 0`), `out` the bytes decoded so far. Returns the decoded bytes and the error.
Bytes of the alphabet fill the quantum, CR and LF are skipped, `=` ends the input and must be
followed by nothing but the rest of the padding and newlines. -/
def decodeFrom : List Byte → (n si j : Nat) → (dbuf : List Nat) → (out : List Byte) →
    List Byte × Option GoError
  | [], _, si, j, _, out =>
    if j = 0 then (out, none) else (out, some (.corruptInput (si - j)))
  | c :: rest, n, si, j, dbuf, out =>
    if decodeMap c ≠ 0xff then
      if j = 3 then decodeFrom rest n (si + 1) 0 [] (out ++ quantumBytes (dbuf ++ [decodeMap c]) 4)
      else decodeFrom rest n (si + 1) (j + 1) (dbuf ++ [decodeMap c]) out
    else if c = 10 ∨ c = 13 then decodeFrom rest n (si + 1) j dbuf out
    else if c ≠ padChar then (out, some (.corruptInput si))
    else
      match j with
      | 0 => (out, some (.corruptInput si))
      | 1 => (out, some (.corruptInput si))
      | 2 =>
        match skipNewlines rest (si + 1) with
        | ([], _) => (out, some (.corruptInput n))
        | (c1 :: rest2, si1) =>
          if c1 ≠ padChar then (out, some (.corruptInput (si1 - 1)))
          else
            match skipNewlines rest2 (si1 + 1) with
            | ([], _) => (out ++ quantumBytes dbuf 2, none)
            | (_ :: _, si3) => (out ++ quantumBytes dbuf 2, some (.corruptInput si3))
      | _ =>
        match skipNewlines rest (si + 1) with
        | ([], _) => (out ++ quantumBytes dbuf 3, none)
        | (_ :: _, si3) => (out ++ quantumBytes dbuf 3, some (.corruptInput si3))

/-- `enc.DecodeString(s)`: the decoded bytes `dbuf[:n]` and the error. -/
def DecodeString (s : List Byte) : List Byte × Option GoError :=
  decodeFrom s s.length 0 0 [] []

/-! ## strings.Trim -/

/-- `strings.Trim(s, cutset)` for an ASCII cutset: drops the leading and trailing bytes
that belong to the cutset. -/
def Trim (s cutset : List Byte) : List Byte :=
  ((s.reverse.dropWhile (fun c => cutset.contains c)).reverse).dropWhile
    (fun c => cutset.contains c)

/-! ## encoding/binary -/

/-- `byteOrder.Uint64(b)` on an 8-byte slice. -/
def ByteOrder.Uint64 : ByteOrder → List Byte → Nat
  | .LittleEndian, [b0, b1, b2, b3, b4, b5, b6, b7] =>
    b0.val ||| (b1.val <<< 8) ||| (b2.val <<< 16) ||| (b3.val <<< 24) ||| (b4.val <<< 32) |||
      (b5.val <<< 40) ||| (b6.val <<< 48) ||| (b7.val <<< 56)
  | .BigEndian, [b0, b1, b2, b3, b4, b5, b6, b7] =>
    b7.val ||| (b6.val <<< 8) ||| (b5.val <<< 16) ||| (b4.val <<< 24) ||| (b3.val <<< 32) |||
      (b2.val <<< 40) ||| (b1.val <<< 48) ||| (b0.val <<< 56)
  | _, _ => 0

/-- `byteOrder.PutUint64(b, v)`: the 8 bytes written. -/
def ByteOrder.PutUint64 : ByteOrder → Nat → List Byte
  | .LittleEndian, v =>
    [toByte v, toByte (v >>> 8), toByte (v >>> 16), toByte (v >>> 24), toByte (v >>> 32),
     toByte (v >>> 40), toByte (v >>> 48), toByte (v >>> 56)]
  | .BigEndian, v =>
    [toByte (v >>> 56), toByte (v >>> 48), toByte (v >>> 40), toByte (v >>> 32),
     toByte (v >>> 24), toByte (v >>> 16), toByte (v >>> 8), toByte v]

/-- Conversion `int64(u)` of a `uint64`. -/
def toInt64 (u : Nat) : Int :=
  if u % 2 ^ 64 < 2 ^ 63 then ((u % 2 ^ 64 : Nat) : Int) else ((u % 2 ^ 64 : Nat) : Int) - 2 ^ 64

/-- Conversion `uint64(v)` of an `int64`. -/
def toUint64 (v : Int) : Nat := (v % 2 ^ 64).toNat

/-- `binary.Read(bytes.NewReader(b), order, &size)` for `size int64`: reads exactly 8 bytes
(`io.ReadFull`), failing with `io.EOF` on an empty reader and `io.ErrUnexpectedEOF` on a
short one. -/
def binaryRead (b : List Byte) (order : ByteOrder) : Except GoError Int :=
  if b.length = 0 then .error .eof
  else if b.length < 8 then .error .unexpectedEOF
  else .ok (toInt64 (order.Uint64 (b.take 8)))

/-- `binary.Write(&buf, order, size)` for `size int64` followed by `buf.Bytes()`. -/
def binaryWrite (order : ByteOrder) (size : Int) : List Byte :=
  order.PutUint64 (toUint64 size)

/-! ## size.go -/

/-- `math.MaxInt32`. -/
def MaxInt32 : Nat := (1 <<< 31) - 1

/-- Function `sizeFromBinary` of size.go. -/
def sizeFromBinary (b : List Byte) (byteOrder : Option ByteOrder) : Run Int :=
  match byteOrder with
  | none => .panicked .errByteOrderNil
  | some order =>
    match binaryRead b order with
    | .error err => .panicked err
    | .ok size => .ret size

/-- Function `sizeToBinary` of size.go. -/
def sizeToBinary (size : Int) (byteOrder : Option ByteOrder) : Run (List Byte) :=
  match byteOrder with
  | none => .panicked .errByteOrderNil
  | some order => .ret (binaryWrite order size)

/-- Function `decodeSize` of size.go: `(size, byteOrder, err)`. -/
def decodeSize (b : List Byte) : Run (Int × Option ByteOrder × Option GoError) :=
  match DecodeString (Trim b (32 :: crlf)) with
  | (_, some err) => .ret (0, none, some err)
  | (base64Size, none) => do
    let size ← sizeFromBinary base64Size (some .LittleEndian)
    if size > ((MaxInt32 <<< 1 : Nat) : Int) then
      let sizeBE ← sizeFromBinary base64Size (some .BigEndian)
      pure (sizeBE, some .BigEndian, none)
    else
      pure (size, some .LittleEndian, none)

/-- Function `encodeSize` of size.go: `(out, err)`. -/
def encodeSize (size : Int) (byteOder : Option ByteOrder) : Run (List Byte × Option GoError) :=
  if size = 0 then .ret ([], some .errZeroFilesize)
  else do
    let sizeBytes ← sizeToBinary size byteOder
    pure (Encode sizeBytes, none)


/-! ## linereader.go -/

/-- `bufio.Reader.ReadBytes(delim)` on the unread input `r`: the line read (delimiter
included), the input left unread, and `io.EOF` when the input ends before a delimiter. -/
def ReadBytes : List Byte → Byte → List Byte × List Byte × Option GoError
  | [], _ => ([], [], some .eof)
  | c :: rest, delim =>
    if c = delim then ([c], rest, none)
    else
      let res := ReadBytes rest delim
      (c :: res.1, res.2.1, res.2.2)

/-- Struct `lnReader`: `r` is the unread input of the buffered reader. -/
structure lnReader where
  r : List Byte
  pos : Int
  lastErr : Option GoError
  deriving DecidableEq, Repr

/-- Function `newLineReader`. -/
def newLineReader (r : List Byte) : lnReader := { r := r, pos := 0, lastErr := none }

/-- Method `lnReader.readline`: the line returned and the reader afterwards. -/
def lnReader.readline (lr : lnReader) : List Byte × lnReader :=
  if lr.lastErr ≠ none then ([], lr)
  else
    match ReadBytes lr.r 10 with
    | (line, rest, some err) => (line, { lr with r := rest, lastErr := some err })
    | (line, rest, none) => (line, { lr with r := rest, pos := lr.pos + line.length })

/-- Method `lnReader.readstring`. -/
def lnReader.readstring (lr : lnReader) : List Byte × lnReader :=
  (Trim lr.readline.1 crlf, lr.readline.2)

/-- Method `lnReader.position`. -/
def lnReader.position (lr : lnReader) : Int := lr.pos

/-- Method `lnReader.err`. -/
def lnReader.err (lr : lnReader) : Option GoError := lr.lastErr

/-! ## nsfile.go, nsheader.go: the header descriptor -/

structure format where
  unicode : Bool
  dos : Bool
  deriving DecidableEq, Repr

structure offsets where
  checksum : Int
  deriving DecidableEq, Repr

structure version where
  siebel : List Byte
  nsfile : List Byte
  deriving DecidableEq, Repr

/-- Struct `nsHeader`; the zero value has a nil byte order. -/
structure nsHeader where
  byteOrder : Option ByteOrder
  format : format
  offsets : offsets
  version : version
  deriving DecidableEq, Repr

/-- Function `hasBOM`. -/
def hasBOM (line : List Byte) : Bool × Nat :=
  if line.length < bom.length then (false, 0)
  else if bom = line.take bom.length then (true, bom.length)
  else (false, 0)

/-- Function `hasDOSlineEndings`. -/
def hasDOSlineEndings (line : List Byte) : Bool :=
  if line.length < crlf.length then false
  else line.drop (line.length - 2) = crlf

/-- Method `nsHeader.verifyCksumFmt`. -/
def nsHeader.verifyCksumFmt (hdr : nsHeader) (checksum : List Byte) : Option GoError :=
  let isDOScksumLen : Bool → Nat := fun dos => if dos then 27 else 26
  if checksum.length ≠ isDOScksumLen hdr.format.dos then some .errChecksumCorrupt
  else none

/-- Function `readHeader` on the bytes the reader delivers: `(hdr, err)`. The slice
expression `sigLine[textOffset : textOffset+len(signature)]` panics when the line is
shorter than its upper bound (the line returned by `ReadBytes` has no spare capacity). -/
def readHeader (r : List Byte) : Run (Option nsHeader × Option GoError) :=
  let rd := newLineReader r
  let sigLine := rd.readline.1
  let rd := rd.readline.2
  if rd.err ≠ none then .ret (none, rd.err)
  else
    let isUnicode := (hasBOM sigLine).1
    let textOffset := (hasBOM sigLine).2
    if sigLine.length < textOffset + signature.length then .panicked .sliceBounds
    else
      let fileSignature := (sigLine.take (textOffset + signature.length)).drop textOffset
      if fileSignature ≠ signature then .ret (none, some .errNotSiebns)
      else
        let fmt : format := { unicode := isUnicode, dos := hasDOSlineEndings sigLine }
        let siebel := rd.readstring.1
        let rd := rd.readstring.2
        let nsfile := rd.readstring.1
        let rd := rd.readstring.2
        let checksum := rd.position
        let checksumLine := rd.readline.1
        let rd := rd.readline.2
        if rd.err ≠ none then .ret (none, rd.err)
        else
          let hdr : nsHeader :=
            { byteOrder := none, format := fmt, offsets := { checksum := checksum },
              version := { siebel := siebel, nsfile := nsfile } }
          match hdr.verifyCksumFmt checksumLine with
          | some err => .ret (none, some err)
          | none => do
            let res ← decodeSize checksumLine
            match res with
            | (_, _, some err) => pure (none, some err)
            | (_, byteOrder, none) => pure (some { hdr with byteOrder := byteOrder }, none)

/-! ## The file handle (`nsDisker`, an `*os.File` opened read-write) -/

/-- A regular file: its contents, the current offset of the handle, and its name. -/
structure nsDisker where
  data : List Byte
  offset : Nat
  name : String
  deriving DecidableEq, Repr

/-- `Seek(offset, io.SeekStart)`: the new position and the error; a negative position is
refused and leaves the handle where it was. -/
def nsDisker.Seek (f : nsDisker) (offset : Int) : (Int × Option GoError) × nsDisker :=
  if offset < 0 then ((0, some .negativePosition), f)
  else ((offset, none), { f with offset := offset.toNat })

/-- `Read(p)` with `len(p) = n`: the bytes read (at most `n`, as many as the file holds
from the offset on) and the error, `io.EOF` when nothing is left. -/
def nsDisker.Read (f : nsDisker) (n : Nat) : (List Byte × Option GoError) × nsDisker :=
  if n = 0 then (([], none), f)
  else if f.data.length ≤ f.offset then (([], some .eof), f)
  else
    let got := (f.data.drop f.offset).take n
    ((got, none), { f with offset := f.offset + got.length })

/-- `Write(p)`: the bytes are stored at the offset, over what is there, the file growing
(zero-filled up to the offset) when needed; returns `len(p)`. -/
def nsDisker.Write (f : nsDisker) (p : List Byte) : (Int × Option GoError) × nsDisker :=
  let before := f.data.take f.offset ++ List.replicate (f.offset - f.data.length) (0 : Byte)
  ((p.length, none),
   { f with data := before ++ p ++ f.data.drop (f.offset + p.length),
            offset := f.offset + p.length })

/-- `Stat()` followed by `Size()` of the file info. -/
def nsDisker.StatSize (f : nsDisker) : Int × Option GoError := (f.data.length, none)

/-- Struct `NSFile`: the header pointer (nil is `none`) and the embedded file handle. -/
structure NSFile where
  header : Option nsHeader
  disk : nsDisker
  deriving DecidableEq, Repr

/-- Method `NSFile.Size`: panics when `Stat` fails. -/
def NSFile.Size (ns : NSFile) : Run Int :=
  match ns.disk.StatSize with
  | (_, some err) => .panicked err
  | (size, none) => .ret size

/-- Method `nsHeader.readEncodedSize`: `(size, err)`, the header and the file afterwards.
The buffer `data` has `checksumSz` zero bytes, of which `Read` overwrites the first `n`. -/
def nsHeader.readEncodedSize (hdr : nsHeader) (r : nsDisker) :
    Run ((Int × Option GoError) × nsHeader × nsDisker) :=
  match r.Seek hdr.offsets.checksum with
  | ((_, some err), r1) => .ret ((0, some err), hdr, r1)
  | ((_, none), r1) =>
    match r1.Read checksumSz with
    | ((got, err), r2) =>
      if err ≠ none ∨ got.length = 0 then .ret ((0, err), hdr, r2)
      else
        let data := got ++ List.replicate (checksumSz - got.length) (0 : Byte)
        do
          let res ← decodeSize data
          match res with
          | (_, _, some err) => pure ((0, some err), hdr, r2)
          | (size, byteOrder, none) => pure ((size, none), { hdr with byteOrder := byteOrder }, r2)

/-- Method `nsHeader.writeEncodedSize`: `(n, err)` and the file afterwards. -/
def nsHeader.writeEncodedSize (hdr : nsHeader) (w : nsDisker) (size : Int) :
    Run ((Int × Option GoError) × nsDisker) := do
  let enc ← encodeSize size hdr.byteOrder
  match enc with
  | (_, some err) => pure ((0, some err), w)
  | (data, none) =>
    match w.Seek hdr.offsets.checksum with
    | ((_, some err), w1) => pure ((0, some err), w1)
    | ((_, none), w1) =>
      match w1.Write data with
      | ((_, some err), w2) => pure ((0, some err), w2)
      | ((n, none), w2) => pure ((n, none), w2)

/-- Method `NSFile.FixSize`: `(n, err)` and the file afterwards. The argument `ns.Size()`
is evaluated before the call; a nil header is dereferenced inside it. -/
def NSFile.FixSize (ns : NSFile) : Run ((Int × Option GoError) × NSFile) := do
  let size ← ns.Size
  match ns.header with
  | none => .panicked .nilPointer
  | some hdr =>
    let res ← hdr.writeEncodedSize ns.disk size
    pure (res.1, { ns with disk := res.2 })

/-- Method `NSFile.IsHeaderCorrect`: the answer and the file (header included) afterwards. -/
def NSFile.IsHeaderCorrect (ns : NSFile) : Run (Bool × NSFile) :=
  match ns.header with
  | none => .panicked .nilPointer
  | some hdr => do
    let res ← hdr.readEncodedSize ns.disk
    let ns1 : NSFile := { header := some res.2.1, disk := res.2.2 }
    let real ← ns1.Size
    pure (decide (real = res.1.1), ns1)

/-- Size of the buffer of `bufio.NewReader` (`defaultBufSize`). -/
def defaultBufSize : Nat := 4096

/-- The buffered reader over the file, by positions in the file: the buffer holds the bytes
from `pos` (the first unread one) up to `filled`, which is the offset of the file handle;
`pendingEOF` is the error `io.EOF` that a `Read` of the handle has returned and that the
reader has not reported yet. -/
structure bufReader where
  pos : Nat
  filled : Nat
  pendingEOF : Bool
  deriving DecidableEq, Repr

/-- One `ReadBytes(10)` of a buffered reader with a buffer of `size` bytes over the file
`data`, as `ReadSlice` and `fill` of `bufio` do it: the delimiter is searched in the buffer;
when it is not there, a pending error ends the call, a full buffer is handed over as a
fragment and the search goes on, and otherwise the handle is read into the free part of the
buffer (a regular file delivers what is asked for as long as it has it, and `io.EOF` with no
bytes at its end). -/
def bufReader.ReadBytes (size : Nat) (data : List Byte) : Nat → bufReader → bufReader
  | 0, b => b
  | fuel + 1, b =>
    let buffered := (data.drop b.pos).take (b.filled - b.pos)
    let got := Nat.min (size - (b.filled - b.pos)) (data.length - b.filled)
    if buffered.indexOf 10 < buffered.length then
      { b with pos := b.pos + buffered.indexOf 10 + 1 }
    else if b.pendingEOF then { b with pos := b.filled, pendingEOF := false }
    else if size ≤ b.filled - b.pos then
      bufReader.ReadBytes size data fuel { b with pos := b.filled }
    else if data.length ≤ b.filled then
      bufReader.ReadBytes size data fuel { b with pendingEOF := true }
    else
      bufReader.ReadBytes size data fuel { b with filled := b.filled + got }

/-- The offset of the file handle after `n` calls of `ReadBytes(10)` on a new buffered
reader, with a buffer of `size` bytes, over the file. Every step of a call reads from the
handle, empties the buffer or ends the call, so `2 * len + 3` steps are enough for each
call. -/
def handleOffsetSize (size : Nat) (data : List Byte) (n : Nat) : Nat :=
  ((List.range n).foldl (fun b _ => b.ReadBytes size data (2 * data.length + 3))
    (⟨0, 0, false⟩ : bufReader)).filled

/-- The offset of the file handle after `n` calls of `ReadBytes(10)` on the reader of
`bufio.NewReader`. -/
def handleOffset (data : List Byte) (n : Nat) : Nat := handleOffsetSize defaultBufSize data n

/-- Function `Open` on a path whose file holds `contents` (`none`: no such file):
`(ns, err)`. The header is parsed from the start of the file through a buffered reader,
which leaves the handle where its last `Read` ended: `readHeader` has asked for one line
when it returns `errNotSiebns` and for four lines otherwise (a line asked for after a
failure is not read, and the handle is at the end of the file then). The offset is never
used, every later access seeks first. -/
def Open (path : String) (contents : Option (List Byte)) :
    Run (Option NSFile × Option GoError) :=
  match contents with
  | none => .ret (none, some .notExist)
  | some data =>
    if data.length < headerSize then .ret (none, some .errNotSiebns)
    else do
      let res ← readHeader data
      let lines := if res.2 = some .errNotSiebns then 1 else 4
      pure (some { header := res.1,
                   disk := { data := data, offset := handleOffset data lines, name := path } },
            res.2)

/-! ## cmd/siebnsfix/siebnsfix.go -/

/-- What `main` prints or logs, in order. -/
inductive Output where
  /-- `Siebnsfix 2.0.0 - fix checksum in Siebel Gateway file` -/
  | banner
  /-- `Usage: <program> <siebns.dat>` -/
  | usage
  /-- `log.Fatalf` of the error of `Open` -/
  | fatalOpen (err : GoError)
  /-- `file <name>:  OK:  no correction needed.` -/
  | noCorrectionNeeded (name : String)
  /-- `file <name>:  correction needed.` -/
  | correctionNeeded (name : String)
  /-- `log.Fatalf` of `error writing to file` -/
  | fatalWrite (err : GoError)
  /-- `file <name>:  OK: updated <wrote> bytes.` -/
  | updated (name : String) (wrote : Int)
  deriving DecidableEq, Repr

/-- Result of one run of the command: its output, its exit code, whether `FixSize` was
called, and the contents of the file afterwards (`none`: never opened). -/
structure MainResult where
  out : List Output
  exitCode : Nat
  calledFixSize : Bool
  contents : Option (List Byte)
  deriving DecidableEq, Repr

/-- Function `main` of the command: `args` is `os.Args`, `contents` what the file named by
`os.Args[1]` holds. -/
def main (args : List String) (contents : Option (List Byte)) : Run MainResult :=
  match args with
  | [] => .ret { out := [.banner, .usage], exitCode := 1, calledFixSize := false,
                 contents := none }
  | [_] => .ret { out := [.banner, .usage], exitCode := 1, calledFixSize := false,
                  contents := none }
  | _ :: path :: _ => do
    let opened ← Open path contents
    match opened with
    | (_, some err) =>
      pure { out := [.banner, .fatalOpen err], exitCode := 1, calledFixSize := false,
             contents := contents }
    | (none, none) => .panicked .nilPointer
    | (some ns, none) =>
      let chk ← ns.IsHeaderCorrect
      let ns := chk.2
      if !chk.1 then
        pure { out := [.banner, .noCorrectionNeeded ns.disk.name], exitCode := 0,
               calledFixSize := false, contents := some ns.disk.data }
      else
        let fixed ← ns.FixSize
        match fixed with
        | ((_, some err), ns) =>
          pure { out := [.banner, .correctionNeeded ns.disk.name, .fatalWrite err],
                 exitCode := 1, calledFixSize := true, contents := some ns.disk.data }
        | ((wrote, none), ns) =>
          pure { out := [.banner, .correctionNeeded ns.disk.name,
                         .updated ns.disk.name wrote],
                 exitCode := 0, calledFixSize := true, contents := some ns.disk.data }

/-- The sample file of the tests (`testfileEmpty`), 121 bytes; its checksum line holds
`DAMAAAAAAAA=`, the little-endian encoding of 780. -/
def testfileEmpty : List Byte :=
  signature ++ [10] ++
  [49, 54, 46, 48, 46, 48, 46, 48, 32, 91, 50, 51, 48, 53, 55, 93, 32, 69, 78, 85, 10] ++
  [49, 46, 50, 10] ++
  [68, 65, 77, 65, 65, 65, 65, 65, 65, 65, 65, 61] ++ List.replicate 13 32 ++ [10] ++
  [10] ++ [91, 47, 93, 10] ++
  [9, 80, 101, 114, 115, 105, 115, 116, 101, 110, 99, 101, 61, 112, 97, 114, 116, 105, 97,
   108, 10] ++
  [9, 84, 121, 112, 101, 61, 101, 109, 112, 116, 121, 10]

/-! ## Sample files -/

/-- The first three header lines of the sample file, 57 bytes. -/
def sampleLines : List Byte :=
  signature ++ [10] ++
  [49, 54, 46, 48, 46, 48, 46, 48, 32, 91, 50, 51, 48, 53, 55, 93, 32, 69, 78, 85, 10] ++
  [49, 46, 50, 10]

/-- A file of 128 bytes written on a big-endian host: the sample header with the checksum
line `AAAAAAAAAww=` (780, big-endian), followed by 45 bytes of body. -/
def bigEndianFile : List Byte :=
  sampleLines ++
  [65, 65, 65, 65, 65, 65, 65, 65, 65, 119, 119, 61] ++ List.replicate 13 32 ++ [10] ++
  List.replicate 45 10

/-- The header `readHeader` produces for `bigEndianFile`. -/
def bigEndianHeader : nsHeader :=
  { byteOrder := some .BigEndian
    format := { unicode := false, dos := false }
    offsets := { checksum := 57 }
    version :=
      { siebel := [49, 54, 46, 48, 46, 48, 46, 48, 32, 91, 50, 51, 48, 53, 55, 93, 32, 69, 78, 85]
        nsfile := [49, 46, 50] } }

/-- The file `bigEndianFile` after `FixSize`: its checksum line starts with `AAAAAAAAAIA=`,
the big-endian encoding of 128. -/
def bigEndianFixed : List Byte :=
  sampleLines ++
  [65, 65, 65, 65, 65, 65, 65, 65, 65, 73, 65, 61] ++ List.replicate 13 32 ++ [10] ++
  List.replicate 45 10

/-- The sample file with a correct checksum line: `eQAAAAAAAAA=` is the little-endian
encoding of 121, the length of the file. -/
def testfileCorrect : List Byte :=
  sampleLines ++
  [101, 81, 65, 65, 65, 65, 65, 65, 65, 65, 65, 61] ++ List.replicate 13 32 ++ [10] ++
  [10] ++ [91, 47, 93, 10] ++
  [9, 80, 101, 114, 115, 105, 115, 116, 101, 110, 99, 101, 61, 112, 97, 114, 116, 105, 97,
   108, 10] ++
  [9, 84, 121, 112, 101, 61, 101, 109, 112, 116, 121, 10]

/-- The header `readHeader` produces for the sample files. -/
def sampleHeader : nsHeader := { bigEndianHeader with byteOrder := some .LittleEndian }

/-! ## Standard base64, as the specification words it -/

/-- The 8 bits of a byte, most significant first. -/
def bitsOf (b : Byte) : List Nat :=
  [b.val / 128 % 2, b.val / 64 % 2, b.val / 32 % 2, b.val / 16 % 2, b.val / 8 % 2,
   b.val / 4 % 2, b.val / 2 % 2, b.val % 2]

/-- The number a group of bits spells, most significant first. -/
def bitsValue (bits : List Nat) : Nat := bits.foldl (fun acc b => 2 * acc + b) 0

/-- Cuts a bit stream into groups of 6 bits, the last group completed with zero bits, and
gives the value of each group. -/
def sixBitGroups : List Nat → List Nat
  | [] => []
  | b0 :: b1 :: b2 :: b3 :: b4 :: b5 :: rest =>
    bitsValue [b0, b1, b2, b3, b4, b5] :: sixBitGroups rest
  | bits => [bitsValue ((bits ++ List.replicate 6 0).take 6)]

/-- The standard base64 encoding of RFC 4648, written from its wording and not from the
Go code: the input is read as a stream of bits, cut into 6-bit groups (zero bits complete
the last one), each group selects a character of the alphabet, and `=` characters complete
the text to a multiple of 4 characters. -/
def stdBase64 (bs : List Byte) : List Byte :=
  let chars := (sixBitGroups (bs.flatMap bitsOf)).map encodeChar
  chars ++ List.replicate ((4 - chars.length % 4) % 4) padChar

/-- A byte that the decoder of `StdEncoding` refuses wherever it meets it: outside the
alphabet, not the padding character, not CR, not LF. -/
def refused (c : Byte) : Prop := c ∉ encodeStd ∧ c ≠ padChar ∧ c ≠ 13 ∧ c ≠ 10

instance (c : Byte) : Decidable (refused c) := by
  unfold refused
  infer_instance

/-! ## Positions of the line ends -/

/-- The index of the byte that follows the `n`-th LF of the input; `none` when the input has
fewer than `n` LF bytes. -/
def indexAfterLF : Nat → List Byte → Option Nat
  | 0, _ => some 0
  | _ + 1, [] => none
  | n + 1, c :: rest =>
    if c = 10 then (indexAfterLF n rest).map (· + 1)
    else (indexAfterLF (n + 1) rest).map (· + 1)

/-- The corrupt sample file of the tests (`testfileCorrupt`): its checksum line is
`DA=` followed by 5 spaces. -/
def testfileCorrupt : List Byte :=
  sampleLines ++ [68, 65, 61, 32, 32, 32, 32, 32, 10] ++
  [10, 91, 47, 93, 10] ++
  [9, 80, 101, 114, 115, 105, 115, 116, 101, 110, 99, 101, 61, 112, 97, 114, 116, 105, 97,
   108, 10] ++
  [9, 84, 121, 112, 101, 61, 101, 109, 112, 116, 121]

/-- A file of 104 bytes whose first line, `abc`, is shorter than the signature. -/
def shortFirstLine : List Byte := [97, 98, 99, 10] ++ List.replicate 100 32

/-- The buffer `data` that `readEncodedSize` hands to `decodeSize` after seeking to the
offset `o` of the file: the bytes `Read` delivers, at most `checksumSz`, completed with the
zero bytes the buffer was made of. -/
def checksumBuffer (f : nsDisker) (o : Nat) : List Byte :=
  (f.data.drop o).take checksumSz ++
    List.replicate (checksumSz - ((f.data.drop o).take checksumSz).length) 0

/-- A file of 84 bytes whose checksum line starts with `DA==`, valid base64 for one byte,
followed by spaces. -/
def shortChecksumFile : List Byte :=
  sampleLines ++ [68, 65, 61, 61] ++ List.replicate 21 32 ++ [10] ++ [10]

/-! ## Sequences of calls on the line reader -/

/-- A call on a line reader. -/
inductive lnCall where
  | readline
  | readstring
  deriving DecidableEq, Repr

/-- One call: the value it returns and the reader afterwards. -/
def lnReader.call (lr : lnReader) : lnCall → List Byte × lnReader
  | .readline => lr.readline
  | .readstring => lr.readstring

/-- A sequence of calls: the reader afterwards and, for the calls that did not fail, the
raw lines they read (terminators included, as `ReadBytes` delivered them). -/
def lnReader.calls : lnReader → List lnCall → lnReader × List (List Byte)
  | lr, [] => (lr, [])
  | lr, c :: cs =>
    if (lr.call c).2.lastErr = none then
      (((lr.call c).2.calls cs).1, lr.readline.1 :: ((lr.call c).2.calls cs).2)
    else (((lr.call c).2.calls cs).1, ((lr.call c).2.calls cs).2)

/-! ## More sample files -/

/-- The sample header with a space before the text of the checksum line, which still has
26 bytes. -/
def leadingSpaceFile : List Byte :=
  sampleLines ++ [32] ++ [68, 65, 77, 65, 65, 65, 65, 65, 65, 65, 65, 61] ++
    List.replicate 12 32 ++ [10] ++ [10]

/-- The shortest header that parses, 60 bytes: the signature line, two empty version lines
and the checksum line. -/
def shortestHeader : List Byte :=
  signature ++ [10] ++ [10] ++ [10] ++ [68, 65, 77, 65, 65, 65, 65, 65, 65, 65, 65, 61] ++
    List.replicate 13 32 ++ [10]

/-- The sample header of a Unicode file with DOS line ends: BOM, CR LF after every header
line, the checksum line `DAMAAAAAAAA=` with 13 spaces, 27 bytes. -/
def unicodeDosFile : List Byte :=
  bom ++ signature ++ [13, 10] ++
  [49, 54, 46, 48, 46, 48, 46, 48, 32, 91, 50, 51, 48, 53, 55, 93, 32, 69, 78, 85, 13, 10] ++
  [49, 46, 50, 13, 10] ++
  [68, 65, 77, 65, 65, 65, 65, 65, 65, 65, 65, 61] ++ List.replicate 13 32 ++ [13, 10] ++
  [13, 10]

/-- The header `readHeader` produces for `unicodeDosFile`. -/
def unicodeDosHeader : nsHeader :=
  { sampleHeader with format := { unicode := true, dos := true }, offsets := { checksum := 63 } }

/-! # Theorems -/

/-! ## Bit operations as arithmetic -/

theorem shiftLeft_lor_of_lt (x y i : Nat) (h : y < 2 ^ i) :
    (x <<< i) ||| y = x * 2 ^ i + y := by
  rw [Nat.shiftLeft_eq, Nat.mul_comm x (2 ^ i), ← Nat.mul_add_lt_is_or h]

theorem lor_shiftLeft_of_lt (x y i : Nat) (h : y < 2 ^ i) :
    y ||| (x <<< i) = y + x * 2 ^ i := by
  rw [Nat.lor_comm, shiftLeft_lor_of_lt x y i h, Nat.add_comm]

theorem land_63 (x : Nat) : x &&& 0x3F = x % 64 :=
  Nat.and_pow_two_sub_one_eq_mod x 6

theorem toByte_val (x : Nat) : (toByte x).val = x % 256 := rfl

theorem toByte_of_val (b : Byte) (x : Nat) (h : x % 256 = b.val) : toByte x = b :=
  Fin.ext h

/-- The 24-bit value of a 3-byte group. -/
theorem group_val (a b c : Byte) :
    (a.val <<< 16) ||| (b.val <<< 8) ||| c.val = a.val * 65536 + b.val * 256 + c.val := by
  have ha := a.isLt
  have hb := b.isLt
  have hc := c.isLt
  have h1 : (a.val <<< 16) ||| (b.val <<< 8) = (a.val * 256 + b.val) <<< 8 := by
    rw [shiftLeft_lor_of_lt a.val (b.val <<< 8) 16 (by rw [Nat.shiftLeft_eq]; omega),
      Nat.shiftLeft_eq, Nat.shiftLeft_eq]
    omega
  rw [h1, shiftLeft_lor_of_lt _ c.val 8 (by omega)]
  omega

/-- The 24-bit value of a final 2-byte group. -/
theorem group_val2 (a b : Byte) :
    (a.val <<< 16) ||| (b.val <<< 8) = a.val * 65536 + b.val * 256 := by
  have hb := b.isLt
  rw [shiftLeft_lor_of_lt a.val (b.val <<< 8) 16 (by rw [Nat.shiftLeft_eq]; omega),
    Nat.shiftLeft_eq]
  omega

theorem group_val_add (a b c : Byte) :
    (a.val * 65536 + b.val * 256) ||| c.val = a.val * 65536 + b.val * 256 + c.val := by
  have h := group_val a b c
  rw [group_val2] at h
  exact h

/-- The 24-bit value rebuilt from four 6-bit values. -/
theorem sextet_val (s0 s1 s2 s3 : Nat) (h1 : s1 < 64) (h2 : s2 < 64) (h3 : s3 < 64) :
    (s0 <<< 18) ||| (s1 <<< 12) ||| (s2 <<< 6) ||| s3 =
      s0 * 262144 + s1 * 4096 + s2 * 64 + s3 := by
  have e1 : (s0 <<< 18) ||| (s1 <<< 12) = (s0 * 64 + s1) <<< 12 := by
    rw [shiftLeft_lor_of_lt s0 (s1 <<< 12) 18 (by rw [Nat.shiftLeft_eq]; omega),
      Nat.shiftLeft_eq, Nat.shiftLeft_eq]
    omega
  have e2 : ((s0 * 64 + s1) <<< 12) ||| (s2 <<< 6) = ((s0 * 64 + s1) * 64 + s2) <<< 6 := by
    rw [shiftLeft_lor_of_lt _ (s2 <<< 6) 12 (by rw [Nat.shiftLeft_eq]; omega),
      Nat.shiftLeft_eq, Nat.shiftLeft_eq]
    omega
  rw [e1, e2, shiftLeft_lor_of_lt _ s3 6 (by omega)]
  omega

/-! ## The base64 alphabet -/

theorem decodeMap_encodeChar_fin : ∀ i : Fin 64, decodeMap (encodeChar i.val) = i.val := by
  decide

theorem decodeMap_encodeChar (i : Nat) (h : i < 64) : decodeMap (encodeChar i) = i :=
  decodeMap_encodeChar_fin ⟨i, h⟩

set_option maxRecDepth 100000 in
theorem decodeMap_cases : ∀ c : Byte, decodeMap c = 0xff ∨
    (decodeMap c < 64 ∧ c ≠ 10 ∧ c ≠ 13 ∧ c ≠ 32 ∧ c ≠ padChar ∧
      encodeChar (decodeMap c) = c) := by
  decide

theorem encodeChar_facts (i : Nat) (h : i < 64) :
    decodeMap (encodeChar i) ≠ 0xff ∧ encodeChar i ≠ 10 ∧ encodeChar i ≠ 13 ∧
      encodeChar i ≠ 32 ∧ encodeChar i ≠ padChar := by
  have hd := decodeMap_encodeChar i h
  rcases decodeMap_cases (encodeChar i) with h1 | h1
  · omega
  · exact ⟨by omega, h1.2.1, h1.2.2.1, h1.2.2.2.1, h1.2.2.2.2.1⟩

/-! ## Decoding what `Encode` wrote -/

theorem decodeFrom_alpha (c : Byte) (rest : List Byte) (n si j : Nat) (dbuf : List Nat)
    (out : List Byte) (h : decodeMap c ≠ 0xff) :
    decodeFrom (c :: rest) n si j dbuf out =
      if j = 3 then decodeFrom rest n (si + 1) 0 [] (out ++ quantumBytes (dbuf ++ [decodeMap c]) 4)
      else decodeFrom rest n (si + 1) (j + 1) (dbuf ++ [decodeMap c]) out := by
  simp only [decodeFrom, h, ne_eq, not_false_eq_true, if_true]

theorem decodeFrom_quantum (s0 s1 s2 s3 : Nat) (h0 : s0 < 64) (h1 : s1 < 64) (h2 : s2 < 64)
    (h3 : s3 < 64) (rest : List Byte) (n si : Nat) (out : List Byte) :
    decodeFrom (encodeChar s0 :: encodeChar s1 :: encodeChar s2 :: encodeChar s3 :: rest)
        n si 0 [] out =
      decodeFrom rest n (si + 4) 0 [] (out ++ quantumBytes [s0, s1, s2, s3] 4) := by
  have e0 := (encodeChar_facts s0 h0).1
  have e1 := (encodeChar_facts s1 h1).1
  have e2 := (encodeChar_facts s2 h2).1
  have e3 := (encodeChar_facts s3 h3).1
  rw [decodeFrom_alpha _ _ _ _ _ _ _ e0, decodeMap_encodeChar s0 h0]
  simp only [Nat.reduceEqDiff, if_false, List.nil_append, Nat.zero_add]
  rw [decodeFrom_alpha _ _ _ _ _ _ _ e1, decodeMap_encodeChar s1 h1]
  simp only [Nat.reduceEqDiff, if_false, List.cons_append, List.nil_append, Nat.reduceAdd]
  rw [decodeFrom_alpha _ _ _ _ _ _ _ e2, decodeMap_encodeChar s2 h2]
  simp only [Nat.reduceEqDiff, if_false, List.cons_append, List.nil_append, Nat.reduceAdd]
  rw [decodeFrom_alpha _ _ _ _ _ _ _ e3, decodeMap_encodeChar s3 h3]
  simp only [if_true, List.cons_append, List.nil_append, Nat.add_assoc, Nat.reduceAdd]

theorem quantumBytes_group (a b c : Byte) :
    quantumBytes
      [((a.val <<< 16 ||| b.val <<< 8 ||| c.val) >>> 18) &&& 0x3F,
       ((a.val <<< 16 ||| b.val <<< 8 ||| c.val) >>> 12) &&& 0x3F,
       ((a.val <<< 16 ||| b.val <<< 8 ||| c.val) >>> 6) &&& 0x3F,
       (a.val <<< 16 ||| b.val <<< 8 ||| c.val) &&& 0x3F] 4 = [a, b, c] := by
  have ha := a.isLt
  have hb := b.isLt
  have hc := c.isLt
  simp only [quantumBytes, List.getD_cons_zero, List.getD_cons_succ, group_val, land_63,
    Nat.shiftRight_eq_div_pow]
  rw [sextet_val _ _ _ _ (Nat.mod_lt _ (by decide)) (Nat.mod_lt _ (by decide))
    (Nat.mod_lt _ (by decide))]
  simp only [Nat.add_one_sub_one, List.take_succ_cons, List.take_zero]
  congr 1
  · apply toByte_of_val; omega
  congr 1
  · apply toByte_of_val; omega
  congr 1
  · apply toByte_of_val; omega

theorem decodeMap_padChar : decodeMap (61 : Byte) = 0xff := by decide

theorem decodeFrom_pad2 (s0 s1 : Nat) (n si : Nat) (out : List Byte) :
    decodeFrom [padChar, padChar] n si 2 [s0, s1] out = (out ++ quantumBytes [s0, s1] 2, none) := by
  simp [decodeFrom, decodeMap_padChar, skipNewlines, padChar]

theorem decodeFrom_pad1 (s0 s1 s2 : Nat) (n si : Nat) (out : List Byte) :
    decodeFrom [padChar] n si 3 [s0, s1, s2] out = (out ++ quantumBytes [s0, s1, s2] 3, none) := by
  simp [decodeFrom, decodeMap_padChar, skipNewlines, padChar]

theorem quantumBytes_group1 (a : Byte) :
    quantumBytes [((a.val <<< 16) >>> 18) &&& 0x3F, ((a.val <<< 16) >>> 12) &&& 0x3F] 2 = [a] := by
  have ha := a.isLt
  have e : a.val <<< 16 = a.val * 65536 := by rw [Nat.shiftLeft_eq]
  simp only [quantumBytes, List.getD_cons_zero, List.getD_cons_succ, List.getD_nil, land_63,
    Nat.shiftRight_eq_div_pow, e]
  rw [sextet_val _ _ _ _ (Nat.mod_lt _ (by decide)) (by decide) (by decide)]
  simp only [Nat.add_one_sub_one, List.take_succ_cons, List.take_zero]
  congr 1
  apply toByte_of_val; omega

theorem quantumBytes_group2 (a b : Byte) :
    quantumBytes
      [((a.val <<< 16 ||| b.val <<< 8) >>> 18) &&& 0x3F,
       ((a.val <<< 16 ||| b.val <<< 8) >>> 12) &&& 0x3F,
       ((a.val <<< 16 ||| b.val <<< 8) >>> 6) &&& 0x3F] 3 = [a, b] := by
  have ha := a.isLt
  have hb := b.isLt
  simp only [quantumBytes, List.getD_cons_zero, List.getD_cons_succ, List.getD_nil, group_val2,
    land_63, Nat.shiftRight_eq_div_pow]
  rw [sextet_val _ _ _ _ (Nat.mod_lt _ (by decide)) (Nat.mod_lt _ (by decide)) (by decide)]
  simp only [Nat.add_one_sub_one, List.take_succ_cons, List.take_zero]
  congr 1
  · apply toByte_of_val; omega
  congr 1
  · apply toByte_of_val; omega

/-- Decoding the output of `Encode` from a fresh quantum appends the encoded bytes. -/
theorem decodeFrom_Encode (bs : List Byte) :
    ∀ (n si : Nat) (out : List Byte), decodeFrom (Encode bs) n si 0 [] out = (out ++ bs, none) := by
  induction bs using Encode.induct with
  | case1 => intro n si out; simp [Encode, decodeFrom]
  | case2 a =>
    intro n si out
    have h0 : ((a.val <<< 16) >>> 18) &&& 0x3F < 64 := by rw [land_63]; omega
    have h1 : ((a.val <<< 16) >>> 12) &&& 0x3F < 64 := by rw [land_63]; omega
    simp only [Encode]
    rw [decodeFrom_alpha _ _ _ _ _ _ _ (encodeChar_facts _ h0).1, decodeMap_encodeChar _ h0]
    simp only [Nat.reduceEqDiff, if_false, List.nil_append, Nat.zero_add]
    rw [decodeFrom_alpha _ _ _ _ _ _ _ (encodeChar_facts _ h1).1, decodeMap_encodeChar _ h1]
    simp only [Nat.reduceEqDiff, if_false, List.cons_append, List.nil_append, Nat.reduceAdd]
    rw [decodeFrom_pad2, quantumBytes_group1]
  | case3 a b =>
    intro n si out
    have h0 : ((a.val <<< 16 ||| b.val <<< 8) >>> 18) &&& 0x3F < 64 := by rw [land_63]; omega
    have h1 : ((a.val <<< 16 ||| b.val <<< 8) >>> 12) &&& 0x3F < 64 := by rw [land_63]; omega
    have h2 : ((a.val <<< 16 ||| b.val <<< 8) >>> 6) &&& 0x3F < 64 := by rw [land_63]; omega
    simp only [Encode]
    rw [decodeFrom_alpha _ _ _ _ _ _ _ (encodeChar_facts _ h0).1, decodeMap_encodeChar _ h0]
    simp only [Nat.reduceEqDiff, if_false, List.nil_append, Nat.zero_add]
    rw [decodeFrom_alpha _ _ _ _ _ _ _ (encodeChar_facts _ h1).1, decodeMap_encodeChar _ h1]
    simp only [Nat.reduceEqDiff, if_false, List.cons_append, List.nil_append, Nat.reduceAdd]
    rw [decodeFrom_alpha _ _ _ _ _ _ _ (encodeChar_facts _ h2).1, decodeMap_encodeChar _ h2]
    simp only [Nat.reduceEqDiff, if_false, List.cons_append, List.nil_append, Nat.reduceAdd]
    rw [decodeFrom_pad1, quantumBytes_group2]
  | case4 a b c rest ih =>
    intro n si out
    have h0 : ((a.val <<< 16 ||| b.val <<< 8 ||| c.val) >>> 18) &&& 0x3F < 64 := by
      rw [land_63]; omega
    have h1 : ((a.val <<< 16 ||| b.val <<< 8 ||| c.val) >>> 12) &&& 0x3F < 64 := by
      rw [land_63]; omega
    have h2 : ((a.val <<< 16 ||| b.val <<< 8 ||| c.val) >>> 6) &&& 0x3F < 64 := by
      rw [land_63]; omega
    have h3 : (a.val <<< 16 ||| b.val <<< 8 ||| c.val) &&& 0x3F < 64 := by
      rw [land_63]; omega
    simp only [Encode]
    rw [decodeFrom_quantum _ _ _ _ h0 h1 h2 h3, quantumBytes_group, ih]
    simp

/-- `DecodeString` inverts `Encode`. -/
theorem DecodeString_Encode (bs : List Byte) : DecodeString (Encode bs) = (bs, none) := by
  rw [DecodeString, decodeFrom_Encode]
  simp

/-! ## Trimming -/

theorem dropWhile_eq_self {α : Type} (p : α → Bool) (l : List α)
    (h : ∀ x, l.head? = some x → p x = false) : l.dropWhile p = l := by
  cases l with
  | nil => rfl
  | cons a t => simp [List.dropWhile, h a rfl]

/-- `Trim` leaves a text alone whose first and last bytes are outside the cutset. -/
theorem Trim_eq_self (s cutset : List Byte)
    (hh : ∀ x, s.head? = some x → cutset.contains x = false)
    (hl : ∀ x, s.getLast? = some x → cutset.contains x = false) : Trim s cutset = s := by
  unfold Trim
  rw [dropWhile_eq_self _ s.reverse (by simpa using hl), List.reverse_reverse,
    dropWhile_eq_self _ s hh]

/-- Every byte written by `Encode` is a character of the alphabet or the padding. -/
theorem Encode_mem (bs : List Byte) :
    ∀ x ∈ Encode bs, x = padChar ∨ ∃ i, i < 64 ∧ x = encodeChar i := by
  induction bs using Encode.induct with
  | case1 => simp [Encode]
  | case2 a =>
    intro x hx
    simp only [Encode, List.mem_cons, List.mem_singleton, List.not_mem_nil, or_false] at hx
    rcases hx with h | h | h | h
    · exact Or.inr ⟨_, by rw [land_63]; omega, h⟩
    · exact Or.inr ⟨_, by rw [land_63]; omega, h⟩
    · exact Or.inl h
    · exact Or.inl h
  | case3 a b =>
    intro x hx
    simp only [Encode, List.mem_cons, List.mem_singleton, List.not_mem_nil, or_false] at hx
    rcases hx with h | h | h | h
    · exact Or.inr ⟨_, by rw [land_63]; omega, h⟩
    · exact Or.inr ⟨_, by rw [land_63]; omega, h⟩
    · exact Or.inr ⟨_, by rw [land_63]; omega, h⟩
    · exact Or.inl h
  | case4 a b c rest ih =>
    intro x hx
    simp only [Encode, List.mem_cons] at hx
    rcases hx with h | h | h | h | h
    · exact Or.inr ⟨_, by rw [land_63]; omega, h⟩
    · exact Or.inr ⟨_, by rw [land_63]; omega, h⟩
    · exact Or.inr ⟨_, by rw [land_63]; omega, h⟩
    · exact Or.inr ⟨_, by rw [land_63]; omega, h⟩
    · exact ih x h

theorem Encode_not_space (bs : List Byte) (x : Byte) (hx : x ∈ Encode bs) :
    (32 :: crlf).contains x = false := by
  have key : x ≠ 32 ∧ x ≠ 13 ∧ x ≠ 10 := by
    rcases Encode_mem bs x hx with h | ⟨i, hi, h⟩
    · subst h; decide
    · subst h
      have := encodeChar_facts i hi
      exact ⟨this.2.2.2.1, this.2.2.1, this.2.1⟩
  simp [crlf, key.1, key.2.1, key.2.2]

/-- `Trim` with the cutset of `decodeSize` leaves the output of `Encode` alone. -/
theorem Trim_Encode (bs : List Byte) : Trim (Encode bs) (32 :: crlf) = Encode bs := by
  apply Trim_eq_self
  · intro x hx
    exact Encode_not_space bs x (List.mem_of_mem_head? hx)
  · intro x hx
    exact Encode_not_space bs x (List.mem_of_getLast?_eq_some hx)

/-! ## Byte orders as arithmetic -/

theorem lor_bytes (b0 b1 b2 b3 b4 b5 b6 b7 : Byte) :
    b0.val ||| (b1.val <<< 8) ||| (b2.val <<< 16) ||| (b3.val <<< 24) ||| (b4.val <<< 32) |||
      (b5.val <<< 40) ||| (b6.val <<< 48) ||| (b7.val <<< 56) =
      b0.val + b1.val * 2 ^ 8 + b2.val * 2 ^ 16 + b3.val * 2 ^ 24 + b4.val * 2 ^ 32 +
        b5.val * 2 ^ 40 + b6.val * 2 ^ 48 + b7.val * 2 ^ 56 := by
  have h0 := b0.isLt
  have h1 := b1.isLt
  have h2 := b2.isLt
  have h3 := b3.isLt
  have h4 := b4.isLt
  have h5 := b5.isLt
  have h6 := b6.isLt
  rw [lor_shiftLeft_of_lt b1.val b0.val 8 (by omega),
    lor_shiftLeft_of_lt b2.val _ 16 (by omega),
    lor_shiftLeft_of_lt b3.val _ 24 (by omega),
    lor_shiftLeft_of_lt b4.val _ 32 (by omega),
    lor_shiftLeft_of_lt b5.val _ 40 (by omega),
    lor_shiftLeft_of_lt b6.val _ 48 (by omega),
    lor_shiftLeft_of_lt b7.val _ 56 (by omega)]

theorem Uint64_LittleEndian (b0 b1 b2 b3 b4 b5 b6 b7 : Byte) :
    ByteOrder.LittleEndian.Uint64 [b0, b1, b2, b3, b4, b5, b6, b7] =
      b0.val + b1.val * 2 ^ 8 + b2.val * 2 ^ 16 + b3.val * 2 ^ 24 + b4.val * 2 ^ 32 +
        b5.val * 2 ^ 40 + b6.val * 2 ^ 48 + b7.val * 2 ^ 56 :=
  lor_bytes b0 b1 b2 b3 b4 b5 b6 b7

theorem Uint64_BigEndian (b0 b1 b2 b3 b4 b5 b6 b7 : Byte) :
    ByteOrder.BigEndian.Uint64 [b0, b1, b2, b3, b4, b5, b6, b7] =
      b7.val + b6.val * 2 ^ 8 + b5.val * 2 ^ 16 + b4.val * 2 ^ 24 + b3.val * 2 ^ 32 +
        b2.val * 2 ^ 40 + b1.val * 2 ^ 48 + b0.val * 2 ^ 56 :=
  lor_bytes b7 b6 b5 b4 b3 b2 b1 b0

theorem Uint64_lt (order : ByteOrder) (bs : List Byte) : order.Uint64 bs < 2 ^ 64 := by
  unfold ByteOrder.Uint64
  split
  · rename_i b0 b1 b2 b3 b4 b5 b6 b7
    rw [lor_bytes]
    have h0 := b0.isLt
    have h1 := b1.isLt
    have h2 := b2.isLt
    have h3 := b3.isLt
    have h4 := b4.isLt
    have h5 := b5.isLt
    have h6 := b6.isLt
    have h7 := b7.isLt
    omega
  · rename_i b0 b1 b2 b3 b4 b5 b6 b7
    rw [lor_bytes]
    have h0 := b0.isLt
    have h1 := b1.isLt
    have h2 := b2.isLt
    have h3 := b3.isLt
    have h4 := b4.isLt
    have h5 := b5.isLt
    have h6 := b6.isLt
    have h7 := b7.isLt
    omega
  · decide

/-- Writing a `uint64` and reading it back in the same order. -/
theorem Uint64_PutUint64 (order : ByteOrder) (u : Nat) (h : u < 2 ^ 64) :
    order.Uint64 (order.PutUint64 u) = u := by
  cases order with
  | LittleEndian =>
    rw [ByteOrder.PutUint64, Uint64_LittleEndian]
    simp only [toByte_val, Nat.shiftRight_eq_div_pow]
    omega
  | BigEndian =>
    rw [ByteOrder.PutUint64, Uint64_BigEndian]
    simp only [toByte_val, Nat.shiftRight_eq_div_pow]
    omega

theorem PutUint64_length (order : ByteOrder) (u : Nat) : (order.PutUint64 u).length = 8 := by
  cases order <;> rfl

theorem toUint64_lt (v : Int) : toUint64 v < 2 ^ 64 := by
  unfold toUint64
  omega

/-- An `int64` survives the conversion to `uint64` and back. -/
theorem toInt64_toUint64 (v : Int) (h1 : -2 ^ 63 ≤ v) (h2 : v < 2 ^ 63) :
    toInt64 (toUint64 v) = v := by
  unfold toInt64 toUint64
  split <;> omega

theorem binaryRead_eight (bs : List Byte) (order : ByteOrder) (h : bs.length = 8) :
    binaryRead bs order = .ok (toInt64 (order.Uint64 bs)) := by
  have ht : bs.take 8 = bs := List.take_of_length_le (by omega)
  simp [binaryRead, h, ht]

theorem sizeFromBinary_eight (bs : List Byte) (order : ByteOrder) (h : bs.length = 8) :
    sizeFromBinary bs (some order) = .ret (toInt64 (order.Uint64 bs)) := by
  simp [sizeFromBinary, binaryRead_eight bs order h]

/-! ## The size codec -/

theorem threshold_eq : ((MaxInt32 <<< 1 : Nat) : Int) = 4294967294 := by decide

/-- What `decodeSize` does on the base64 text of an 8-byte payload. -/
theorem decodeSize_Encode (p : List Byte) (h : p.length = 8) :
    decodeSize (Encode p) =
      if toInt64 (ByteOrder.LittleEndian.Uint64 p) > 4294967294 then
        .ret (toInt64 (ByteOrder.BigEndian.Uint64 p), some .BigEndian, none)
      else .ret (toInt64 (ByteOrder.LittleEndian.Uint64 p), some .LittleEndian, none) := by
  unfold decodeSize
  rw [Trim_Encode, DecodeString_Encode]
  simp only [sizeFromBinary_eight p _ h, threshold_eq, bind, Run.bind, pure]

theorem encodeSize_nonzero (size : Int) (order : ByteOrder) (h : size ≠ 0) :
    encodeSize size (some order) = .ret (Encode (binaryWrite order size), none) := by
  simp [encodeSize, h, sizeToBinary, bind, Run.bind, pure]

theorem binaryWrite_length (order : ByteOrder) (size : Int) :
    (binaryWrite order size).length = 8 :=
  PutUint64_length order _

/-- Reading back, in the same order, the bytes `binaryWrite` produced. -/
theorem Uint64_binaryWrite (order : ByteOrder) (size : Int) (h1 : -2 ^ 63 ≤ size)
    (h2 : size < 2 ^ 63) : toInt64 (order.Uint64 (binaryWrite order size)) = size := by
  rw [binaryWrite, Uint64_PutUint64 order _ (toUint64_lt size), toInt64_toUint64 size h1 h2]

theorem encodeChar_cons_congr {x y : Nat} {l l' : List Byte} (h : x = y) (hl : l = l') :
    encodeChar x :: l = encodeChar y :: l' := by
  rw [h, hl]

theorem bits_sextet0 (x : Nat) (hx : x < 256) :
    2 * (2 * (2 * (2 * (2 * (2 * 0 + x / 128 % 2) + x / 64 % 2) + x / 32 % 2) + x / 16 % 2) +
      x / 8 % 2) + x / 4 % 2 = x / 4 := by
  omega

theorem bits_sextet1 (x y : Nat) (hy : y < 256) :
    2 * (2 * (2 * (2 * (2 * (2 * 0 + x / 2 % 2) + x % 2) + y / 128 % 2) + y / 64 % 2) +
      y / 32 % 2) + y / 16 % 2 = x % 4 * 16 + y / 16 := by
  omega

theorem bits_sextet2 (y z : Nat) (hz : z < 256) :
    2 * (2 * (2 * (2 * (2 * (2 * 0 + y / 8 % 2) + y / 4 % 2) + y / 2 % 2) + y % 2) +
      z / 128 % 2) + z / 64 % 2 = y % 16 * 4 + z / 64 := by
  omega

theorem bits_sextet3 (z : Nat) :
    2 * (2 * (2 * (2 * (2 * (2 * 0 + z / 32 % 2) + z / 16 % 2) + z / 8 % 2) + z / 4 % 2) +
      z / 2 % 2) + z % 2 = z % 64 := by
  omega

theorem bits_sextet2_last (y : Nat) :
    2 * (2 * (2 * (2 * (2 * (2 * 0 + y / 8 % 2) + y / 4 % 2) + y / 2 % 2) + y % 2) + 0) + 0 =
      y % 16 * 4 := by
  omega

/-- On 8 bytes, the Go encoder writes the standard base64 text. -/
theorem Encode_eq_stdBase64 (b0 b1 b2 b3 b4 b5 b6 b7 : Byte) :
    Encode [b0, b1, b2, b3, b4, b5, b6, b7] = stdBase64 [b0, b1, b2, b3, b4, b5, b6, b7] := by
  have h0 := b0.isLt
  have h1 := b1.isLt
  have h2 := b2.isLt
  have h3 := b3.isLt
  have h4 := b4.isLt
  have h5 := b5.isLt
  have h6 := b6.isLt
  have h7 := b7.isLt
  simp only [Encode, stdBase64, bitsOf, List.flatMap, List.map, List.flatten, List.cons_append,
    List.nil_append, sixBitGroups, bitsValue, List.foldl, List.replicate, List.take,
    List.length, group_val2, group_val_add, land_63, Nat.shiftRight_eq_div_pow]
  rw [bits_sextet0 _ h0, bits_sextet1 _ _ h1, bits_sextet2 _ _ h2, bits_sextet3,
    bits_sextet0 _ h3, bits_sextet1 _ _ h4, bits_sextet2 _ _ h5, bits_sextet3,
    bits_sextet0 _ h6, bits_sextet1 _ _ h7, bits_sextet2_last]
  iterate 11 refine encodeChar_cons_congr (by omega) ?_
  rfl

/-! ## Invalid and short base64 input -/

set_option maxRecDepth 100000 in
theorem decodeMap_of_not_mem : ∀ c : Byte, c ∉ encodeStd → decodeMap c = 0xff := by
  decide

/-- `skipNewlines` drops nothing but CR and LF. -/
theorem skipNewlines_keeps (l : List Byte) :
    ∀ (si : Nat) (x : Byte), x ∈ l → x ≠ 13 → x ≠ 10 → x ∈ (skipNewlines l si).1 := by
  induction l with
  | nil => intro si x hx; simp at hx
  | cons c rest ih =>
    intro si x hx h13 h10
    unfold skipNewlines
    split
    · rename_i hc
      rcases List.mem_cons.mp hx with h | h
      · subst h
        rcases hc with hc | hc
        · exact absurd hc h10
        · exact absurd hc h13
      · exact ih (si + 1) x h h13 h10
    · exact hx

/-- An input holding a refused byte never decodes without error. -/
theorem decodeFrom_refused (src : List Byte) :
    ∀ (n si j : Nat) (dbuf : List Nat) (out : List Byte), (∃ x ∈ src, refused x) →
      ∃ e, (decodeFrom src n si j dbuf out).2 = some e := by
  induction src with
  | nil => intro n si j dbuf out h; simp at h
  | cons c rest ih =>
    intro n si j dbuf out h
    obtain ⟨x, hx, hr⟩ := h
    have hxm : decodeMap x = 0xff := decodeMap_of_not_mem x hr.1
    unfold decodeFrom
    split
    · rename_i hc
      have hrest : x ∈ rest := by
        rcases List.mem_cons.mp hx with h | h
        · subst h; exact absurd hxm hc
        · exact h
      split
      · exact ih _ _ _ _ _ ⟨x, hrest, hr⟩
      · exact ih _ _ _ _ _ ⟨x, hrest, hr⟩
    · split
      · rename_i hnl
        have hrest : x ∈ rest := by
          rcases List.mem_cons.mp hx with h | h
          · subst h
            rcases hnl with h | h
            · exact absurd h hr.2.2.2
            · exact absurd h hr.2.2.1
          · exact h
        exact ih _ _ _ _ _ ⟨x, hrest, hr⟩
      · split
        · exact ⟨_, rfl⟩
        · rename_i hpad
          have hcp : c = padChar := by simpa using hpad
          have hrest : x ∈ rest := by
            rcases List.mem_cons.mp hx with h | h
            · subst h; exact absurd hcp hr.2.1
            · exact h
          split
          · exact ⟨_, rfl⟩
          · exact ⟨_, rfl⟩
          · have hk := skipNewlines_keeps rest (si + 1) x hrest hr.2.2.1 hr.2.2.2
            split
            · rename_i heq
              rw [heq] at hk
              simp at hk
            · rename_i c1 rest2 si1 heq
              rw [heq] at hk
              split
              · exact ⟨_, rfl⟩
              · rename_i hc1
                have hc1p : c1 = padChar := by simpa using hc1
                have hrest2 : x ∈ rest2 := by
                  rcases List.mem_cons.mp hk with h | h
                  · subst h; exact absurd hc1p hr.2.1
                  · exact h
                have hk2 := skipNewlines_keeps rest2 (si1 + 1) x hrest2 hr.2.2.1 hr.2.2.2
                split
                · rename_i heq2
                  rw [heq2] at hk2
                  simp at hk2
                · exact ⟨_, rfl⟩
          · have hk := skipNewlines_keeps rest (si + 1) x hrest hr.2.2.1 hr.2.2.2
            split
            · rename_i heq
              rw [heq] at hk
              simp at hk
            · exact ⟨_, rfl⟩

/-- What `decodeSize` does once `DecodeString` has failed. -/
theorem decodeSize_of_decode_error (b : List Byte) (e : GoError)
    (h : (DecodeString (Trim b (32 :: crlf))).2 = some e) :
    decodeSize b = .ret (0, none, some e) := by
  unfold decodeSize
  split
  · rename_i bs err heq
    rw [heq] at h
    simp at h
    rw [h]
  · rename_i bs heq
    rw [heq] at h
    simp at h

/-- What `decodeSize` does once `DecodeString` has given fewer than 8 bytes. -/
theorem decodeSize_of_short (b bs : List Byte)
    (h : DecodeString (Trim b (32 :: crlf)) = (bs, none)) (hlen : bs.length < 8) :
    decodeSize b = .panicked (if bs.length = 0 then .eof else .unexpectedEOF) := by
  unfold decodeSize
  rw [h]
  simp only [sizeFromBinary, binaryRead, bind, Run.bind]
  by_cases h0 : bs.length = 0
  · simp [h0]
  · simp [h0, hlen]

theorem Encode_length (bs : List Byte) : (Encode bs).length = EncodedLen bs.length := by
  induction bs using Encode.induct with
  | case1 => rfl
  | case2 a => simp [Encode, EncodedLen]
  | case3 a b => simp [Encode, EncodedLen]
  | case4 a b c rest ih =>
    simp only [Encode, List.length_cons, ih, EncodedLen]
    omega

theorem Encode_length_eight (p : List Byte) (h : p.length = 8) : (Encode p).length = 12 := by
  rw [Encode_length, h]
  rfl

theorem encodeChar_mem_fin : ∀ i : Fin 64, encodeChar i.val ∈ encodeStd := by decide

theorem encodeChar_mem (i : Nat) (h : i < 64) : encodeChar i ∈ encodeStd :=
  encodeChar_mem_fin ⟨i, h⟩

/-- The text `Encode` writes for 8 bytes: 11 characters of the alphabet and one `=`. -/
theorem Encode_eight_shape (p : List Byte) (h : p.length = 8) :
    ∃ body, Encode p = body ++ [padChar] ∧ body.length = 11 ∧ ∀ c ∈ body, c ∈ encodeStd := by
  match p, h with
  | [b0, b1, b2, b3, b4, b5, b6, b7], _ =>
    refine ⟨(Encode [b0, b1, b2, b3, b4, b5, b6, b7]).take 11, ?_, ?_, ?_⟩
    · simp [Encode]
    · simp [Encode]
    · intro c hc
      simp only [Encode, List.take_succ_cons, List.take_zero, List.mem_cons, List.mem_singleton,
        List.not_mem_nil, or_false] at hc
      rcases hc with h | h | h | h | h | h | h | h | h | h | h <;>
        (rw [h, land_63]; exact encodeChar_mem _ (Nat.mod_lt _ (by decide)))

/-! ## Claims on the size codec -/

/-- C1. Little-endian round trip: for every size `s` with `1 ≤ s ≤ 4294967294`,
`encodeSize s LittleEndian` returns bytes and no error, and `decodeSize` of these bytes
returns exactly `(s, LittleEndian)` and no error. -/
theorem encodeSize_decodeSize_LittleEndian (s : Int) (h1 : 1 ≤ s) (h2 : s ≤ 4294967294) :
    ∃ out, encodeSize s (some .LittleEndian) = .ret (out, none) ∧
      decodeSize out = .ret (s, some .LittleEndian, none) := by
  refine ⟨Encode (binaryWrite .LittleEndian s), encodeSize_nonzero s _ (by omega), ?_⟩
  rw [decodeSize_Encode _ (binaryWrite_length _ _),
    Uint64_binaryWrite _ s (by omega) (by omega)]
  simp only [gt_iff_lt, ite_eq_right_iff]
  intro h
  omega

theorem encodeSize_decodeSize_LittleEndian_witness :
    (1 : Int) ≤ 780 ∧ (780 : Int) ≤ 4294967294 ∧
      ∃ out, encodeSize 780 (some .LittleEndian) = .ret (out, none) ∧
        decodeSize out = .ret (780, some .LittleEndian, none) :=
  ⟨by decide, by decide, encodeSize_decodeSize_LittleEndian 780 (by decide) (by decide)⟩

/-- C2, the code at the failing input: the big-endian encoding of 128 is the text
`AAAAAAAAAIA=`, and `decodeSize` reads it as the little-endian size `-2^63`, because the
little-endian reading is negative and so not above the threshold. -/
theorem encodeSize_decodeSize_BigEndian_128 :
    encodeSize 128 (some .BigEndian) =
        .ret ([65, 65, 65, 65, 65, 65, 65, 65, 65, 73, 65, 61], none) ∧
      decodeSize [65, 65, 65, 65, 65, 65, 65, 65, 65, 73, 65, 61] =
        .ret (-9223372036854775808, some .LittleEndian, none) := by
  decide

/-- C6 as stated fails: the payload `00 00 00 00 01 00 00 00` reads little-endian as
`4294967296`, which the claim keeps little-endian, and `decodeSize` reports it big-endian
(as `16777216`). -/
theorem decodeSize_threshold_counterexample :
    toInt64 (ByteOrder.LittleEndian.Uint64 [0, 0, 0, 0, 1, 0, 0, 0]) = 4294967296 ∧
      decodeSize (Encode [0, 0, 0, 0, 1, 0, 0, 0]) = .ret (16777216, some .BigEndian, none) := by
  decide

/-- C6, amended. Byte-order threshold of decode: for every 8-byte payload `p`, `decodeSize`
on the base64 text of `p` reports BigEndian (returning `p` read big-endian) exactly when `p`
read as a little-endian signed 64-bit integer exceeds `math.MaxInt32<<1 = 4294967294`, and
otherwise reports LittleEndian (returning `p` read little-endian). -/
theorem decodeSize_byte_order_threshold (p : List Byte) (h : p.length = 8) :
    decodeSize (Encode p) =
      if toInt64 (ByteOrder.LittleEndian.Uint64 p) > 4294967294 then
        .ret (toInt64 (ByteOrder.BigEndian.Uint64 p), some .BigEndian, none)
      else .ret (toInt64 (ByteOrder.LittleEndian.Uint64 p), some .LittleEndian, none) :=
  decodeSize_Encode p h

theorem decodeSize_byte_order_threshold_witness :
    decodeSize (Encode [254, 255, 255, 255, 0, 0, 0, 0]) =
      if toInt64 (ByteOrder.LittleEndian.Uint64 [254, 255, 255, 255, 0, 0, 0, 0]) > 4294967294
      then .ret (toInt64 (ByteOrder.BigEndian.Uint64 [254, 255, 255, 255, 0, 0, 0, 0]),
        some .BigEndian, none)
      else .ret (toInt64 (ByteOrder.LittleEndian.Uint64 [254, 255, 255, 255, 0, 0, 0, 0]),
        some .LittleEndian, none) :=
  decodeSize_byte_order_threshold [254, 255, 255, 255, 0, 0, 0, 0] (by decide)

/-- C7. `encodeSize` fails exactly on zero: with size 0 it returns `errZeroFilesize` and no
bytes, whatever the byte order (a nil one included); with any other size and either byte
order it returns 12 bytes and no error. -/
theorem encodeSize_fails_exactly_on_zero (size : Int) (order : ByteOrder) :
    (∀ o : Option ByteOrder, encodeSize 0 o = .ret ([], some .errZeroFilesize)) ∧
      encodeSize size (some order) =
        (if size = 0 then .ret ([], some .errZeroFilesize)
         else .ret (Encode (binaryWrite order size), none)) ∧
      (Encode (binaryWrite order size)).length = 12 := by
  refine ⟨fun o => by simp [encodeSize], ?_, Encode_length_eight _ (binaryWrite_length _ _)⟩
  by_cases h : size = 0
  · simp [h, encodeSize]
  · simp [h, encodeSize_nonzero size order h]

/-- C8. The output of `encodeSize` is the fixed-width standard base64 of the 8-byte integer:
for every non-zero `int64` size and either byte order, `encodeSize` returns no error and a
text that is exactly 12 bytes long, that is the standard base64 encoding of the 8 bytes of
`size` in that order (8 bytes which read back, in that order, as `size`), and that consists
of 11 characters of the alphabet followed by a single `=`. -/
theorem encodeSize_is_stdBase64 (size : Int) (order : ByteOrder) (h0 : size ≠ 0)
    (h1 : -2 ^ 63 ≤ size) (h2 : size < 2 ^ 63) :
    ∃ out body, encodeSize size (some order) = .ret (out, none) ∧ out.length = 12 ∧
      (binaryWrite order size).length = 8 ∧
      toInt64 (order.Uint64 (binaryWrite order size)) = size ∧
      out = stdBase64 (binaryWrite order size) ∧
      out = body ++ [padChar] ∧ body.length = 11 ∧ ∀ c ∈ body, c ∈ encodeStd := by
  obtain ⟨body, hb1, hb2, hb3⟩ := Encode_eight_shape _ (binaryWrite_length order size)
  refine ⟨Encode (binaryWrite order size), body, encodeSize_nonzero size order h0,
    Encode_length_eight _ (binaryWrite_length _ _), binaryWrite_length _ _,
    Uint64_binaryWrite order size h1 h2, ?_, hb1, hb2, hb3⟩
  cases order <;> exact Encode_eq_stdBase64 _ _ _ _ _ _ _ _

theorem encodeSize_is_stdBase64_witness :
    (0x01020304050607 : Int) ≠ 0 ∧
      ∃ out body, encodeSize 0x01020304050607 (some .BigEndian) = .ret (out, none) ∧
        out.length = 12 ∧
        (binaryWrite .BigEndian 0x01020304050607).length = 8 ∧
        toInt64 (ByteOrder.BigEndian.Uint64 (binaryWrite .BigEndian 0x01020304050607)) =
          0x01020304050607 ∧
        out = stdBase64 (binaryWrite .BigEndian 0x01020304050607) ∧
        out = body ++ [padChar] ∧ body.length = 11 ∧ ∀ c ∈ body, c ∈ encodeStd :=
  ⟨by decide, encodeSize_is_stdBase64 0x01020304050607 .BigEndian (by decide) (by decide)
    (by decide)⟩

/-- C9 as stated fails: the text `DA==` is valid base64 for the single byte `0x0c`, and
`decodeSize` panics on it (with `io.ErrUnexpectedEOF`) instead of returning an error; on the
empty text it panics with `io.EOF`. -/
theorem decodeSize_short_counterexample :
    DecodeString (Trim [68, 65, 61, 61] (32 :: crlf)) = ([12], none) ∧
      decodeSize [68, 65, 61, 61] = .panicked .unexpectedEOF ∧
      DecodeString (Trim [] (32 :: crlf)) = ([], none) ∧
      decodeSize [] = .panicked .eof := by
  decide

/-- C9, amended. For every input whose trimmed text is valid base64 but decodes to fewer
than 8 bytes, `decodeSize` does not return: it panics, with `io.EOF` when no byte was
decoded and with `io.ErrUnexpectedEOF` otherwise. -/
theorem decodeSize_short_panics (b bs : List Byte)
    (h : DecodeString (Trim b (32 :: crlf)) = (bs, none)) (hlen : bs.length < 8) :
    decodeSize b = .panicked (if bs.length = 0 then .eof else .unexpectedEOF) :=
  decodeSize_of_short b bs h hlen

theorem decodeSize_short_panics_witness :
    DecodeString (Trim [68, 65, 61, 61, 32, 10] (32 :: crlf)) = ([12], none) ∧
      decodeSize [68, 65, 61, 61, 32, 10] =
        .panicked (if ([12] : List Byte).length = 0 then .eof else .unexpectedEOF) :=
  ⟨by decide, decodeSize_short_panics [68, 65, 61, 61, 32, 10] [12] (by decide) (by decide)⟩

/-- C10. `decodeSize` rejects invalid base64: for every input that, after trimming the
surrounding spaces, CR and LF, still holds a byte that is outside the standard alphabet, is
not `=` and is neither CR nor LF, `decodeSize` returns an error together with size 0 and a
nil byte order. -/
theorem decodeSize_rejects_invalid_base64 (b : List Byte)
    (h : ∃ c ∈ Trim b (32 :: crlf), refused c) :
    ∃ e, decodeSize b = .ret (0, none, some e) := by
  obtain ⟨e, he⟩ := decodeFrom_refused _ (Trim b (32 :: crlf)).length 0 0 [] [] h
  exact ⟨e, decodeSize_of_decode_error b e he⟩

theorem decodeSize_rejects_invalid_base64_witness :
    (∃ c ∈ Trim [0, 0, 0, 0, 1, 2, 3, 4] (32 :: crlf), refused c) ∧
      ∃ e, decodeSize [0, 0, 0, 0, 1, 2, 3, 4] = .ret (0, none, some e) :=
  ⟨⟨0, by decide, by decide⟩,
    decodeSize_rejects_invalid_base64 [0, 0, 0, 0, 1, 2, 3, 4] ⟨0, by decide, by decide⟩⟩

/-! ## Claims on the patcher and the command -/

set_option maxRecDepth 100000 in
/-- C3, the code at the failing input: `readHeader` parses the 128-byte file
`bigEndianFile` and detects BigEndian; `FixSize` writes 12 bytes with no error; and
`IsHeaderCorrect` on the patched file answers false, reading the freshly written
`AAAAAAAAAIA=` as a negative little-endian size. -/
theorem FixSize_IsHeaderCorrect_BigEndian_128 :
    bigEndianFile.length = 128 ∧
      readHeader bigEndianFile = .ret (some bigEndianHeader, none) ∧
      NSFile.FixSize ⟨some bigEndianHeader, ⟨bigEndianFile, 0, "siebns.dat"⟩⟩ =
        .ret ((12, none), ⟨some bigEndianHeader, ⟨bigEndianFixed, 69, "siebns.dat"⟩⟩) ∧
      NSFile.IsHeaderCorrect ⟨some bigEndianHeader, ⟨bigEndianFixed, 69, "siebns.dat"⟩⟩ =
        .ret (false, ⟨some sampleHeader, ⟨bigEndianFixed, 69, "siebns.dat"⟩⟩) := by
  decide

set_option maxRecDepth 100000 in
/-- C5, the code at the failing input: on the sample file, whose header records 780 for a
real size of 121, `IsHeaderCorrect` answers false and `main` reports that no correction is
needed, without calling `FixSize`; on a file whose header is correct, `IsHeaderCorrect`
answers true and `main` calls `FixSize`. -/
theorem main_inverts_the_check :
    NSFile.IsHeaderCorrect ⟨some sampleHeader, ⟨testfileEmpty, 121, "siebns.dat"⟩⟩ =
        .ret (false, ⟨some sampleHeader, ⟨testfileEmpty, 69, "siebns.dat"⟩⟩) ∧
      main ["siebnsfix", "siebns.dat"] (some testfileEmpty) =
        .ret { out := [.banner, .noCorrectionNeeded "siebns.dat"], exitCode := 0,
               calledFixSize := false, contents := some testfileEmpty } ∧
      NSFile.IsHeaderCorrect ⟨some sampleHeader, ⟨testfileCorrect, 121, "siebns.dat"⟩⟩ =
        .ret (true, ⟨some sampleHeader, ⟨testfileCorrect, 69, "siebns.dat"⟩⟩) ∧
      main ["siebnsfix", "siebns.dat"] (some testfileCorrect) =
        .ret { out := [.banner, .correctionNeeded "siebns.dat", .updated "siebns.dat" 12],
               exitCode := 0, calledFixSize := true, contents := some testfileCorrect } := by
  decide

/-- What `Write` leaves in a file when the written range lies inside it. -/
theorem Write_in_place (f : nsDisker) (data : List Byte)
    (h : f.offset + data.length ≤ f.data.length) :
    (f.Write data).2.data = f.data.take f.offset ++ data ++ f.data.drop (f.offset + data.length) ∧
      (f.Write data).2.data.length = f.data.length ∧
      (∀ i, i < f.offset ∨ f.offset + data.length ≤ i → (f.Write data).2.data[i]? = f.data[i]?) ∧
      ((f.Write data).2.data.drop f.offset).take data.length = data := by
  have hrep : f.offset - f.data.length = 0 := by omega
  have hdata : (f.Write data).2.data =
      f.data.take f.offset ++ data ++ f.data.drop (f.offset + data.length) := by
    simp [nsDisker.Write, hrep]
  have htake : (f.data.take f.offset).length = f.offset := by
    rw [List.length_take]; omega
  refine ⟨hdata, ?_, ?_, ?_⟩
  · rw [hdata]
    simp only [List.length_append, htake, List.length_drop]
    omega
  · intro i hi
    rw [hdata]
    rcases hi with hi | hi
    · rw [List.append_assoc, List.getElem?_append_left (by omega), List.getElem?_take_of_lt hi]
    · rw [List.getElem?_append_right (by simp only [List.length_append, htake]; omega),
        List.getElem?_drop]
      congr 1
      simp only [List.length_append, htake]
      omega
  · rw [hdata, List.append_assoc, List.drop_left' htake, List.take_left' rfl]

/-- What `FixSize` does with a header that carries a byte order and a checksum offset
inside a non-empty file. -/
theorem FixSize_eq (hdr : nsHeader) (f : nsDisker) (order : ByteOrder) (o : Nat)
    (hord : hdr.byteOrder = some order) (hoff : hdr.offsets.checksum = (o : Int))
    (hL : 0 < f.data.length) :
    NSFile.FixSize ⟨some hdr, f⟩ =
      .ret ((12, none),
        ⟨some hdr, ({ f with offset := o } : nsDisker).Write
          (Encode (binaryWrite order f.data.length))|>.2⟩) := by
  have hne : (f.data.length : Int) ≠ 0 := by omega
  have hlen : ((Encode (binaryWrite order (f.data.length : Int))).length : Int) = 12 := by
    rw [Encode_length_eight _ (binaryWrite_length _ _)]; rfl
  simp only [NSFile.FixSize, NSFile.Size, nsDisker.StatSize, nsHeader.writeEncodedSize, hord,
    hoff, encodeSize_nonzero _ order hne, nsDisker.Seek, bind, Run.bind, pure]
  have hneg : ¬ ((o : Int) < 0) := by omega
  simp only [hneg, if_false, Int.toNat_ofNat]
  simp only [nsDisker.Write, hlen]

/-- C4. `FixSize` is a same-length in-place patch: for every file of length `L > 0` and
every header with a byte order and a checksum offset `o` such that `o + 12 ≤ L`, `FixSize`
returns 12 with no error, the resulting file still has length `L`, every byte outside
`[o, o+12)` is unchanged, and the bytes in `[o, o+12)` are the output of
`encodeSize(L, header byte order)`; the header is left as it was. -/
theorem FixSize_patches_in_place (hdr : nsHeader) (f : nsDisker) (order : ByteOrder) (o : Nat)
    (hord : hdr.byteOrder = some order) (hoff : hdr.offsets.checksum = (o : Int))
    (hL : 0 < f.data.length) (hfit : o + 12 ≤ f.data.length) :
    ∃ ns enc, NSFile.FixSize ⟨some hdr, f⟩ = .ret ((12, none), ns) ∧
      encodeSize f.data.length (some order) = .ret (enc, none) ∧
      ns.header = some hdr ∧
      ns.disk.data.length = f.data.length ∧
      (∀ i, i < o ∨ o + 12 ≤ i → ns.disk.data[i]? = f.data[i]?) ∧
      (ns.disk.data.drop o).take 12 = enc := by
  have h12 : (Encode (binaryWrite order (f.data.length : Int))).length = 12 :=
    Encode_length_eight _ (binaryWrite_length _ _)
  have hw := Write_in_place ({ f with offset := o } : nsDisker)
    (Encode (binaryWrite order f.data.length)) (by rw [h12]; exact hfit)
  rw [h12] at hw
  exact ⟨_, _, FixSize_eq hdr f order o hord hoff hL,
    encodeSize_nonzero _ order (by omega), rfl, hw.2.1, hw.2.2.1, hw.2.2.2⟩

set_option maxRecDepth 100000 in
theorem FixSize_patches_in_place_witness :
    sampleHeader.byteOrder = some .LittleEndian ∧ sampleHeader.offsets.checksum = ((57 : Nat) : Int) ∧
      0 < testfileEmpty.length ∧ 57 + 12 ≤ testfileEmpty.length ∧
      ∃ ns enc, NSFile.FixSize ⟨some sampleHeader, ⟨testfileEmpty, 0, "siebns.dat"⟩⟩ =
          .ret ((12, none), ns) ∧
        encodeSize testfileEmpty.length (some .LittleEndian) = .ret (enc, none) ∧
        ns.header = some sampleHeader ∧
        ns.disk.data.length = testfileEmpty.length ∧
        (∀ i, i < 57 ∨ 57 + 12 ≤ i → ns.disk.data[i]? = testfileEmpty[i]?) ∧
        (ns.disk.data.drop 57).take 12 = enc :=
  ⟨by decide, by decide, by decide, by decide,
    FixSize_patches_in_place sampleHeader ⟨testfileEmpty, 0, "siebns.dat"⟩ .LittleEndian 57
      (by decide) (by decide) (by decide) (by decide)⟩

/-! ## Extent of the byte-order detection on big-endian texts -/

/-- The little-endian reading of the big-endian bytes of a size below `2^32`. -/
theorem Uint64_LittleEndian_PutUint64_BigEndian (u : Nat) (h : u < 2 ^ 32) :
    ByteOrder.LittleEndian.Uint64 (ByteOrder.BigEndian.PutUint64 u) =
      (u / 2 ^ 24 % 256) * 2 ^ 32 + (u / 2 ^ 16 % 256) * 2 ^ 40 + (u / 2 ^ 8 % 256) * 2 ^ 48 +
        (u % 256) * 2 ^ 56 := by
  rw [ByteOrder.PutUint64, Uint64_LittleEndian]
  simp only [toByte_val, Nat.shiftRight_eq_div_pow]
  omega

/-- Where the big-endian round trip holds and where it does not: for a size `s` with
`1 ≤ s ≤ 4294967294`, `decodeSize` gives `(s, BigEndian)` back when the lowest byte of `s` is
below `0x80`, and otherwise a negative size with LittleEndian. -/
theorem decodeSize_Encode_BigEndian (s : Int) (h1 : 1 ≤ s) (h2 : s ≤ 4294967294) :
    (s % 256 < 128 →
        decodeSize (Encode (binaryWrite .BigEndian s)) = .ret (s, some .BigEndian, none)) ∧
      (128 ≤ s % 256 →
        ∃ d, d < 0 ∧
          decodeSize (Encode (binaryWrite .BigEndian s)) = .ret (d, some .LittleEndian, none)) := by
  obtain ⟨u, rfl⟩ := Int.eq_ofNat_of_zero_le (show (0 : Int) ≤ s by omega)
  have hu : u < 2 ^ 32 := by omega
  have hto : toUint64 (u : Int) = u := by
    unfold toUint64
    omega
  have hle := Uint64_LittleEndian_PutUint64_BigEndian u hu
  have hbe := Uint64_binaryWrite .BigEndian (u : Int) (by omega) (by omega)
  rw [decodeSize_Encode _ (binaryWrite_length _ _), hbe]
  rw [binaryWrite, hto, hle]
  have hmod : ((u : Int) % 256 < 128 ↔ u % 256 < 128) := by omega
  have hmod2 : ((128 : Int) ≤ (u : Int) % 256 ↔ 128 ≤ u % 256) := by omega
  rw [hmod, hmod2]
  have hu1 : 1 ≤ u := by omega
  clear hle hbe hto hmod hmod2 h1 h2
  have d0 := Nat.div_add_mod u 256
  have d1 := Nat.div_add_mod (u / 2 ^ 8) 256
  have d2 := Nat.div_add_mod (u / 2 ^ 16) 256
  have d3 := Nat.div_add_mod (u / 2 ^ 24) 256
  have e1 : u / 2 ^ 8 / 256 = u / 2 ^ 16 := Nat.div_div_eq_div_mul u (2 ^ 8) 256
  have e2 : u / 2 ^ 16 / 256 = u / 2 ^ 24 := Nat.div_div_eq_div_mul u (2 ^ 16) 256
  have e3 : u / 2 ^ 24 / 256 = 0 := by
    rw [Nat.div_div_eq_div_mul]
    exact Nat.div_eq_of_lt hu
  have e0 : u / 256 = u / 2 ^ 8 := rfl
  rw [e1] at d1
  rw [e2] at d2
  rw [e3] at d3
  rw [e0] at d0
  clear e0 e1 e2 e3
  have hb3 : u / 2 ^ 24 % 256 < 256 := Nat.mod_lt _ (by decide)
  have hb2 : u / 2 ^ 16 % 256 < 256 := Nat.mod_lt _ (by decide)
  have hb1 : u / 2 ^ 8 % 256 < 256 := Nat.mod_lt _ (by decide)
  have hb0 : u % 256 < 256 := Nat.mod_lt _ (by decide)
  generalize u / 2 ^ 24 % 256 = B3 at d3 hb3 ⊢
  generalize u / 2 ^ 16 % 256 = B2 at d2 hb2 ⊢
  generalize u / 2 ^ 8 % 256 = B1 at d1 hb1 ⊢
  generalize u % 256 = B0 at d0 hb0 ⊢
  generalize u / 2 ^ 24 = q3 at d3 d2
  generalize u / 2 ^ 16 = q2 at d2 d1
  generalize u / 2 ^ 8 = q1 at d1 d0
  have hnz : 1 ≤ B3 + B2 + B1 + B0 := by omega
  have hv : B3 * 2 ^ 32 + B2 * 2 ^ 40 + B1 * 2 ^ 48 + B0 * 2 ^ 56 < 2 ^ 64 := by omega
  have hto : toInt64 (B3 * 2 ^ 32 + B2 * 2 ^ 40 + B1 * 2 ^ 48 + B0 * 2 ^ 56) =
      if B3 * 2 ^ 32 + B2 * 2 ^ 40 + B1 * 2 ^ 48 + B0 * 2 ^ 56 < 2 ^ 63 then
        ((B3 * 2 ^ 32 + B2 * 2 ^ 40 + B1 * 2 ^ 48 + B0 * 2 ^ 56 : Nat) : Int)
      else ((B3 * 2 ^ 32 + B2 * 2 ^ 40 + B1 * 2 ^ 48 + B0 * 2 ^ 56 : Nat) : Int) - 2 ^ 64 := by
    unfold toInt64
    rw [Nat.mod_eq_of_lt hv]
  constructor
  · intro hlow
    have hpos : toInt64 (B3 * 2 ^ 32 + B2 * 2 ^ 40 + B1 * 2 ^ 48 + B0 * 2 ^ 56) > 4294967294 := by
      rw [hto]
      split <;> omega
    rw [if_pos hpos]
  · intro hhigh
    have hneg : toInt64 (B3 * 2 ^ 32 + B2 * 2 ^ 40 + B1 * 2 ^ 48 + B0 * 2 ^ 56) < 0 := by
      rw [hto]
      split <;> omega
    refine ⟨_, hneg, ?_⟩
    rw [if_neg (by omega)]

/-! ## Reading the checksum back -/

/-- What `readEncodedSize` does when the 12 bytes at the checksum offset lie inside the
file: it decodes exactly these bytes. -/
theorem readEncodedSize_eq (hdr : nsHeader) (f : nsDisker) (o : Nat)
    (hoff : hdr.offsets.checksum = (o : Int)) (hfit : o + 12 ≤ f.data.length) :
    hdr.readEncodedSize f =
      (decodeSize ((f.data.drop o).take 12)).bind fun res =>
        match res with
        | (_, _, some err) => .ret ((0, some err), hdr, { f with offset := o + 12 })
        | (size, byteOrder, none) =>
          .ret ((size, none), { hdr with byteOrder := byteOrder }, { f with offset := o + 12 }) := by
  have hneg : ¬ ((o : Int) < 0) := by omega
  have hlen : ((f.data.drop o).take 12).length = 12 := by
    rw [List.length_take, List.length_drop]; omega
  have heof : ¬ (f.data.length ≤ o) := by omega
  simp only [nsHeader.readEncodedSize, nsDisker.Seek, hoff, hneg, if_false, Int.toNat_ofNat,
    nsDisker.Read, checksumSz, heof, hlen, bind, pure]
  simp only [hlen, Nat.reduceEqDiff, if_false, ne_eq, not_true_eq_false, or_self,
    Nat.sub_self, List.replicate_zero, List.append_nil, OfNat.ofNat_ne_zero]

/-- After `FixSize`, `IsHeaderCorrect` answers true for every header with a byte order and
a checksum offset `o`, `o + 12 ≤ L`, on a file of real size `0 < L ≤ 4294967294`, when the
byte order is LittleEndian or the lowest byte of `L` is below `0x80`. -/
theorem FixSize_then_IsHeaderCorrect (hdr : nsHeader) (f : nsDisker) (order : ByteOrder)
    (o : Nat) (hord : hdr.byteOrder = some order) (hoff : hdr.offsets.checksum = (o : Int))
    (hL : 0 < f.data.length) (hmax : f.data.length ≤ 4294967294)
    (hfit : o + 12 ≤ f.data.length)
    (hok : order = .LittleEndian ∨ f.data.length % 256 < 128) :
    ∃ ns ns1, NSFile.FixSize ⟨some hdr, f⟩ = .ret ((12, none), ns) ∧
      ns.IsHeaderCorrect = .ret (true, ns1) := by
  have h12 : (Encode (binaryWrite order (f.data.length : Int))).length = 12 :=
    Encode_length_eight _ (binaryWrite_length _ _)
  have hw := Write_in_place ({ f with offset := o } : nsDisker)
    (Encode (binaryWrite order f.data.length)) (by rw [h12]; exact hfit)
  rw [h12] at hw
  have hdec : decodeSize (Encode (binaryWrite order (f.data.length : Int))) =
      .ret ((f.data.length : Int), some order, none) := by
    rcases hok with hle | hlow
    · subst hle
      rw [decodeSize_Encode _ (binaryWrite_length _ _),
        Uint64_binaryWrite _ _ (by omega) (by omega)]
      rw [if_neg (by omega)]
    · cases order with
      | LittleEndian =>
        rw [decodeSize_Encode _ (binaryWrite_length _ _),
          Uint64_binaryWrite _ _ (by omega) (by omega)]
        rw [if_neg (by omega)]
      | BigEndian =>
        exact (decodeSize_Encode_BigEndian (f.data.length : Int) (by omega) (by omega)).1
          (by omega)
  have hchk : ∃ ns1, NSFile.IsHeaderCorrect ⟨some hdr, ({ f with offset := o } : nsDisker).Write
      (Encode (binaryWrite order f.data.length))|>.2⟩ = .ret (true, ns1) := by
    simp only [NSFile.IsHeaderCorrect]
    rw [readEncodedSize_eq hdr _ o hoff (by rw [hw.2.1]; exact hfit)]
    simp only [hw.2.2.2, hdec, Run.bind, bind, pure, NSFile.Size, nsDisker.StatSize, hw.2.1,
      decide_True]
    exact ⟨_, rfl⟩
  obtain ⟨ns1, h1⟩ := hchk
  exact ⟨_, ns1, FixSize_eq hdr f order o hord hoff hL, h1⟩

/-! ## Trimming a padded text -/

theorem dropWhile_append_of_all {α : Type} (p : α → Bool) (l1 l2 : List α)
    (h : ∀ x ∈ l1, p x = true) : (l1 ++ l2).dropWhile p = l2.dropWhile p := by
  induction l1 with
  | nil => rfl
  | cons a t ih =>
    have ha : p a = true := h a (List.mem_cons_self a t)
    rw [List.cons_append, List.dropWhile_cons_of_pos ha]
    exact ih (fun x hx => h x (List.mem_cons_of_mem a hx))

/-- `Trim` does not see a suffix made of bytes of the cutset. -/
theorem Trim_append_cutset (t w cutset : List Byte) (h : ∀ x ∈ w, cutset.contains x = true) :
    Trim (t ++ w) cutset = Trim t cutset := by
  unfold Trim
  rw [List.reverse_append, dropWhile_append_of_all _ w.reverse t.reverse
    (fun x hx => h x (List.mem_reverse.mp hx))]

/-- `Trim` leaves a text alone that holds no byte of the cutset. -/
theorem Trim_of_not_mem (s cutset : List Byte) (h : ∀ x ∈ s, cutset.contains x = false) :
    Trim s cutset = s :=
  Trim_eq_self s cutset (fun x hx => h x (List.mem_of_mem_head? hx))
    (fun x hx => h x (List.mem_of_getLast?_eq_some hx))

/-- `decodeSize` does not see a suffix of spaces, CR and LF. -/
theorem decodeSize_append_padding (t w : List Byte)
    (h : ∀ c ∈ w, c = 32 ∨ c = 13 ∨ c = 10) : decodeSize (t ++ w) = decodeSize t := by
  have hw : ∀ x ∈ w, (32 :: crlf).contains x = true := by
    intro x hx
    rcases h x hx with h1 | h1 | h1 <;> subst h1 <;> decide
  unfold decodeSize
  rw [Trim_append_cutset t w _ hw]

/-- C11. `decodeSize` ignores trailing padding: for every text `t` and every suffix `w` made
only of space, CR and LF bytes, `decodeSize (t ++ w)` is `decodeSize t`: the same size, byte
order and error, and the same panic when `decodeSize t` panics. -/
theorem decodeSize_ignores_trailing_padding (t w : List Byte)
    (h : ∀ c ∈ w, c = 32 ∨ c = 13 ∨ c = 10) : decodeSize (t ++ w) = decodeSize t :=
  decodeSize_append_padding t w h

set_option maxRecDepth 100000 in
theorem decodeSize_ignores_trailing_padding_witness :
    (∀ c ∈ ([32, 32, 13, 10] : List Byte), c = 32 ∨ c = 13 ∨ c = 10) ∧
      decodeSize ([68, 65, 77, 65, 65, 65, 65, 65, 65, 65, 65, 61] ++ [32, 32, 13, 10]) =
        decodeSize [68, 65, 77, 65, 65, 65, 65, 65, 65, 65, 65, 61] :=
  ⟨by decide, decodeSize_ignores_trailing_padding
    [68, 65, 77, 65, 65, 65, 65, 65, 65, 65, 65, 61] [32, 32, 13, 10] (by decide)⟩

/-! ## Reading lines -/

/-- `ReadBytes` on an input that starts with a line. -/
theorem ReadBytes_line (body rest : List Byte) (h : (10 : Byte) ∉ body) :
    ReadBytes (body ++ 10 :: rest) 10 = (body ++ [10], rest, none) := by
  induction body with
  | nil => simp [ReadBytes]
  | cons c t ih =>
    have hc : c ≠ 10 := fun hc => h (by rw [hc]; exact List.mem_cons_self _ _)
    have ht : (10 : Byte) ∉ t := fun ht => h (List.mem_cons_of_mem _ ht)
    simp [ReadBytes, hc, ih ht]

/-- `ReadBytes` on an input without LF: everything is consumed and `io.EOF` is returned. -/
theorem ReadBytes_eof (r : List Byte) (h : (10 : Byte) ∉ r) :
    ReadBytes r 10 = (r, [], some .eof) := by
  induction r with
  | nil => rfl
  | cons c t ih =>
    have hc : c ≠ 10 := fun hc => h (by rw [hc]; exact List.mem_cons_self _ _)
    have ht : (10 : Byte) ∉ t := fun ht => h (List.mem_cons_of_mem _ ht)
    simp [ReadBytes, hc, ih ht]

/-- Every input either starts with a line or holds no LF. -/
theorem line_or_eof (r : List Byte) :
    (∃ body rest, (10 : Byte) ∉ body ∧ r = body ++ 10 :: rest) ∨ (10 : Byte) ∉ r := by
  induction r with
  | nil => exact Or.inr (by simp)
  | cons c t ih =>
    by_cases hc : c = 10
    · exact Or.inl ⟨[], t, by simp, by simp [hc]⟩
    · rcases ih with ⟨body, rest, hb, ht⟩ | ht
      · refine Or.inl ⟨c :: body, rest, ?_, by simp [ht]⟩
        intro hm
        rcases List.mem_cons.mp hm with h | h
        · exact hc h.symm
        · exact hb h
      · refine Or.inr ?_
        intro hm
        rcases List.mem_cons.mp hm with h | h
        · exact hc h.symm
        · exact ht h

/-! ## The header parser, line by line -/

/-- What `readHeader` does, written on the results of the four `ReadBytes` calls. -/
theorem readHeader_eq (r : List Byte) :
    readHeader r =
      match ReadBytes r 10 with
      | (_, _, some e) => .ret (none, some e)
      | (l1, r1, none) =>
        if l1.length < (hasBOM l1).2 + signature.length then .panicked .sliceBounds
        else if (l1.take ((hasBOM l1).2 + signature.length)).drop (hasBOM l1).2 ≠ signature then
          .ret (none, some .errNotSiebns)
        else
          match ReadBytes r1 10 with
          | (_, _, some e) => .ret (none, some e)
          | (l2, r2, none) =>
            match ReadBytes r2 10 with
            | (_, _, some e) => .ret (none, some e)
            | (l3, r3, none) =>
              match ReadBytes r3 10 with
              | (_, _, some e) => .ret (none, some e)
              | (l4, _, none) =>
                if l4.length ≠ (if hasDOSlineEndings l1 then 27 else 26) then
                  .ret (none, some .errChecksumCorrupt)
                else
                  (decodeSize l4).bind fun res =>
                    match res with
                    | (_, _, some err) => .ret (none, some err)
                    | (_, byteOrder, none) =>
                      .ret (some
                        { byteOrder := byteOrder
                          format := { unicode := (hasBOM l1).1, dos := hasDOSlineEndings l1 }
                          offsets := { checksum := ((l1.length + l2.length + l3.length : Nat) : Int) }
                          version := { siebel := Trim l2 crlf, nsfile := Trim l3 crlf } }, none) := by
  rcases h1 : ReadBytes r 10 with ⟨l1, r1, e1⟩
  cases e1 with
  | some e =>
    simp [readHeader, newLineReader, lnReader.readline, lnReader.err, h1]
  | none =>
    have q1 : (newLineReader r).readline = (l1, ⟨r1, (l1.length : Int), none⟩) := by
      simp [newLineReader, lnReader.readline, h1]
    unfold readHeader
    simp only [q1, lnReader.err, ne_eq, not_true_eq_false, if_false]
    split
    · rfl
    · split
      · rfl
      · rcases h2 : ReadBytes r1 10 with ⟨l2, r2, e2⟩
        cases e2 with
        | some e =>
          have q2 : (⟨r1, (l1.length : Int), none⟩ : lnReader).readline =
              (l2, ⟨r2, (l1.length : Int), some e⟩) := by
            simp [lnReader.readline, h2]
          have q3 : (⟨r2, (l1.length : Int), some e⟩ : lnReader).readline =
              ([], ⟨r2, (l1.length : Int), some e⟩) := by
            simp [lnReader.readline]
          simp [lnReader.readstring, q2, q3]
        | none =>
          have q2 : (⟨r1, (l1.length : Int), none⟩ : lnReader).readline =
              (l2, ⟨r2, (l1.length : Int) + l2.length, none⟩) := by
            simp [lnReader.readline, h2]
          simp only [lnReader.readstring, q2]
          rcases h3 : ReadBytes r2 10 with ⟨l3, r3, e3⟩
          cases e3 with
          | some e =>
            have q3 : (⟨r2, (l1.length : Int) + l2.length, none⟩ : lnReader).readline =
                (l3, ⟨r3, (l1.length : Int) + l2.length, some e⟩) := by
              simp [lnReader.readline, h3]
            have q4 : (⟨r3, (l1.length : Int) + l2.length, some e⟩ : lnReader).readline =
                ([], ⟨r3, (l1.length : Int) + l2.length, some e⟩) := by
              simp [lnReader.readline]
            simp [q3, q4]
          | none =>
            have q3 : (⟨r2, (l1.length : Int) + l2.length, none⟩ : lnReader).readline =
                (l3, ⟨r3, (l1.length : Int) + l2.length + l3.length, none⟩) := by
              simp [lnReader.readline, h3]
            simp only [q3]
            rcases h4 : ReadBytes r3 10 with ⟨l4, r4, e4⟩
            cases e4 with
            | some e =>
              have q4 : (⟨r3, (l1.length : Int) + l2.length + l3.length, none⟩ :
                  lnReader).readline =
                  (l4, ⟨r4, (l1.length : Int) + l2.length + l3.length, some e⟩) := by
                simp [lnReader.readline, h4]
              simp [q4]
            | none =>
              have q4 : (⟨r3, (l1.length : Int) + l2.length + l3.length, none⟩ :
                  lnReader).readline =
                  (l4, ⟨r4, (l1.length : Int) + l2.length + l3.length + l4.length, none⟩) := by
                simp [lnReader.readline, h4]
              simp only [q4, lnReader.position, nsHeader.verifyCksumFmt, ne_eq,
                not_true_eq_false, if_false, Nat.cast_add]
              by_cases hlen : l4.length = if hasDOSlineEndings l1 = true then 27 else 26
              · simp only [hlen, not_true_eq_false, if_false]
                rfl
              · simp only [hlen, not_false_eq_true, if_true]

/-- The first line of an input is determined by the input. -/
theorem ReadBytes_inv (r l rest : List Byte) (e : Option GoError)
    (h : ReadBytes r 10 = (l, rest, e)) :
    (e = none ∧ ∃ body, (10 : Byte) ∉ body ∧ l = body ++ [10] ∧ r = body ++ 10 :: rest) ∨
      (e = some .eof ∧ (10 : Byte) ∉ r) := by
  rcases line_or_eof r with ⟨body, rest1, hb, hr⟩ | hno
  · rw [hr, ReadBytes_line body rest1 hb] at h
    simp only [Prod.mk.injEq] at h
    obtain ⟨h1, h2, h3⟩ := h
    exact Or.inl ⟨h3.symm, body, hb, h1.symm, by rw [hr, h2]⟩
  · rw [ReadBytes_eof r hno] at h
    simp only [Prod.mk.injEq] at h
    exact Or.inr ⟨h.2.2.symm, hno⟩

/-- What `readHeader` does on an input that starts with four lines. -/
theorem readHeader_lines (b1 b2 b3 b4 rest : List Byte) (h1 : (10 : Byte) ∉ b1)
    (h2 : (10 : Byte) ∉ b2) (h3 : (10 : Byte) ∉ b3) (h4 : (10 : Byte) ∉ b4) :
    readHeader (b1 ++ 10 :: (b2 ++ 10 :: (b3 ++ 10 :: (b4 ++ 10 :: rest)))) =
      if (b1 ++ [10]).length < (hasBOM (b1 ++ [10])).2 + signature.length then
        .panicked .sliceBounds
      else if ((b1 ++ [10]).take ((hasBOM (b1 ++ [10])).2 + signature.length)).drop
          (hasBOM (b1 ++ [10])).2 ≠ signature then
        .ret (none, some .errNotSiebns)
      else if (b4 ++ [10]).length ≠ (if hasDOSlineEndings (b1 ++ [10]) then 27 else 26) then
        .ret (none, some .errChecksumCorrupt)
      else
        (decodeSize (b4 ++ [10])).bind fun res =>
          match res with
          | (_, _, some err) => .ret (none, some err)
          | (_, byteOrder, none) =>
            .ret (some
              { byteOrder := byteOrder
                format := { unicode := (hasBOM (b1 ++ [10])).1
                            dos := hasDOSlineEndings (b1 ++ [10]) }
                offsets := { checksum :=
                  (((b1 ++ [10]).length + (b2 ++ [10]).length + (b3 ++ [10]).length : Nat) : Int) }
                version := { siebel := Trim (b2 ++ [10]) crlf, nsfile := Trim (b3 ++ [10]) crlf } },
              none) := by
  rw [readHeader_eq, ReadBytes_line b1 _ h1]
  simp only [ReadBytes_line b2 _ h2, ReadBytes_line b3 _ h3, ReadBytes_line b4 _ h4]

/-- An input on which `readHeader` succeeds starts with four lines, and the descriptor is
made from them. -/
theorem readHeader_success (r : List Byte) (hdr : nsHeader)
    (h : readHeader r = .ret (some hdr, none)) :
    ∃ b1 b2 b3 b4 rest, (10 : Byte) ∉ b1 ∧ (10 : Byte) ∉ b2 ∧ (10 : Byte) ∉ b3 ∧
      (10 : Byte) ∉ b4 ∧ r = b1 ++ 10 :: (b2 ++ 10 :: (b3 ++ 10 :: (b4 ++ 10 :: rest))) ∧
      (hasBOM (b1 ++ [10])).2 + signature.length ≤ (b1 ++ [10]).length ∧
      ((b1 ++ [10]).take ((hasBOM (b1 ++ [10])).2 + signature.length)).drop
          (hasBOM (b1 ++ [10])).2 = signature ∧
      (b4 ++ [10]).length = (if hasDOSlineEndings (b1 ++ [10]) then 27 else 26) ∧
      (∃ d, decodeSize (b4 ++ [10]) = .ret (d, hdr.byteOrder, none)) ∧
      hdr.format = { unicode := (hasBOM (b1 ++ [10])).1, dos := hasDOSlineEndings (b1 ++ [10]) } ∧
      hdr.offsets.checksum =
        (((b1 ++ [10]).length + (b2 ++ [10]).length + (b3 ++ [10]).length : Nat) : Int) ∧
      hdr.version = { siebel := Trim (b2 ++ [10]) crlf, nsfile := Trim (b3 ++ [10]) crlf } := by
  rcases line_or_eof r with ⟨b1, r1, h1, rfl⟩ | hno
  swap
  · rw [readHeader_eq, ReadBytes_eof r hno] at h
    simp at h
  rcases line_or_eof r1 with ⟨b2, r2, h2, rfl⟩ | hno
  swap
  · rw [readHeader_eq, ReadBytes_line b1 _ h1] at h
    simp only [ReadBytes_eof r1 hno] at h
    split at h
    · simp at h
    · split at h <;> simp at h
  rcases line_or_eof r2 with ⟨b3, r3, h3, rfl⟩ | hno
  swap
  · rw [readHeader_eq, ReadBytes_line b1 _ h1] at h
    simp only [ReadBytes_line b2 _ h2, ReadBytes_eof r2 hno] at h
    split at h
    · simp at h
    · split at h <;> simp at h
  rcases line_or_eof r3 with ⟨b4, rest, h4, rfl⟩ | hno
  swap
  · rw [readHeader_eq, ReadBytes_line b1 _ h1] at h
    simp only [ReadBytes_line b2 _ h2, ReadBytes_line b3 _ h3, ReadBytes_eof r3 hno] at h
    split at h
    · simp at h
    · split at h <;> simp at h
  rw [readHeader_lines b1 b2 b3 b4 rest h1 h2 h3 h4] at h
  refine ⟨b1, b2, b3, b4, rest, h1, h2, h3, h4, rfl, ?_⟩
  by_cases hlen : (b1 ++ [10]).length < (hasBOM (b1 ++ [10])).2 + signature.length
  · rw [if_pos hlen] at h
    simp at h
  rw [if_neg hlen] at h
  by_cases hsig : ((b1 ++ [10]).take ((hasBOM (b1 ++ [10])).2 + signature.length)).drop
      (hasBOM (b1 ++ [10])).2 ≠ signature
  · rw [if_pos hsig] at h
    simp at h
  rw [if_neg hsig] at h
  by_cases hck : (b4 ++ [10]).length ≠ (if hasDOSlineEndings (b1 ++ [10]) then 27 else 26)
  · rw [if_pos hck] at h
    simp at h
  rw [if_neg hck] at h
  refine ⟨by omega, not_not.mp hsig, not_not.mp hck, ?_⟩
  cases hd : decodeSize (b4 ++ [10]) with
  | panicked e => rw [hd] at h; simp [Run.bind] at h
  | ret res =>
    obtain ⟨d, bo, err⟩ := res
    rw [hd] at h
    cases err with
    | some e => simp [Run.bind] at h
    | none =>
      simp only [Run.bind, Run.ret.injEq, Prod.mk.injEq, Option.some.injEq, and_true] at h
      subst h
      exact ⟨⟨d, rfl⟩, rfl, rfl, rfl⟩

/-! ## The signature line -/

/-- The signature line check on a first line that starts with the signature, with or
without BOM. -/
theorem signature_check (pre t : List Byte) (hpre : pre = [] ∨ pre = bom) :
    hasBOM (pre ++ signature ++ t ++ [10]) = (decide (pre = bom), pre.length) ∧
      pre.length + signature.length ≤ (pre ++ signature ++ t ++ [10]).length ∧
      ((pre ++ signature ++ t ++ [10]).take (pre.length + signature.length)).drop pre.length =
        signature := by
  rcases hpre with h | h
  · subst h
    refine ⟨by simp [hasBOM, signature, bom], by simp, ?_⟩
    simp [signature]
  · subst h
    refine ⟨by simp [hasBOM, signature, bom], by simp, ?_⟩
    simp [signature, bom]

/-- A line ends with CR LF exactly when `hasDOSlineEndings` says so. -/
theorem hasDOSlineEndings_iff (l : List Byte) :
    hasDOSlineEndings l = true ↔ ∃ b, l = b ++ [13, 10] := by
  unfold hasDOSlineEndings
  by_cases hlen : l.length < crlf.length
  · simp only [hlen, if_true, Bool.false_eq_true, false_iff]
    rintro ⟨b, rfl⟩
    simp [crlf] at hlen
  · simp only [hlen, if_false, decide_eq_true_eq]
    constructor
    · intro h
      refine ⟨l.take (l.length - 2), ?_⟩
      have := List.take_append_drop (l.length - 2) l
      rw [h] at this
      exact this.symm
    · rintro ⟨b, rfl⟩
      simp [crlf]

/-! ## The index after the third LF -/

theorem indexAfterLF_line (n : Nat) (body rest : List Byte) (h : (10 : Byte) ∉ body) :
    indexAfterLF (n + 1) (body ++ 10 :: rest) =
      (indexAfterLF n rest).map (· + (body.length + 1)) := by
  induction body with
  | nil =>
    simp [indexAfterLF]
  | cons c t ih =>
    have hc : c ≠ 10 := fun hc => h (by rw [hc]; exact List.mem_cons_self _ _)
    have ht : (10 : Byte) ∉ t := fun ht => h (List.mem_cons_of_mem _ ht)
    have e : indexAfterLF (n + 1) (c :: (t ++ 10 :: rest)) =
        (indexAfterLF (n + 1) (t ++ 10 :: rest)).map (· + 1) := by
      simp [indexAfterLF, hc]
    rw [List.cons_append, e, ih ht]
    cases indexAfterLF n rest with
    | none => rfl
    | some k =>
      simp only [Option.map_some', List.length_cons, Option.some.injEq]
      omega

theorem indexAfterLF_three_lines (b1 b2 b3 rest : List Byte) (h1 : (10 : Byte) ∉ b1)
    (h2 : (10 : Byte) ∉ b2) (h3 : (10 : Byte) ∉ b3) :
    indexAfterLF 3 (b1 ++ 10 :: (b2 ++ 10 :: (b3 ++ 10 :: rest))) =
      some ((b1 ++ [10]).length + (b2 ++ [10]).length + (b3 ++ [10]).length) := by
  rw [indexAfterLF_line 2 b1 _ h1, indexAfterLF_line 1 b2 _ h2, indexAfterLF_line 0 b3 _ h3]
  simp only [indexAfterLF, Option.map_some', List.length_append, List.length_singleton,
    Option.some.injEq]
  omega

/-! ## Claims on the header parser -/

/-- The text of `encodeSize` always decodes: to a size and a byte order, without error. -/
theorem decodeSize_Encode_ok (p : List Byte) (h : p.length = 8) :
    ∃ d detected, decodeSize (Encode p) = .ret (d, some detected, none) := by
  rw [decodeSize_Encode p h]
  split
  · exact ⟨_, _, rfl⟩
  · exact ⟨_, _, rfl⟩

/-- A version line without CR and LF is returned as it is by `readstring`. -/
theorem Trim_version_line (v : List Byte) (hv : ∀ c ∈ v, c ≠ 13 ∧ c ≠ 10) :
    Trim (v ++ [10]) crlf = v := by
  rw [Trim_append_cutset v [10] crlf (by intro x hx; rw [List.mem_singleton.mp hx]; rfl)]
  apply Trim_of_not_mem
  intro x hx
  have := hv x hx
  simp [crlf, this.1, this.2]

/-- C12. Parsing a well-formed LF header: for every input of the form
`signature ++ LF ++ v1 ++ LF ++ v2 ++ LF ++ e ++ 13 spaces ++ LF ++ rest`, where `v1` and
`v2` hold no CR or LF and `e` is the 12-character output of `encodeSize` (which `decodeSize`
always decodes without error), `readHeader` succeeds with `format.dos = false`,
`format.unicode = false`, `offsets.checksum = 34 + len(v1) + len(v2)`, `version.siebel = v1`,
`version.nsfile = v2` and `byteOrder` the order `decodeSize` reports for `e`. -/
theorem readHeader_well_formed_LF (v1 v2 rest : List Byte) (size : Int) (order : ByteOrder)
    (hv1 : ∀ c ∈ v1, c ≠ 13 ∧ c ≠ 10) (hv2 : ∀ c ∈ v2, c ≠ 13 ∧ c ≠ 10) (hsize : size ≠ 0) :
    ∃ e d detected, encodeSize size (some order) = .ret (e, none) ∧ e.length = 12 ∧
      decodeSize e = .ret (d, some detected, none) ∧
      readHeader (signature ++ [10] ++ v1 ++ [10] ++ v2 ++ [10] ++ e ++ List.replicate 13 32 ++
          [10] ++ rest) =
        .ret (some
          { byteOrder := some detected
            format := { unicode := false, dos := false }
            offsets := { checksum := 34 + v1.length + v2.length }
            version := { siebel := v1, nsfile := v2 } }, none) := by
  have h8 := binaryWrite_length order size
  obtain ⟨d, detected, hdec⟩ := decodeSize_Encode_ok _ h8
  have h12 := Encode_length_eight _ h8
  refine ⟨Encode (binaryWrite order size), d, detected, encodeSize_nonzero size order hsize,
    h12, hdec, ?_⟩
  have hin : signature ++ [10] ++ v1 ++ [10] ++ v2 ++ [10] ++ Encode (binaryWrite order size) ++
      List.replicate 13 32 ++ [10] ++ rest =
      signature ++ 10 :: (v1 ++ 10 :: (v2 ++ 10 ::
        ((Encode (binaryWrite order size) ++ List.replicate 13 32) ++ 10 :: rest))) := by
    simp only [List.append_assoc, List.singleton_append, List.cons_append, List.nil_append]
  have n1 : (10 : Byte) ∉ signature := by decide
  have n2 : (10 : Byte) ∉ v1 := fun hm => (hv1 10 hm).2 rfl
  have n3 : (10 : Byte) ∉ v2 := fun hm => (hv2 10 hm).2 rfl
  have n4 : (10 : Byte) ∉ Encode (binaryWrite order size) ++ List.replicate 13 32 := by
    intro hm
    rcases List.mem_append.mp hm with hm | hm
    · have := Encode_not_space _ _ hm
      simp [crlf] at this
    · have := List.eq_of_mem_replicate hm
      exact absurd this (by decide)
  have hpad : decodeSize (Encode (binaryWrite order size) ++ List.replicate 13 32 ++ [10]) =
      .ret (d, some detected, none) := by
    rw [List.append_assoc, decodeSize_append_padding _ _ ?_, hdec]
    intro c hc
    rcases List.mem_append.mp hc with hc | hc
    · exact Or.inl (List.eq_of_mem_replicate hc)
    · exact Or.inr (Or.inr (List.mem_singleton.mp hc))
  have hb : hasBOM (signature ++ [10]) = (false, 0) := by decide
  have hd : hasDOSlineEndings (signature ++ [10]) = false := by decide
  have hs : ((signature ++ [10]).take 31).drop 0 = signature := by decide
  have hl : (signature ++ [10]).length = 32 := by decide
  have hsl : signature.length = 31 := by decide
  rw [hin, readHeader_lines _ _ _ _ _ n1 n2 n3 n4, hpad]
  simp only [hb, hd, hs, hl, hsl, List.length_append, List.length_replicate, h12,
    List.length_singleton, Trim_version_line v1 hv1, Trim_version_line v2 hv2, Run.bind]
  simp only [Nat.reduceAdd, Nat.reduceLT, if_false, ne_eq, not_true_eq_false,
    Bool.false_eq_true]
  have hc : (((32 + (v1.length + 1) + (v2.length + 1) : Nat)) : Int) =
      34 + (v1.length : Int) + (v2.length : Int) := by
    push_cast
    omega
  rw [hc]

set_option maxRecDepth 100000 in
theorem readHeader_well_formed_LF_witness :
    (∀ c ∈ sampleHeader.version.siebel, c ≠ 13 ∧ c ≠ 10) ∧
      (∀ c ∈ sampleHeader.version.nsfile, c ≠ 13 ∧ c ≠ 10) ∧ (780 : Int) ≠ 0 ∧
      ∃ e d detected, encodeSize 780 (some .LittleEndian) = .ret (e, none) ∧ e.length = 12 ∧
        decodeSize e = .ret (d, some detected, none) ∧
        readHeader (signature ++ [10] ++ sampleHeader.version.siebel ++ [10] ++
            sampleHeader.version.nsfile ++ [10] ++ e ++ List.replicate 13 32 ++ [10] ++ [10]) =
          .ret (some
            { byteOrder := some detected
              format := { unicode := false, dos := false }
              offsets := { checksum := 34 + sampleHeader.version.siebel.length +
                sampleHeader.version.nsfile.length }
              version := { siebel := sampleHeader.version.siebel,
                           nsfile := sampleHeader.version.nsfile } }, none) :=
  ⟨by decide, by decide, by decide,
    readHeader_well_formed_LF sampleHeader.version.siebel sampleHeader.version.nsfile [10] 780
      .LittleEndian (by decide) (by decide) (by decide)⟩

/-- The first line of an input is unique. -/
theorem first_line_unique (b b' x x' : List Byte) (hb : (10 : Byte) ∉ b)
    (hb' : (10 : Byte) ∉ b') (h : b ++ 10 :: x = b' ++ 10 :: x') : b = b' ∧ x = x' := by
  have e1 := ReadBytes_line b x hb
  rw [h, ReadBytes_line b' x' hb'] at e1
  simp only [Prod.mk.injEq, and_true] at e1
  exact ⟨(List.append_cancel_right e1.1).symm, e1.2.symm⟩

/-- C13. Checksum offset invariant: for every input on which `readHeader` succeeds,
`offsets.checksum` is the index of the byte that follows the third LF of the input, which is
the sum of the raw lengths of the first three lines. -/
theorem readHeader_checksum_offset (r : List Byte) (hdr : nsHeader)
    (h : readHeader r = .ret (some hdr, none)) :
    ∃ b1 b2 b3 rest, (10 : Byte) ∉ b1 ∧ (10 : Byte) ∉ b2 ∧ (10 : Byte) ∉ b3 ∧
      r = (b1 ++ [10]) ++ (b2 ++ [10]) ++ (b3 ++ [10]) ++ rest ∧
      indexAfterLF 3 r = some ((b1 ++ [10]).length + (b2 ++ [10]).length + (b3 ++ [10]).length) ∧
      hdr.offsets.checksum =
        (((b1 ++ [10]).length + (b2 ++ [10]).length + (b3 ++ [10]).length : Nat) : Int) := by
  obtain ⟨b1, b2, b3, b4, rest, h1, h2, h3, _, hr, _, _, _, _, _, hoff, _⟩ :=
    readHeader_success r hdr h
  refine ⟨b1, b2, b3, b4 ++ 10 :: rest, h1, h2, h3, ?_, ?_, hoff⟩
  · rw [hr]
    simp only [List.append_assoc, List.singleton_append, List.cons_append, List.nil_append]
  · rw [hr]
    exact indexAfterLF_three_lines b1 b2 b3 _ h1 h2 h3

set_option maxRecDepth 100000 in
theorem readHeader_checksum_offset_witness :
    readHeader testfileEmpty = .ret (some sampleHeader, none) ∧
      ∃ b1 b2 b3 rest, (10 : Byte) ∉ b1 ∧ (10 : Byte) ∉ b2 ∧ (10 : Byte) ∉ b3 ∧
        testfileEmpty = (b1 ++ [10]) ++ (b2 ++ [10]) ++ (b3 ++ [10]) ++ rest ∧
        indexAfterLF 3 testfileEmpty =
          some ((b1 ++ [10]).length + (b2 ++ [10]).length + (b3 ++ [10]).length) ∧
        sampleHeader.offsets.checksum =
          (((b1 ++ [10]).length + (b2 ++ [10]).length + (b3 ++ [10]).length : Nat) : Int) :=
  ⟨by decide, readHeader_checksum_offset testfileEmpty sampleHeader (by decide)⟩

/-- C14. Checksum line length validation: for every input that starts with a signature line
(the signature, with or without BOM before it, then anything up to the LF) followed by three
more LF-terminated lines, if the raw length of the fourth line differs from 26 when the
signature line does not end in CR LF, or from 27 when it does, `readHeader` fails with
`errChecksumCorrupt` and returns no descriptor. -/
theorem readHeader_checksum_length (pre t b2 b3 b4 rest : List Byte)
    (hpre : pre = [] ∨ pre = bom) (ht : (10 : Byte) ∉ t) (h2 : (10 : Byte) ∉ b2)
    (h3 : (10 : Byte) ∉ b3) (h4 : (10 : Byte) ∉ b4)
    (hLF : (¬ ∃ b, pre ++ signature ++ t ++ [10] = b ++ [13, 10]) → (b4 ++ [10]).length ≠ 26)
    (hCRLF : (∃ b, pre ++ signature ++ t ++ [10] = b ++ [13, 10]) → (b4 ++ [10]).length ≠ 27) :
    readHeader ((pre ++ signature ++ t ++ [10]) ++ (b2 ++ [10]) ++ (b3 ++ [10]) ++ (b4 ++ [10]) ++
        rest) = .ret (none, some .errChecksumCorrupt) := by
  have h1 : (10 : Byte) ∉ pre ++ signature ++ t := by
    intro hm
    rcases List.mem_append.mp hm with hm | hm
    · rcases List.mem_append.mp hm with hm | hm
      · rcases hpre with hp | hp <;> subst hp
        · simp at hm
        · exact absurd hm (by decide)
      · exact absurd hm (by decide)
    · exact ht hm
  have hin : (pre ++ signature ++ t ++ [10]) ++ (b2 ++ [10]) ++ (b3 ++ [10]) ++ (b4 ++ [10]) ++
      rest = (pre ++ signature ++ t) ++ 10 :: (b2 ++ 10 :: (b3 ++ 10 :: (b4 ++ 10 :: rest))) := by
    simp only [List.append_assoc, List.singleton_append, List.cons_append, List.nil_append]
  obtain ⟨hb, hlen, hsig⟩ := signature_check pre t hpre
  rw [hin, readHeader_lines _ _ _ _ _ h1 h2 h3 h4, hb]
  simp only []
  rw [if_neg (by omega), if_neg (not_not.mpr hsig)]
  by_cases hdos : hasDOSlineEndings (pre ++ signature ++ t ++ [10]) = true
  · have := hCRLF ((hasDOSlineEndings_iff _).mp hdos)
    rw [if_pos (by rw [hdos]; exact this)]
  · have := hLF (fun hex => hdos ((hasDOSlineEndings_iff _).mpr hex))
    rw [if_pos (by simp only [hdos]; exact this)]

set_option maxRecDepth 100000 in
theorem readHeader_checksum_length_witness :
    readHeader (([] ++ signature ++ [] ++ [10]) ++
        ([49, 54, 46, 48, 46, 48, 46, 48, 32, 91, 50, 51, 48, 53, 55, 93, 32, 69, 78, 85] ++ [10]) ++
        ([49, 46, 50] ++ [10]) ++ ([68, 65, 61, 32, 32, 32, 32, 32] ++ [10]) ++ [10, 91, 47, 93, 10]) =
      .ret (none, some .errChecksumCorrupt) :=
  readHeader_checksum_length [] [] _ _ [68, 65, 61, 32, 32, 32, 32, 32] _ (Or.inl rfl)
    (by decide) (by decide) (by decide) (by decide) (fun _ => by decide) (fun _ => by decide)

/-- A first line that is long enough and does not carry the signature gives
`errNotSiebns`. -/
theorem readHeader_signature_mismatch (b1 rest : List Byte) (h1 : (10 : Byte) ∉ b1)
    (hlen : (hasBOM (b1 ++ [10])).2 + signature.length ≤ (b1 ++ [10]).length)
    (hsig : ((b1 ++ [10]).take ((hasBOM (b1 ++ [10])).2 + signature.length)).drop
      (hasBOM (b1 ++ [10])).2 ≠ signature) :
    readHeader (b1 ++ 10 :: rest) = .ret (none, some .errNotSiebns) := by
  rw [readHeader_eq, ReadBytes_line b1 rest h1]
  simp only []
  rw [if_neg (by omega), if_pos hsig]

/-- A first line that is too short to hold the signature makes `readHeader` panic. -/
theorem readHeader_short_first_line (b1 rest : List Byte) (h1 : (10 : Byte) ∉ b1)
    (hlen : (b1 ++ [10]).length < (hasBOM (b1 ++ [10])).2 + signature.length) :
    readHeader (b1 ++ 10 :: rest) = .panicked .sliceBounds := by
  rw [readHeader_eq, ReadBytes_line b1 rest h1]
  simp only []
  rw [if_pos hlen]

set_option maxRecDepth 100000 in
/-- C15, the code at the failing input: on a file of 104 bytes whose first line is `abc`,
`readHeader` panics on the slice expression that takes the signature out of the line, and
so do `Open` and `main`; no `errNotSiebns` is returned. -/
theorem readHeader_panics_on_short_first_line :
    shortFirstLine.length = 104 ∧
      readHeader shortFirstLine = .panicked .sliceBounds ∧
      Open "siebns.dat" (some shortFirstLine) = .panicked .sliceBounds ∧
      main ["siebnsfix", "siebns.dat"] (some shortFirstLine) = .panicked .sliceBounds := by
  decide

/-- C16. Truncated header is rejected: for every input that holds fewer than four LF bytes
and whose first line, if LF-terminated, starts with the signature (with or without BOM
before it), `readHeader` returns an error, `io.EOF`, and no descriptor. -/
theorem readHeader_truncated (r : List Byte) (hcount : r.count 10 < 4)
    (hfirst : ∀ body rest, (10 : Byte) ∉ body → r = body ++ 10 :: rest →
      (signature <+: body ∨ (bom ++ signature) <+: body)) :
    readHeader r = .ret (none, some .eof) := by
  rcases line_or_eof r with ⟨b1, r1, h1, rfl⟩ | hno
  swap
  · rw [readHeader_eq, ReadBytes_eof r hno]
  have hchk : ¬ ((b1 ++ [10]).length < (hasBOM (b1 ++ [10])).2 + signature.length) ∧
      ¬ (((b1 ++ [10]).take ((hasBOM (b1 ++ [10])).2 + signature.length)).drop
        (hasBOM (b1 ++ [10])).2 ≠ signature) := by
    rcases hfirst b1 r1 h1 rfl with ⟨t, ht⟩ | ⟨t, ht⟩
    · obtain ⟨hb, hlen, hsig⟩ := signature_check [] t (Or.inl rfl)
      simp only [List.nil_append] at hb hlen hsig
      rw [← ht, hb]
      exact ⟨by simp only [List.length_nil] at hlen ⊢; omega, not_not.mpr hsig⟩
    · obtain ⟨hb, hlen, hsig⟩ := signature_check bom t (Or.inr rfl)
      rw [← ht, hb]
      exact ⟨by omega, not_not.mpr hsig⟩
  rw [readHeader_eq, ReadBytes_line b1 r1 h1]
  simp only []
  rw [if_neg hchk.1, if_neg hchk.2]
  rcases line_or_eof r1 with ⟨b2, r2, h2, rfl⟩ | hno
  swap
  · rw [ReadBytes_eof r1 hno]
  rw [ReadBytes_line b2 r2 h2]
  simp only []
  rcases line_or_eof r2 with ⟨b3, r3, h3, rfl⟩ | hno
  swap
  · rw [ReadBytes_eof r2 hno]
  rw [ReadBytes_line b3 r3 h3]
  simp only []
  rcases line_or_eof r3 with ⟨b4, r4, h4, rfl⟩ | hno
  swap
  · rw [ReadBytes_eof r3 hno]
  exfalso
  simp only [List.count_append, List.count_cons_self] at hcount
  omega

set_option maxRecDepth 100000 in
theorem readHeader_truncated_witness :
    (signature ++ 10 :: [49, 46, 50, 10]).count 10 < 4 ∧
      readHeader (signature ++ 10 :: [49, 46, 50, 10]) = .ret (none, some .eof) :=
  ⟨by decide, readHeader_truncated (signature ++ 10 :: [49, 46, 50, 10]) (by decide)
    (fun body rest hb hr =>
      Or.inl (by
        rw [(first_line_unique signature body _ rest (by decide) hb hr).1]))⟩

/-! ## The format flags -/

/-- The first line of a header: the BOM or nothing, the signature, CR or nothing. -/
theorem first_line_flags (pre eol : List Byte) (hpre : pre = [] ∨ pre = bom)
    (heol : eol = [] ∨ eol = [13]) :
    hasBOM (pre ++ signature ++ eol ++ [10]) = (decide (pre = bom), pre.length) ∧
      hasDOSlineEndings (pre ++ signature ++ eol ++ [10]) = decide (eol = [13]) ∧
      pre.length + signature.length ≤ (pre ++ signature ++ eol ++ [10]).length ∧
      ((pre ++ signature ++ eol ++ [10]).take (pre.length + signature.length)).drop pre.length =
        signature ∧
      (10 : Byte) ∉ pre ++ signature ++ eol := by
  rcases hpre with rfl | rfl <;> rcases heol with rfl | rfl <;> decide

/-- A version line without CR and LF is returned as it is by `readstring`, whichever the
line end. -/
theorem Trim_version_line_eol (v eol : List Byte) (hv : ∀ c ∈ v, c ≠ 13 ∧ c ≠ 10)
    (heol : eol = [] ∨ eol = [13]) : Trim (v ++ eol ++ [10]) crlf = v := by
  rw [List.append_assoc, Trim_append_cutset v (eol ++ [10]) crlf ?_]
  · apply Trim_of_not_mem
    intro x hx
    have := hv x hx
    simp [crlf, this.1, this.2]
  · intro x hx
    rcases heol with rfl | rfl
    · rw [List.mem_singleton.mp hx]; rfl
    · rcases List.mem_cons.mp hx with h | h
      · rw [h]; rfl
      · rw [List.mem_singleton.mp h]; rfl

/-- Parsing a well-formed header of any of the four formats. -/
theorem readHeader_well_formed (pre eol v1 v2 rest : List Byte) (size : Int) (order : ByteOrder)
    (hpre : pre = [] ∨ pre = bom) (heol : eol = [] ∨ eol = [13])
    (hv1 : ∀ c ∈ v1, c ≠ 13 ∧ c ≠ 10) (hv2 : ∀ c ∈ v2, c ≠ 13 ∧ c ≠ 10) (hsize : size ≠ 0) :
    ∃ e d detected, encodeSize size (some order) = .ret (e, none) ∧
      decodeSize e = .ret (d, some detected, none) ∧
      readHeader (pre ++ signature ++ eol ++ [10] ++ v1 ++ eol ++ [10] ++ v2 ++ eol ++ [10] ++
          e ++ List.replicate 13 32 ++ eol ++ [10] ++ rest) =
        .ret (some
          { byteOrder := some detected
            format := { unicode := decide (pre = bom), dos := decide (eol = [13]) }
            offsets := { checksum :=
              ((pre.length + 31 + eol.length + 1 + (v1.length + eol.length + 1) +
                (v2.length + eol.length + 1) : Nat) : Int) }
            version := { siebel := v1, nsfile := v2 } }, none) := by
  have h8 := binaryWrite_length order size
  obtain ⟨d, detected, hdec⟩ := decodeSize_Encode_ok _ h8
  have h12 := Encode_length_eight _ h8
  refine ⟨Encode (binaryWrite order size), d, detected, encodeSize_nonzero size order hsize,
    hdec, ?_⟩
  obtain ⟨hb, hd, hl, hs, n1⟩ := first_line_flags pre eol hpre heol
  have heol10 : (10 : Byte) ∉ eol := by
    rcases heol with rfl | rfl <;> decide
  have hin : pre ++ signature ++ eol ++ [10] ++ v1 ++ eol ++ [10] ++ v2 ++ eol ++ [10] ++
      Encode (binaryWrite order size) ++ List.replicate 13 32 ++ eol ++ [10] ++ rest =
      (pre ++ signature ++ eol) ++ 10 :: ((v1 ++ eol) ++ 10 :: ((v2 ++ eol) ++ 10 ::
        ((Encode (binaryWrite order size) ++ List.replicate 13 32 ++ eol) ++ 10 :: rest))) := by
    simp only [List.append_assoc, List.singleton_append, List.cons_append, List.nil_append]
  have n2 : (10 : Byte) ∉ v1 ++ eol := by
    intro hm
    rcases List.mem_append.mp hm with hm | hm
    · exact (hv1 10 hm).2 rfl
    · exact heol10 hm
  have n3 : (10 : Byte) ∉ v2 ++ eol := by
    intro hm
    rcases List.mem_append.mp hm with hm | hm
    · exact (hv2 10 hm).2 rfl
    · exact heol10 hm
  have n4 : (10 : Byte) ∉ Encode (binaryWrite order size) ++ List.replicate 13 32 ++ eol := by
    intro hm
    rcases List.mem_append.mp hm with hm | hm
    · rcases List.mem_append.mp hm with hm | hm
      · have := Encode_not_space _ _ hm
        simp [crlf] at this
      · have := List.eq_of_mem_replicate hm
        exact absurd this (by decide)
    · exact heol10 hm
  have hpad : decodeSize (Encode (binaryWrite order size) ++ List.replicate 13 32 ++ eol ++ [10]) =
      .ret (d, some detected, none) := by
    rw [List.append_assoc, List.append_assoc, decodeSize_append_padding _ _ ?_, hdec]
    intro c hc
    rcases List.mem_append.mp hc with hc | hc
    · exact Or.inl (List.eq_of_mem_replicate hc)
    · rcases List.mem_append.mp hc with hc | hc
      · rcases heol with rfl | rfl
        · exact absurd hc (List.not_mem_nil _)
        · exact Or.inr (Or.inl (List.mem_singleton.mp hc))
      · exact Or.inr (Or.inr (List.mem_singleton.mp hc))
  have hlen4 : (Encode (binaryWrite order size) ++ List.replicate 13 32 ++ eol ++ [10]).length =
      (if decide (eol = [13]) = true then 27 else 26) := by
    rcases heol with rfl | rfl <;> simp [h12]
  rw [hin, readHeader_lines _ _ _ _ _ n1 n2 n3 n4, hpad, hb, hd]
  simp only []
  rw [if_neg (by omega), hs, if_neg (by simp), if_neg (by rw [hlen4]; simp)]
  simp only [Run.bind, Trim_version_line_eol v1 eol hv1 heol, Trim_version_line_eol v2 eol hv2 heol]
  have hsl : signature.length = 31 := by decide
  simp only [List.length_append, List.length_singleton, hsl]

/-- `hasBOM` on every line. -/
theorem hasBOM_eq (line : List Byte) :
    hasBOM line = if bom <+: line then (true, 3) else (false, 0) := by
  have hbl : bom.length = 3 := rfl
  unfold hasBOM
  by_cases hlen : line.length < bom.length
  · rw [if_pos hlen, if_neg]
    intro hp
    have := hp.length_le
    omega
  · rw [if_neg hlen]
    by_cases hp : bom <+: line
    · rw [if_pos hp, if_pos (List.prefix_iff_eq_take.mp hp)]
      rfl
    · rw [if_neg hp, if_neg (fun h => hp (List.prefix_iff_eq_take.mpr h))]

/-- `hasDOSlineEndings` on every line. -/
theorem hasDOSlineEndings_suffix (line : List Byte) :
    hasDOSlineEndings line = true ↔ crlf <:+ line := by
  rw [hasDOSlineEndings_iff]
  constructor
  · rintro ⟨b, rfl⟩
    exact ⟨b, rfl⟩
  · rintro ⟨b, hb⟩
    exact ⟨b, hb.symm⟩

/-- C17. Format flags: for every input on which `readHeader` succeeds, `format.unicode` is
true if and only if the input begins with the bytes EF BB BF, and `format.dos` is true if and
only if the signature line ends with CR LF; `hasBOM` and `hasDOSlineEndings` return
`(false, 0)` and `false` on empty (nil) and too-short lines. The detection is pinned on both
sides: `hasBOM` returns `(true, 3)` on every line that begins with the BOM and `(false, 0)` on
every other line, `hasDOSlineEndings` returns true exactly on the lines that end with CR LF,
and the four kinds of well-formed header (BOM or not, CR LF or LF after each of the four
lines, version texts without CR and LF, the checksum text of `encodeSize` and 13 spaces) all
parse, with `format.unicode` true exactly when the BOM was put and `format.dos` true exactly
when the lines were ended with CR LF. -/
theorem readHeader_format_flags (r : List Byte) (hdr : nsHeader)
    (h : readHeader r = .ret (some hdr, none)) :
    (hdr.format.unicode = true ↔ bom <+: r) ∧
      (hdr.format.dos = true ↔
        ∃ body rest, (10 : Byte) ∉ body ∧ r = body ++ 13 :: 10 :: rest) ∧
      (∀ line : List Byte, line.length < 3 → hasBOM line = (false, 0)) ∧
      (∀ line : List Byte, line.length < 2 → hasDOSlineEndings line = false) ∧
      (∀ line : List Byte, hasBOM line = if bom <+: line then (true, 3) else (false, 0)) ∧
      (∀ line : List Byte, hasDOSlineEndings line = true ↔ crlf <:+ line) ∧
      (∀ (u d : Bool) (v1 v2 rest : List Byte) (size : Int) (order : ByteOrder),
        (∀ c ∈ v1, c ≠ 13 ∧ c ≠ 10) → (∀ c ∈ v2, c ≠ 13 ∧ c ≠ 10) → size ≠ 0 →
        ∃ e hdr1, encodeSize size (some order) = .ret (e, none) ∧
          readHeader ((if u then bom else []) ++ signature ++ (if d then [13] else []) ++ [10] ++
              v1 ++ (if d then [13] else []) ++ [10] ++
              v2 ++ (if d then [13] else []) ++ [10] ++
              e ++ List.replicate 13 32 ++ (if d then [13] else []) ++ [10] ++ rest) =
            .ret (some hdr1, none) ∧
          hdr1.format = { unicode := u, dos := d } ∧
          hdr1.version = { siebel := v1, nsfile := v2 }) := by
  obtain ⟨b1, b2, b3, b4, rest, h1, _, _, _, hr, hlen, _, _, _, hfmt, _, _⟩ :=
    readHeader_success r hdr h
  have hsl : signature.length = 31 := by decide
  have hl3 : 3 ≤ (b1 ++ [10]).length := by omega
  have htake : r.take 3 = (b1 ++ [10]).take 3 := by
    have e : r = (b1 ++ [10]) ++ (b2 ++ 10 :: (b3 ++ 10 :: (b4 ++ 10 :: rest))) := by
      rw [hr]; simp
    rw [e, List.take_append_of_le_length hl3]
  refine ⟨?_, ?_, ?_, ?_, hasBOM_eq, hasDOSlineEndings_suffix, ?_⟩
  · rw [hfmt]
    simp only []
    have hbl : bom.length = 3 := rfl
    rw [List.prefix_iff_eq_take, hbl, htake]
    unfold hasBOM
    rw [if_neg (by rw [hbl]; omega), hbl]
    by_cases hb : bom = (b1 ++ [10]).take 3
    · rw [if_pos hb]; simp [hb]
    · rw [if_neg hb]; simp [hb]
  · rw [hfmt]
    simp only []
    rw [hasDOSlineEndings_iff]
    constructor
    · rintro ⟨b, hb⟩
      have hb1 : b1 = b ++ [13] := by
        have : b1 ++ [10] = (b ++ [13]) ++ [10] := by rw [hb]; simp
        exact List.append_cancel_right this
      refine ⟨b, b2 ++ 10 :: (b3 ++ 10 :: (b4 ++ 10 :: rest)), ?_, ?_⟩
      · intro hm
        exact h1 (by rw [hb1]; exact List.mem_append_left _ hm)
      · rw [hr, hb1]; simp
    · rintro ⟨body, rest', hbody, hr'⟩
      have hb13 : (10 : Byte) ∉ body ++ [13] := by
        intro hm
        rcases List.mem_append.mp hm with hm | hm
        · exact hbody hm
        · exact absurd (List.mem_singleton.mp hm) (by decide)
      have e : b1 ++ 10 :: (b2 ++ 10 :: (b3 ++ 10 :: (b4 ++ 10 :: rest))) =
          (body ++ [13]) ++ 10 :: rest' := by
        rw [← hr, hr']; simp
      have := (first_line_unique _ _ _ _ h1 hb13 e).1
      exact ⟨body, by rw [this]; simp⟩
  · intro line hl
    unfold hasBOM
    rw [if_pos (by show line.length < 3; exact hl)]
  · intro line hl
    unfold hasDOSlineEndings
    rw [if_pos (by show line.length < 2; exact hl)]
  · intro u d v1 v2 rest size order hv1 hv2 hsize
    obtain ⟨e, dd, detected, he, _, hrd⟩ :=
      readHeader_well_formed (if u then bom else []) (if d then [13] else []) v1 v2 rest size
        order (by cases u <;> simp) (by cases d <;> simp) hv1 hv2 hsize
    have hu : decide ((if u then bom else []) = bom) = u := by cases u <;> decide
    have hd : decide ((if d then [13] else []) = ([13] : List Byte)) = d := by
      cases d <;> decide
    rw [hu, hd] at hrd
    exact ⟨e, _, he, hrd, rfl, rfl⟩

set_option maxRecDepth 100000 in
theorem readHeader_format_flags_witness :
    readHeader unicodeDosFile = .ret (some unicodeDosHeader, none) ∧
      unicodeDosHeader.format = { unicode := true, dos := true } ∧
      bom <+: unicodeDosFile ∧
      ∃ body rest, (10 : Byte) ∉ body ∧ unicodeDosFile = body ++ 13 :: 10 :: rest :=
  ⟨by decide, rfl,
    (readHeader_format_flags unicodeDosFile unicodeDosHeader (by decide)).1.mp rfl,
    (readHeader_format_flags unicodeDosFile unicodeDosHeader (by decide)).2.1.mp rfl⟩

/-! ## Reading the checksum back, in general -/

/-- All that `readEncodedSize` can do: a failed seek, nothing left to read, or `decodeSize`
on the buffer. -/
theorem readEncodedSize_total (hdr : nsHeader) (f : nsDisker) :
    hdr.readEncodedSize f =
      if hdr.offsets.checksum < 0 then .ret ((0, some .negativePosition), hdr, f)
      else if f.data.length ≤ hdr.offsets.checksum.toNat then
        .ret ((0, some .eof), hdr, { f with offset := hdr.offsets.checksum.toNat })
      else
        (decodeSize (checksumBuffer f hdr.offsets.checksum.toNat)).bind fun res =>
          match res with
          | (_, _, some err) =>
            .ret ((0, some err), hdr,
              { f with offset := hdr.offsets.checksum.toNat +
                  ((f.data.drop hdr.offsets.checksum.toNat).take checksumSz).length })
          | (size, byteOrder, none) =>
            .ret ((size, none), { hdr with byteOrder := byteOrder },
              { f with offset := hdr.offsets.checksum.toNat +
                  ((f.data.drop hdr.offsets.checksum.toNat).take checksumSz).length }) := by
  by_cases hneg : hdr.offsets.checksum < 0
  · simp [nsHeader.readEncodedSize, nsDisker.Seek, hneg]
  · rw [if_neg hneg]
    by_cases heof : f.data.length ≤ hdr.offsets.checksum.toNat
    · simp [nsHeader.readEncodedSize, nsDisker.Seek, hneg, nsDisker.Read, checksumSz, heof]
    · rw [if_neg heof]
      have hgot : ((f.data.drop hdr.offsets.checksum.toNat).take 12).length ≠ 0 := by
        rw [List.length_take, List.length_drop]
        omega
      simp only [nsHeader.readEncodedSize, nsDisker.Seek, hneg, if_false, nsDisker.Read,
        checksumSz, heof, checksumBuffer, bind, pure]
      simp only [OfNat.ofNat_ne_zero, if_false, ne_eq, not_true_eq_false, false_or, hgot]

/-- `IsHeaderCorrect` is `readEncodedSize` followed by the comparison with the real size. -/
theorem IsHeaderCorrect_eq (hdr : nsHeader) (f : nsDisker) :
    NSFile.IsHeaderCorrect ⟨some hdr, f⟩ =
      (hdr.readEncodedSize f).bind fun res =>
        .ret (decide ((res.2.2.data.length : Int) = res.1.1), ⟨some res.2.1, res.2.2⟩) := by
  simp only [NSFile.IsHeaderCorrect, bind, pure, NSFile.Size, nsDisker.StatSize]
  cases hdr.readEncodedSize f <;> rfl

/-- All that `IsHeaderCorrect` can do, on the cases of `readEncodedSize`. -/
theorem IsHeaderCorrect_total (hdr : nsHeader) (f : nsDisker) :
    NSFile.IsHeaderCorrect ⟨some hdr, f⟩ =
      if hdr.offsets.checksum < 0 then
        .ret (decide ((f.data.length : Int) = 0), ⟨some hdr, f⟩)
      else if f.data.length ≤ hdr.offsets.checksum.toNat then
        .ret (decide ((f.data.length : Int) = 0),
          ⟨some hdr, { f with offset := hdr.offsets.checksum.toNat }⟩)
      else
        (decodeSize (checksumBuffer f hdr.offsets.checksum.toNat)).bind fun res =>
          match res with
          | (_, _, some _) =>
            .ret (decide ((f.data.length : Int) = 0), ⟨some hdr,
              { f with offset := hdr.offsets.checksum.toNat +
                  ((f.data.drop hdr.offsets.checksum.toNat).take checksumSz).length }⟩)
          | (size, byteOrder, none) =>
            .ret (decide ((f.data.length : Int) = size), ⟨some { hdr with byteOrder := byteOrder },
              { f with offset := hdr.offsets.checksum.toNat +
                  ((f.data.drop hdr.offsets.checksum.toNat).take checksumSz).length }⟩) := by
  rw [IsHeaderCorrect_eq, readEncodedSize_total]
  by_cases hneg : hdr.offsets.checksum < 0
  · rw [if_pos hneg, if_pos hneg]; rfl
  · rw [if_neg hneg, if_neg hneg]
    by_cases heof : f.data.length ≤ hdr.offsets.checksum.toNat
    · rw [if_pos heof, if_pos heof]; rfl
    · rw [if_neg heof, if_neg heof]
      cases decodeSize (checksumBuffer f hdr.offsets.checksum.toNat) with
      | panicked e => rfl
      | ret res =>
        obtain ⟨size, byteOrder, err⟩ := res
        cases err <;> rfl

/-- The buffer of `readEncodedSize` when 12 bytes can be read at the offset. -/
theorem checksumBuffer_full (f : nsDisker) (o : Nat) (h : o + 12 ≤ f.data.length) :
    checksumBuffer f o = (f.data.drop o).take 12 := by
  have hlen : ((f.data.drop o).take 12).length = 12 := by
    rw [List.length_take, List.length_drop]; omega
  simp [checksumBuffer, checksumSz, hlen]

/-! ## Claims on `IsHeaderCorrect` -/

/-- C18. `IsHeaderCorrect` compares the stored size to the real size: for every file and
header such that the 12 bytes at the checksum offset `o` can be read (`o + 12 ≤ L`) and
`decodeSize` decodes them to `d` without error, `IsHeaderCorrect` returns, and its answer is
true if and only if `d` is the real size `L` of the file. -/
theorem IsHeaderCorrect_compares_sizes (hdr : nsHeader) (f : nsDisker) (o : Nat) (d : Int)
    (byteOrder : Option ByteOrder) (hoff : hdr.offsets.checksum = (o : Int))
    (hfit : o + 12 ≤ f.data.length)
    (hdec : decodeSize ((f.data.drop o).take 12) = .ret (d, byteOrder, none)) :
    ∃ answer ns1, NSFile.IsHeaderCorrect ⟨some hdr, f⟩ = .ret (answer, ns1) ∧
      (answer = true ↔ d = (f.data.length : Int)) := by
  rw [IsHeaderCorrect_total, hoff]
  rw [if_neg (by omega), Int.toNat_ofNat, if_neg (by omega), checksumBuffer_full f o hfit, hdec]
  refine ⟨_, _, rfl, ?_⟩
  simp only [decide_eq_true_eq]
  exact eq_comm

set_option maxRecDepth 100000 in
theorem IsHeaderCorrect_compares_sizes_witness :
    sampleHeader.offsets.checksum = ((57 : Nat) : Int) ∧ 57 + 12 ≤ testfileCorrect.length ∧
      decodeSize ((testfileCorrect.drop 57).take 12) = .ret (121, some .LittleEndian, none) ∧
      ∃ answer ns1,
        NSFile.IsHeaderCorrect ⟨some sampleHeader, ⟨testfileCorrect, 0, "siebns.dat"⟩⟩ =
          .ret (answer, ns1) ∧
        (answer = true ↔ (121 : Int) = (testfileCorrect.length : Int)) :=
  ⟨by decide, by decide, by decide,
    IsHeaderCorrect_compares_sizes sampleHeader ⟨testfileCorrect, 0, "siebns.dat"⟩ 57 121
      (some .LittleEndian) (by decide) (by decide) (by decide)⟩

set_option maxRecDepth 100000 in
/-- C19 as stated fails: when the checksum bytes are `DA==` and spaces, which decode to one
byte, `IsHeaderCorrect` panics; and on an empty file, where nothing can be read,
`IsHeaderCorrect` answers true, the size 0 of the failed read being the real size. -/
theorem IsHeaderCorrect_failure_counterexample :
    NSFile.IsHeaderCorrect ⟨some sampleHeader, ⟨shortChecksumFile, 0, "siebns.dat"⟩⟩ =
        .panicked .unexpectedEOF ∧
      NSFile.IsHeaderCorrect ⟨some sampleHeader, ⟨[], 0, "siebns.dat"⟩⟩ =
        .ret (true, ⟨some sampleHeader, ⟨[], 57, "siebns.dat"⟩⟩) := by
  decide

/-- C19, amended. On a file whose real size is not zero, `IsHeaderCorrect` converts every
failure that is returned as an error into false: when the seek fails (negative offset), when
nothing can be read at the checksum offset, or when `decodeSize` returns an error on the
bytes read, it returns false, the header unchanged. When `decodeSize` panics on the bytes
read (they decode to fewer than 8 bytes), `IsHeaderCorrect` panics with the same value. -/
theorem IsHeaderCorrect_on_failure (hdr : nsHeader) (f : nsDisker)
    (hne : f.data.length ≠ 0) :
    ((hdr.offsets.checksum < 0 ∨ (f.data.length : Int) ≤ hdr.offsets.checksum ∨
        ∃ size byteOrder err, decodeSize (checksumBuffer f hdr.offsets.checksum.toNat) =
          .ret (size, byteOrder, some err)) →
      ∃ f1, NSFile.IsHeaderCorrect ⟨some hdr, f⟩ = .ret (false, ⟨some hdr, f1⟩)) ∧
    (∀ e, 0 ≤ hdr.offsets.checksum → hdr.offsets.checksum < (f.data.length : Int) →
      decodeSize (checksumBuffer f hdr.offsets.checksum.toNat) = .panicked e →
      NSFile.IsHeaderCorrect ⟨some hdr, f⟩ = .panicked e) := by
  have hfalse : decide ((f.data.length : Int) = 0) = false := by
    simp only [decide_eq_false_iff_not]
    omega
  constructor
  · intro hfail
    rw [IsHeaderCorrect_total, hfalse]
    by_cases hneg : hdr.offsets.checksum < 0
    · rw [if_pos hneg]; exact ⟨_, rfl⟩
    · rw [if_neg hneg]
      by_cases heof : f.data.length ≤ hdr.offsets.checksum.toNat
      · rw [if_pos heof]; exact ⟨_, rfl⟩
      · rw [if_neg heof]
        rcases hfail with h | h | ⟨size, byteOrder, err, h⟩
        · exact absurd h hneg
        · omega
        · rw [h]; exact ⟨_, rfl⟩
  · intro e h0 hlt hp
    rw [IsHeaderCorrect_total, if_neg (by omega), if_neg (by omega), hp]
    rfl

set_option maxRecDepth 100000 in
theorem IsHeaderCorrect_on_failure_witness :
    (List.replicate 18 (0 : Byte)).length ≠ 0 ∧
      (∃ f1, NSFile.IsHeaderCorrect
          ⟨some { sampleHeader with offsets := { checksum := 3 } },
            ⟨List.replicate 18 0, 0, ""⟩⟩ =
        .ret (false, ⟨some { sampleHeader with offsets := { checksum := 3 } }, f1⟩)) ∧
      NSFile.IsHeaderCorrect ⟨some sampleHeader, ⟨shortChecksumFile, 0, ""⟩⟩ =
        .panicked .unexpectedEOF :=
  ⟨by decide,
    (IsHeaderCorrect_on_failure { sampleHeader with offsets := { checksum := 3 } }
      ⟨List.replicate 18 0, 0, ""⟩ (by decide)).1
      (Or.inr (Or.inr ⟨0, none, .corruptInput 0, by decide⟩)),
    (IsHeaderCorrect_on_failure sampleHeader ⟨shortChecksumFile, 0, ""⟩ (by decide)).2
      .unexpectedEOF (by decide) (by decide) (by decide)⟩

/-- C20 as stated fails: on the data of the test `valid data` (the text `BwYFBAMCAQA=` at
offset 3, a header that stores LittleEndian), `IsHeaderCorrect` leaves a header that stores
BigEndian. -/
theorem IsHeaderCorrect_byteOrder_counterexample :
    NSFile.IsHeaderCorrect
        ⟨some { sampleHeader with offsets := { checksum := 3 } },
          ⟨[0, 0, 0, 66, 119, 89, 70, 66, 65, 77, 67, 65, 81, 65, 61], 0, ""⟩⟩ =
      .ret (false,
        ⟨some { bigEndianHeader with offsets := { checksum := 3 } },
          ⟨[0, 0, 0, 66, 119, 89, 70, 66, 65, 77, 67, 65, 81, 65, 61], 15, ""⟩⟩) := by
  decide

/-- C20, amended. `IsHeaderCorrect` leaves the file bytes, the file name and the fields
`format`, `offsets` and `version` of the header as they were, and the stored byte order is
replaced exactly when the bytes read decode without error: when `decodeSize` returns a size
and a byte order without error on the bytes read at the checksum offset, the call returns
and the header afterwards is the header before with that byte order stored; when the seek
fails (negative offset), nothing can be read at the offset, or `decodeSize` returns an error,
the call returns and the header afterwards is the header before, byte order included; when
`decodeSize` panics on the bytes read, the call panics with the same value. -/
theorem IsHeaderCorrect_frame (hdr : nsHeader) (f : nsDisker) :
    (∀ d byteOrder, 0 ≤ hdr.offsets.checksum → hdr.offsets.checksum < (f.data.length : Int) →
        decodeSize (checksumBuffer f hdr.offsets.checksum.toNat) = .ret (d, byteOrder, none) →
        ∃ answer f1, NSFile.IsHeaderCorrect ⟨some hdr, f⟩ =
            .ret (answer, ⟨some { hdr with byteOrder := byteOrder }, f1⟩) ∧
          f1.data = f.data ∧ f1.name = f.name) ∧
      ((hdr.offsets.checksum < 0 ∨ (f.data.length : Int) ≤ hdr.offsets.checksum ∨
          ∃ d byteOrder err, decodeSize (checksumBuffer f hdr.offsets.checksum.toNat) =
            .ret (d, byteOrder, some err)) →
        ∃ answer f1, NSFile.IsHeaderCorrect ⟨some hdr, f⟩ = .ret (answer, ⟨some hdr, f1⟩) ∧
          f1.data = f.data ∧ f1.name = f.name) ∧
      (∀ e, 0 ≤ hdr.offsets.checksum → hdr.offsets.checksum < (f.data.length : Int) →
        decodeSize (checksumBuffer f hdr.offsets.checksum.toNat) = .panicked e →
        NSFile.IsHeaderCorrect ⟨some hdr, f⟩ = .panicked e) := by
  refine ⟨?_, ?_, ?_⟩
  · intro d byteOrder h0 hlt hd
    rw [IsHeaderCorrect_total, if_neg (by omega), if_neg (by omega), hd]
    exact ⟨_, _, rfl, rfl, rfl⟩
  · intro hfail
    rw [IsHeaderCorrect_total]
    by_cases hneg : hdr.offsets.checksum < 0
    · rw [if_pos hneg]; exact ⟨_, _, rfl, rfl, rfl⟩
    · rw [if_neg hneg]
      by_cases heof : f.data.length ≤ hdr.offsets.checksum.toNat
      · rw [if_pos heof]; exact ⟨_, _, rfl, rfl, rfl⟩
      · rw [if_neg heof]
        rcases hfail with h | h | ⟨d, byteOrder, err, h⟩
        · exact absurd h hneg
        · omega
        · rw [h]; exact ⟨_, _, rfl, rfl, rfl⟩
  · intro e h0 hlt hp
    rw [IsHeaderCorrect_total, if_neg (by omega), if_neg (by omega), hp]
    rfl

set_option maxRecDepth 100000 in
theorem IsHeaderCorrect_frame_witness :
    ({ sampleHeader with offsets := { checksum := 3 } } : nsHeader).byteOrder =
        some .LittleEndian ∧
      decodeSize (checksumBuffer
          ⟨[0, 0, 0, 66, 119, 89, 70, 66, 65, 77, 67, 65, 81, 65, 61], 0, ""⟩ 3) =
        .ret (506097522914230528, some .BigEndian, none) ∧
      ∃ answer f1, NSFile.IsHeaderCorrect
          ⟨some { sampleHeader with offsets := { checksum := 3 } },
            ⟨[0, 0, 0, 66, 119, 89, 70, 66, 65, 77, 67, 65, 81, 65, 61], 0, ""⟩⟩ =
          .ret (answer, ⟨some { bigEndianHeader with offsets := { checksum := 3 } }, f1⟩) ∧
        f1.data = [0, 0, 0, 66, 119, 89, 70, 66, 65, 77, 67, 65, 81, 65, 61] ∧ f1.name = "" :=
  ⟨rfl, by decide,
    (IsHeaderCorrect_frame { sampleHeader with offsets := { checksum := 3 } }
      ⟨[0, 0, 0, 66, 119, 89, 70, 66, 65, 77, 67, 65, 81, 65, 61], 0, ""⟩).1
      506097522914230528 (some .BigEndian) (by decide) (by decide) (by decide)⟩

/-! ## Claims on `FixSize`, again -/

/-- Writing the same bytes at the same place twice is writing them once. -/
theorem Write_twice (f : nsDisker) (data : List Byte)
    (h : f.offset + data.length ≤ f.data.length) :
    (({ (f.Write data).2 with offset := f.offset } : nsDisker).Write data).2 = (f.Write data).2 := by
  have hrep : f.offset - f.data.length = 0 := by omega
  have htake : (f.data.take f.offset).length = f.offset := by
    rw [List.length_take]; omega
  have hlen : (List.take f.offset f.data ++ data ++ List.drop (f.offset + data.length) f.data).length
      = f.data.length := by
    simp only [List.length_append, htake, List.length_drop]; omega
  simp only [nsDisker.Write, hrep, List.replicate_zero, List.append_nil, hlen]
  have e1 : List.take f.offset
      (List.take f.offset f.data ++ data ++ List.drop (f.offset + data.length) f.data) =
      List.take f.offset f.data := by
    rw [List.append_assoc, List.take_left' htake]
  have e2 : List.drop (f.offset + data.length)
      (List.take f.offset f.data ++ data ++ List.drop (f.offset + data.length) f.data) =
      List.drop (f.offset + data.length) f.data := by
    have hl : (List.take f.offset f.data ++ data).length = f.offset + data.length := by
      rw [List.length_append, htake]
    exact List.drop_left' hl
  rw [e1, e2]

/-- C21. `FixSize` is idempotent: for every file of length `L > 0` and every header with a
byte order and a checksum offset `o` such that `o + 12 ≤ L`, two calls of `FixSize` in a row
both return 12 with no error, and the second call leaves the file (bytes, offset, name) and
the header exactly as the first call left them. -/
theorem FixSize_idempotent (hdr : nsHeader) (f : nsDisker) (order : ByteOrder) (o : Nat)
    (hord : hdr.byteOrder = some order) (hoff : hdr.offsets.checksum = (o : Int))
    (hL : 0 < f.data.length) (hfit : o + 12 ≤ f.data.length) :
    ∃ ns1, NSFile.FixSize ⟨some hdr, f⟩ = .ret ((12, none), ns1) ∧
      NSFile.FixSize ns1 = .ret ((12, none), ns1) := by
  have h12 : (Encode (binaryWrite order (f.data.length : Int))).length = 12 :=
    Encode_length_eight _ (binaryWrite_length _ _)
  have hfit' : ({ f with offset := o } : nsDisker).offset +
      (Encode (binaryWrite order (f.data.length : Int))).length ≤
      ({ f with offset := o } : nsDisker).data.length := by
    rw [h12]; exact hfit
  have hw := Write_in_place ({ f with offset := o } : nsDisker)
    (Encode (binaryWrite order f.data.length)) hfit'
  have hlen : (({ f with offset := o } : nsDisker).Write
      (Encode (binaryWrite order f.data.length))).2.data.length = f.data.length := hw.2.1
  refine ⟨_, FixSize_eq hdr f order o hord hoff hL, ?_⟩
  rw [FixSize_eq hdr _ order o hord hoff (by rw [hlen]; exact hL), hlen]
  have ht := Write_twice ({ f with offset := o } : nsDisker)
    (Encode (binaryWrite order f.data.length)) hfit'
  have hname : (({ f with offset := o } : nsDisker).Write
      (Encode (binaryWrite order f.data.length))).2.name = f.name := rfl
  rw [← hname] at ht ⊢
  exact congrArg (fun w => Run.ret (((12 : Int), (none : Option GoError)),
    (⟨some hdr, w⟩ : NSFile))) ht

set_option maxRecDepth 100000 in
theorem FixSize_idempotent_witness :
    sampleHeader.byteOrder = some .LittleEndian ∧
      sampleHeader.offsets.checksum = ((57 : Nat) : Int) ∧
      0 < testfileEmpty.length ∧ 57 + 12 ≤ testfileEmpty.length ∧
      ∃ ns1, NSFile.FixSize ⟨some sampleHeader, ⟨testfileEmpty, 0, "siebns.dat"⟩⟩ =
          .ret ((12, none), ns1) ∧
        NSFile.FixSize ns1 = .ret ((12, none), ns1) :=
  ⟨by decide, by decide, by decide, by decide,
    FixSize_idempotent sampleHeader ⟨testfileEmpty, 0, "siebns.dat"⟩ .LittleEndian 57
      (by decide) (by decide) (by decide) (by decide)⟩

/-- C22. `FixSize` fails atomically. `writeEncodedSize` does one of four things: with size 0
it returns `errZeroFilesize` and the byte count 0 and leaves the file (bytes and offset) as
it was, without seek or write; with another size and a nil byte order it panics; with a
negative offset the seek fails and it returns that error and the byte count 0, the file as
it was; otherwise it writes. `FixSize` is `writeEncodedSize` with the real size, so on an
empty file it returns `errZeroFilesize`, 0, and the file as it was. -/
theorem FixSize_fails_atomically (hdr : nsHeader) (w : nsDisker) (size : Int) :
    hdr.writeEncodedSize w size =
        (if size = 0 then .ret ((0, some .errZeroFilesize), w)
         else
          match hdr.byteOrder with
          | none => .panicked .errByteOrderNil
          | some order =>
            if hdr.offsets.checksum < 0 then .ret ((0, some .negativePosition), w)
            else
              .ret ((12, none),
                (({ w with offset := hdr.offsets.checksum.toNat } : nsDisker).Write
                  (Encode (binaryWrite order size))).2)) ∧
      NSFile.FixSize ⟨some hdr, w⟩ =
        (hdr.writeEncodedSize w (w.data.length : Int)).bind
          (fun res => .ret (res.1, ⟨some hdr, res.2⟩)) ∧
      NSFile.FixSize ⟨some hdr, { w with data := [] }⟩ =
        .ret ((0, some .errZeroFilesize), ⟨some hdr, { w with data := [] }⟩) := by
  refine ⟨?_, ?_, ?_⟩
  · by_cases h0 : size = 0
    · simp [nsHeader.writeEncodedSize, encodeSize, h0, bind, Run.bind, pure]
    · rw [if_neg h0]
      cases hbo : hdr.byteOrder with
      | none =>
        simp [nsHeader.writeEncodedSize, encodeSize, h0, hbo, sizeToBinary, bind, Run.bind]
      | some order =>
        have hlen : ((Encode (binaryWrite order size)).length : Int) = 12 := by
          rw [Encode_length_eight _ (binaryWrite_length _ _)]; rfl
        by_cases hneg : hdr.offsets.checksum < 0
        · simp [nsHeader.writeEncodedSize, encodeSize_nonzero size order h0, hbo, nsDisker.Seek,
            hneg, bind, Run.bind, pure]
        · simp [nsHeader.writeEncodedSize, encodeSize_nonzero size order h0, hbo, nsDisker.Seek,
            hneg, bind, Run.bind, pure, nsDisker.Write, hlen]
  · cases hres : hdr.writeEncodedSize w (w.data.length : Int) <;>
      simp [NSFile.FixSize, NSFile.Size, nsDisker.StatSize, bind, Run.bind, pure, hres]
  · simp [NSFile.FixSize, NSFile.Size, nsDisker.StatSize, nsHeader.writeEncodedSize, encodeSize,
      bind, Run.bind, pure]

/-- C26. The binary helpers are mutually inverse: for every `int64` value `s`, negative
values included, and either byte order `o`, `sizeToBinary(s, o)` returns exactly 8 bytes,
`sizeFromBinary` of these bytes in the order `o` returns `s`, and the bytes for
LittleEndian are the bytes for BigEndian in reverse. -/
theorem sizeToBinary_sizeFromBinary (s : Int) (o : ByteOrder) (h1 : -2 ^ 63 ≤ s)
    (h2 : s < 2 ^ 63) :
    ∃ bytes le be, sizeToBinary s (some o) = .ret bytes ∧ bytes.length = 8 ∧
      sizeFromBinary bytes (some o) = .ret s ∧
      sizeToBinary s (some .LittleEndian) = .ret le ∧
      sizeToBinary s (some .BigEndian) = .ret be ∧ le = be.reverse := by
  refine ⟨binaryWrite o s, binaryWrite .LittleEndian s, binaryWrite .BigEndian s, rfl,
    binaryWrite_length o s, ?_, rfl, rfl, rfl⟩
  rw [sizeFromBinary_eight _ o (binaryWrite_length o s), Uint64_binaryWrite o s h1 h2]

theorem sizeToBinary_sizeFromBinary_witness :
    (-2 ^ 63 : Int) ≤ -780 ∧ (-780 : Int) < 2 ^ 63 ∧
      ∃ bytes le be, sizeToBinary (-780) (some .BigEndian) = .ret bytes ∧ bytes.length = 8 ∧
        sizeFromBinary bytes (some .BigEndian) = .ret (-780) ∧
        sizeToBinary (-780) (some .LittleEndian) = .ret le ∧
        sizeToBinary (-780) (some .BigEndian) = .ret be ∧ le = be.reverse :=
  ⟨by decide, by decide, sizeToBinary_sizeFromBinary (-780) .BigEndian (by decide) (by decide)⟩

/-! ## What a successful `decodeSize` says about its input -/

/-- When `decodeSize` returns no error, the trimmed text is valid base64 for at least 8
bytes, and the size is the reading of the first 8 of them in the byte order reported. -/
theorem decodeSize_success (b : List Byte) (d : Int) (byteOrder : Option ByteOrder)
    (h : decodeSize b = .ret (d, byteOrder, none)) :
    ∃ bs, DecodeString (Trim b (32 :: crlf)) = (bs, none) ∧ 8 ≤ bs.length ∧
      ((4294967294 < toInt64 (ByteOrder.LittleEndian.Uint64 (bs.take 8)) ∧
          byteOrder = some .BigEndian ∧ d = toInt64 (ByteOrder.BigEndian.Uint64 (bs.take 8))) ∨
        (¬ 4294967294 < toInt64 (ByteOrder.LittleEndian.Uint64 (bs.take 8)) ∧
          byteOrder = some .LittleEndian ∧
          d = toInt64 (ByteOrder.LittleEndian.Uint64 (bs.take 8)))) := by
  unfold decodeSize at h
  rcases hds : DecodeString (Trim b (32 :: crlf)) with ⟨bs, err⟩
  rw [hds] at h
  cases err with
  | some e => simp at h
  | none =>
    refine ⟨bs, rfl, ?_⟩
    by_cases h0 : bs.length = 0
    · simp [sizeFromBinary, binaryRead, h0, bind, Run.bind] at h
    by_cases h8 : bs.length < 8
    · simp [sizeFromBinary, binaryRead, h0, h8, bind, Run.bind] at h
    refine ⟨by omega, ?_⟩
    simp only [sizeFromBinary, binaryRead, h0, h8, if_false, bind, Run.bind, threshold_eq,
      pure] at h
    by_cases hgt : 4294967294 < toInt64 (ByteOrder.LittleEndian.Uint64 (bs.take 8))
    · simp only [gt_iff_lt, hgt, if_true, Run.ret.injEq, Prod.mk.injEq] at h
      exact Or.inl ⟨hgt, h.2.1.symm, h.1.symm⟩
    · simp only [gt_iff_lt, hgt, if_false, Run.ret.injEq, Prod.mk.injEq] at h
      exact Or.inr ⟨hgt, h.2.1.symm, h.1.symm⟩

/-- A list of 8 bytes, spelled out. -/
theorem eight_bytes (p : List Byte) (h : p.length = 8) :
    ∃ b0 b1 b2 b3 b4 b5 b6 b7, p = [b0, b1, b2, b3, b4, b5, b6, b7] := by
  match p, h with
  | [b0, b1, b2, b3, b4, b5, b6, b7], _ => exact ⟨b0, b1, b2, b3, b4, b5, b6, b7, rfl⟩

/-- The sign of the little-endian reading is the top bit of the last byte. -/
theorem toInt64_LittleEndian_nonneg (b0 b1 b2 b3 b4 b5 b6 b7 : Byte) :
    0 ≤ toInt64 (ByteOrder.LittleEndian.Uint64 [b0, b1, b2, b3, b4, b5, b6, b7]) ↔
      b7.val < 128 := by
  have h0 := b0.isLt
  have h1 := b1.isLt
  have h2 := b2.isLt
  have h3 := b3.isLt
  have h4 := b4.isLt
  have h5 := b5.isLt
  have h6 := b6.isLt
  have h7 := b7.isLt
  rw [Uint64_LittleEndian]
  have hv : b0.val + b1.val * 2 ^ 8 + b2.val * 2 ^ 16 + b3.val * 2 ^ 24 + b4.val * 2 ^ 32 +
      b5.val * 2 ^ 40 + b6.val * 2 ^ 48 + b7.val * 2 ^ 56 < 2 ^ 64 := by omega
  unfold toInt64
  rw [Nat.mod_eq_of_lt hv]
  split <;> omega

/-- The sign of the big-endian reading is the top bit of the first byte. -/
theorem toInt64_BigEndian_nonneg (b0 b1 b2 b3 b4 b5 b6 b7 : Byte) :
    0 ≤ toInt64 (ByteOrder.BigEndian.Uint64 [b0, b1, b2, b3, b4, b5, b6, b7]) ↔
      b0.val < 128 :=
  toInt64_LittleEndian_nonneg b7 b6 b5 b4 b3 b2 b1 b0

/-- C23 as stated fails: the text `//////////8=` is valid base64 for eight bytes `0xff`,
and `decodeSize` returns the size `-1` for it with no error. -/
theorem decodeSize_negative_counterexample :
    decodeSize [47, 47, 47, 47, 47, 47, 47, 47, 47, 47, 56, 61] =
      .ret (-1, some .LittleEndian, none) := by
  decide

/-- C23, amended. For every input on which `decodeSize` returns no error, the size returned
is the signed 64-bit reading, in the byte order reported, of the first 8 decoded bytes, and
it is `≥ 0` if and only if the most significant of these bytes in that order (the last one
for LittleEndian, the first one for BigEndian) is below `0x80`. -/
theorem decodeSize_sign (b : List Byte) (d : Int) (byteOrder : Option ByteOrder)
    (h : decodeSize b = .ret (d, byteOrder, none)) :
    ∃ order b0 b1 b2 b3 b4 b5 b6 b7, byteOrder = some order ∧
      (DecodeString (Trim b (32 :: crlf))).1.take 8 = [b0, b1, b2, b3, b4, b5, b6, b7] ∧
      d = toInt64 (order.Uint64 [b0, b1, b2, b3, b4, b5, b6, b7]) ∧
      (0 ≤ d ↔ (match order with
        | .LittleEndian => b7.val < 128
        | .BigEndian => b0.val < 128)) := by
  obtain ⟨bs, hds, hlen, hcase⟩ := decodeSize_success b d byteOrder h
  have h8 : (bs.take 8).length = 8 := by rw [List.length_take]; omega
  obtain ⟨b0, b1, b2, b3, b4, b5, b6, b7, hp⟩ := eight_bytes _ h8
  rw [hds]
  rw [hp] at hcase
  rcases hcase with ⟨_, hbo, hd⟩ | ⟨_, hbo, hd⟩
  · refine ⟨.BigEndian, b0, b1, b2, b3, b4, b5, b6, b7, hbo, hp, hd, ?_⟩
    rw [hd]
    exact toInt64_BigEndian_nonneg b0 b1 b2 b3 b4 b5 b6 b7
  · refine ⟨.LittleEndian, b0, b1, b2, b3, b4, b5, b6, b7, hbo, hp, hd, ?_⟩
    rw [hd]
    exact toInt64_LittleEndian_nonneg b0 b1 b2 b3 b4 b5 b6 b7

theorem decodeSize_sign_witness :
    decodeSize [65, 65, 65, 65, 65, 65, 65, 65, 65, 119, 119, 61] =
        .ret (780, some .BigEndian, none) ∧
      ∃ order b0 b1 b2 b3 b4 b5 b6 b7, some ByteOrder.BigEndian = some order ∧
        (DecodeString (Trim [65, 65, 65, 65, 65, 65, 65, 65, 65, 119, 119, 61]
          (32 :: crlf))).1.take 8 = [b0, b1, b2, b3, b4, b5, b6, b7] ∧
        (780 : Int) = toInt64 (order.Uint64 [b0, b1, b2, b3, b4, b5, b6, b7]) ∧
        ((0 : Int) ≤ 780 ↔ (match order with
          | .LittleEndian => b7.val < 128
          | .BigEndian => b0.val < 128)) :=
  ⟨by decide, decodeSize_sign [65, 65, 65, 65, 65, 65, 65, 65, 65, 119, 119, 61] 780
    (some .BigEndian) (by decide)⟩

/-! ## Claims on what the parser accepts -/

/-- The signature line of a header that parses has at least 32 bytes: the signature and,
after it, the LF. -/
theorem signature_line_length (b1 : List Byte) (off : Nat)
    (hlen : off + signature.length ≤ (b1 ++ [10]).length)
    (hsig : ((b1 ++ [10]).take (off + signature.length)).drop off = signature) :
    off + 32 ≤ (b1 ++ [10]).length := by
  have hsl : signature.length = 31 := by decide
  rw [hsl] at hlen hsig
  by_contra hcon
  have hb : b1.length + 1 = off + 31 := by
    rw [List.length_append, List.length_singleton] at hlen hcon
    omega
  have htake : (b1 ++ [10]).take (off + 31) = b1 ++ [10] :=
    List.take_of_length_le (by rw [List.length_append, List.length_singleton]; omega)
  rw [htake, List.drop_append_of_le_length (by omega)] at hsig
  have hmem : (10 : Byte) ∈ signature := by
    rw [← hsig]
    exact List.mem_append_right _ (List.mem_singleton_self _)
  exact absurd hmem (by decide)

set_option maxRecDepth 100000 in
/-- C24 as stated fails: `readHeader` succeeds on the sample header with a space before the
text of the checksum line; the fourth line, at offset 57, starts with a space, which is not
a base64 character. -/
theorem readHeader_accepts_leading_space :
    readHeader leadingSpaceFile = .ret (some sampleHeader, none) ∧
      leadingSpaceFile[57]? = some 32 ∧ (32 : Byte) ∉ encodeStd ∧ (32 : Byte) ≠ padChar := by
  decide

/-- C24, amended. For every input on which `readHeader` succeeds, the fourth line has a raw
length of 26 bytes, or 27 when `format.dos` is set, and its text, trimmed of the surrounding
spaces, CR and LF, is valid base64 that decodes to at least 8 bytes. -/
theorem readHeader_checksum_line (r : List Byte) (hdr : nsHeader)
    (h : readHeader r = .ret (some hdr, none)) :
    ∃ b1 b2 b3 b4 rest bs, (10 : Byte) ∉ b1 ∧ (10 : Byte) ∉ b2 ∧ (10 : Byte) ∉ b3 ∧
      (10 : Byte) ∉ b4 ∧
      r = (b1 ++ [10]) ++ (b2 ++ [10]) ++ (b3 ++ [10]) ++ (b4 ++ [10]) ++ rest ∧
      (b4 ++ [10]).length = (if hdr.format.dos then 27 else 26) ∧
      DecodeString (Trim (b4 ++ [10]) (32 :: crlf)) = (bs, none) ∧ 8 ≤ bs.length := by
  obtain ⟨b1, b2, b3, b4, rest, h1, h2, h3, h4, hr, _, _, hck, ⟨d, hdec⟩, hfmt, _, _⟩ :=
    readHeader_success r hdr h
  obtain ⟨bs, hds, hlen, _⟩ := decodeSize_success _ d hdr.byteOrder hdec
  refine ⟨b1, b2, b3, b4, rest, bs, h1, h2, h3, h4, ?_, ?_, hds, hlen⟩
  · rw [hr]
    simp only [List.append_assoc, List.singleton_append, List.cons_append, List.nil_append]
  · rw [hck, hfmt]

set_option maxRecDepth 100000 in
theorem readHeader_checksum_line_witness :
    readHeader leadingSpaceFile = .ret (some sampleHeader, none) ∧
      ∃ b1 b2 b3 b4 rest bs, (10 : Byte) ∉ b1 ∧ (10 : Byte) ∉ b2 ∧ (10 : Byte) ∉ b3 ∧
        (10 : Byte) ∉ b4 ∧
        leadingSpaceFile = (b1 ++ [10]) ++ (b2 ++ [10]) ++ (b3 ++ [10]) ++ (b4 ++ [10]) ++ rest ∧
        (b4 ++ [10]).length = (if sampleHeader.format.dos then 27 else 26) ∧
        DecodeString (Trim (b4 ++ [10]) (32 :: crlf)) = (bs, none) ∧ 8 ≤ bs.length :=
  ⟨by decide, readHeader_checksum_line leadingSpaceFile sampleHeader (by decide)⟩

set_option maxRecDepth 100000 in
/-- C25 as stated fails: the 60 bytes of `shortestHeader` (the signature line, two empty
version lines, the checksum line) parse, and `Open` rejects a file that holds them with
`errNotSiebns`, being shorter than `headerSize`. -/
theorem readHeader_sixty_bytes :
    shortestHeader.length = 60 ∧
      readHeader shortestHeader =
        .ret (some { byteOrder := some .LittleEndian
                     format := { unicode := false, dos := false }
                     offsets := { checksum := 34 }
                     version := { siebel := [], nsfile := [] } }, none) ∧
      Open "siebns.dat" (some shortestHeader) = .ret (none, some .errNotSiebns) := by
  decide

/-- C25, amended. 60 bytes is the minimum header length: every byte stream on which
`readHeader` succeeds is at least 60 bytes long (a signature line of at least 32 bytes, two
version lines of at least 1 byte, a checksum line of at least 26 bytes); the size guard in
`Open` rejects every file shorter than 82 bytes (`headerSize`) with `errNotSiebns` before
parsing, whether or not its header would parse. -/
theorem readHeader_minimum_length (r : List Byte) (hdr : nsHeader)
    (h : readHeader r = .ret (some hdr, none)) :
    60 ≤ r.length ∧
      ∀ (path : String) (data : List Byte), data.length < headerSize →
        Open path (some data) = .ret (none, some .errNotSiebns) := by
  constructor
  · obtain ⟨b1, b2, b3, b4, rest, _, _, _, _, hr, hlen, hsig, hck, _, _, _, _⟩ :=
      readHeader_success r hdr h
    have h32 := signature_line_length b1 _ hlen hsig
    have h26 : 26 ≤ (b4 ++ [10]).length := by
      rw [hck]; split <;> omega
    rw [hr]
    simp only [List.length_append, List.length_cons, List.length_singleton, List.length_nil]
      at h32 h26 ⊢
    omega
  · intro path data hlt
    simp [Open, hlt]

set_option maxRecDepth 100000 in
theorem readHeader_minimum_length_witness :
    readHeader shortestHeader =
        .ret (some { sampleHeader with offsets := { checksum := 34 },
                                       version := { siebel := [], nsfile := [] } }, none) ∧
      60 ≤ shortestHeader.length ∧
      ∀ (path : String) (data : List Byte), data.length < headerSize →
        Open path (some data) = .ret (none, some .errNotSiebns) :=
  ⟨by decide, readHeader_minimum_length shortestHeader
    { sampleHeader with offsets := { checksum := 34 }, version := { siebel := [], nsfile := [] } }
    (by decide)⟩

/-! ## The line reader -/

/-- A reader with an error set returns an empty line and stays as it is. -/
theorem readline_sticky (lr : lnReader) (e : GoError) (h : lr.lastErr = some e) :
    lr.readline = ([], lr) ∧ lr.readstring = ([], lr) := by
  have h1 : lr.readline = ([], lr) := by simp [lnReader.readline, h]
  refine ⟨h1, ?_⟩
  simp only [lnReader.readstring, h1]
  rfl

/-- One `readline` on a reader without error: it returns the next line and advances the
position by its raw length, or the input has no LF left and the error `io.EOF` is set, the
position staying where it was. -/
theorem readline_step (lr : lnReader) (h : lr.lastErr = none) :
    (∃ body rest, (10 : Byte) ∉ body ∧ lr.r = body ++ 10 :: rest ∧
        lr.readline = (body ++ [10],
          { r := rest, pos := lr.pos + ((body ++ [10]).length : Int), lastErr := none })) ∨
      ((10 : Byte) ∉ lr.r ∧
        lr.readline = (lr.r, { r := [], pos := lr.pos, lastErr := some .eof })) := by
  rcases line_or_eof lr.r with ⟨body, rest, hb, hr⟩ | hno
  · refine Or.inl ⟨body, rest, hb, hr, ?_⟩
    simp [lnReader.readline, h, hr, ReadBytes_line body rest hb]
  · refine Or.inr ⟨hno, ?_⟩
    simp [lnReader.readline, h, ReadBytes_eof lr.r hno]

/-- `readstring` leaves the reader as `readline` does. -/
theorem call_reader (lr : lnReader) (c : lnCall) : (lr.call c).2 = lr.readline.2 := by
  cases c <;> rfl

/-- After an error, a sequence of calls changes nothing and reads no line. -/
theorem calls_sticky (lr : lnReader) (e : GoError) (h : lr.lastErr = some e)
    (cs : List lnCall) : lr.calls cs = (lr, []) := by
  induction cs with
  | nil => rfl
  | cons c cs ih =>
    have hc : (lr.call c).2 = lr := by rw [call_reader, (readline_sticky lr e h).1]
    simp [lnReader.calls, hc, h, ih]

/-- The invariant of a sequence of calls: the position advances by the raw lengths of the
lines read, each of them is LF-terminated, and together they are the start of the unread
input. -/
theorem calls_invariant (cs : List lnCall) :
    ∀ lr : lnReader, lr.lastErr = none →
      (lr.calls cs).1.pos = lr.pos + (((lr.calls cs).2.map List.length).sum : Nat) ∧
      (∀ l ∈ (lr.calls cs).2, ∃ body, (10 : Byte) ∉ body ∧ l = body ++ [10]) ∧
      (lr.calls cs).2.flatten <+: lr.r := by
  induction cs with
  | nil =>
    intro lr _
    simp [lnReader.calls]
  | cons c cs ih =>
    intro lr h
    rcases readline_step lr h with ⟨body, rest, hb, hr, hrl⟩ | ⟨hno, hrl⟩
    · have hc : (lr.call c).2 =
          { r := rest, pos := lr.pos + ((body ++ [10]).length : Int), lastErr := none } := by
        rw [call_reader, hrl]
      have hnone : (⟨rest, lr.pos + ((body ++ [10]).length : Int), none⟩ : lnReader).lastErr =
          none := rfl
      obtain ⟨i1, i2, i3⟩ := ih _ hnone
      simp only [lnReader.calls, hc, hrl, if_true]
      refine ⟨?_, ?_, ?_⟩
      · rw [i1]
        simp only [List.map_cons, List.sum_cons]
        push_cast
        omega
      · intro l hl
        rcases List.mem_cons.mp hl with hl | hl
        · exact ⟨body, hb, hl⟩
        · exact i2 l hl
      · rw [hr, List.flatten_cons]
        have : body ++ 10 :: rest = (body ++ [10]) ++ rest := by simp
        rw [this]
        exact (List.prefix_append_right_inj _).mpr i3
    · have hc : (lr.call c).2 = { r := [], pos := lr.pos, lastErr := some .eof } := by
        rw [call_reader, hrl]
      have hst := calls_sticky (⟨[], lr.pos, some .eof⟩ : lnReader) .eof rfl cs
      simp only [lnReader.calls, hc, hst]
      simp

/-- C27. Line reader position and sticky error: after any sequence of `readline` and
`readstring` calls on a new line reader, `position()` is the total raw length, terminators
included, of the lines the calls read without failing, which are LF-terminated and make up
the start of the input; and once a read has failed (the reader holds an error), every later
`readline` returns an empty line, `readstring` an empty string, and the reader with its
`err()` and `position()` stays as it is, over any further sequence of calls. -/
theorem lnReader_position_and_sticky_error (r : List Byte) (cs : List lnCall) :
    (((newLineReader r).calls cs).1.position =
        ((((newLineReader r).calls cs).2.map List.length).sum : Nat) ∧
      (∀ l ∈ ((newLineReader r).calls cs).2, ∃ body, (10 : Byte) ∉ body ∧ l = body ++ [10]) ∧
      ((newLineReader r).calls cs).2.flatten <+: r) ∧
    (∀ (lr : lnReader) (e : GoError), lr.err = some e →
      lr.readline = ([], lr) ∧ lr.readstring = ([], lr) ∧
      ∀ cs1, lr.calls cs1 = (lr, [])) ∧
    (∀ (lr : lnReader) (c : lnCall), lr.err = none → (lr.call c).2.err ≠ none →
      (lr.call c).2.err = some .eof ∧ (lr.call c).2.position = lr.position) := by
  refine ⟨?_, ?_, ?_⟩
  · have := calls_invariant cs (newLineReader r) rfl
    simp only [newLineReader, Int.zero_add] at this ⊢
    exact this
  · intro lr e he
    exact ⟨(readline_sticky lr e he).1, (readline_sticky lr e he).2, calls_sticky lr e he⟩
  · intro lr c hnone herr
    rw [call_reader] at herr ⊢
    rcases readline_step lr hnone with ⟨body, rest, _, _, hrl⟩ | ⟨_, hrl⟩
    · rw [hrl] at herr
      exact absurd rfl herr
    · rw [hrl]
      exact ⟨rfl, rfl⟩

set_option maxRecDepth 100000 in
theorem lnReader_position_and_sticky_error_witness :
    (newLineReader [97, 98, 10, 99, 100]).calls [.readline, .readstring, .readline] =
        ({ r := [], pos := 3, lastErr := some .eof }, [[97, 98, 10]]) ∧
      (((newLineReader [97, 98, 10, 99, 100]).calls [.readline, .readstring, .readline]).1.position =
          ((((newLineReader [97, 98, 10, 99, 100]).calls
            [.readline, .readstring, .readline]).2.map List.length).sum : Nat)) ∧
      ({ r := [], pos := 3, lastErr := some .eof } : lnReader).readline =
        ([], { r := [], pos := 3, lastErr := some .eof }) :=
  ⟨by decide,
    (lnReader_position_and_sticky_error [97, 98, 10, 99, 100]
      [.readline, .readstring, .readline]).1.1,
    ((lnReader_position_and_sticky_error [] []).2.1
      { r := [], pos := 3, lastErr := some .eof } .eof rfl).1⟩

/-! ## The embedding on the cases of the repository's tests -/

/-- The cases of `Test_encodeSize`. -/
theorem test_encodeSize :
    encodeSize 0x01020304050607 (some .LittleEndian) =
        .ret ([66, 119, 89, 70, 66, 65, 77, 67, 65, 81, 65, 61], none) ∧
      encodeSize 0x01020304050607 (some .BigEndian) =
        .ret ([65, 65, 69, 67, 65, 119, 81, 70, 66, 103, 99, 61], none) ∧
      encodeSize 0 (some .BigEndian) = .ret ([], some .errZeroFilesize) := by
  decide

/-- The cases of `Test_decodeSize`. -/
theorem test_decodeSize :
    decodeSize (Encode [0x04, 0x03, 0x02, 0x01, 0, 0, 0, 0]) =
        .ret (0x01020304, some .LittleEndian, none) ∧
      decodeSize (Encode [0, 0, 0, 0, 0x01, 0x02, 0x03, 0x04]) =
        .ret (0x01020304, some .BigEndian, none) ∧
      decodeSize [0, 0, 0, 0, 0x01, 0x02, 0x03, 0x04] =
        .ret (0, none, some (.corruptInput 0)) := by
  decide

/-- The two texts of `testSet`: 780 in both byte orders. -/
theorem test_decodeSize_testSet :
    decodeSize [68, 65, 77, 65, 65, 65, 65, 65, 65, 65, 65, 61] =
        .ret (780, some .LittleEndian, none) ∧
      decodeSize [65, 65, 65, 65, 65, 65, 65, 65, 65, 119, 119, 61] =
        .ret (780, some .BigEndian, none) := by
  decide

/-- The cases of `Test_sizeFromBinary` and `Test_sizeToBinary`. -/
theorem test_sizeBinary :
    sizeFromBinary [0, 1, 2, 3, 4, 5, 6, 7] (some .LittleEndian) = .ret 0x0706050403020100 ∧
      sizeFromBinary [0, 1, 2, 3, 4, 5, 6, 7] (some .BigEndian) = .ret 0x0001020304050607 ∧
      sizeFromBinary [] none = .panicked .errByteOrderNil ∧
      sizeFromBinary [] (some .BigEndian) = .panicked .eof ∧
      sizeToBinary 0x0102030405060708 (some .LittleEndian) = .ret [8, 7, 6, 5, 4, 3, 2, 1] ∧
      sizeToBinary 0x0102030405060708 (some .BigEndian) = .ret [1, 2, 3, 4, 5, 6, 7, 8] ∧
      sizeToBinary 0 none = .panicked .errByteOrderNil := by
  decide

/-- The cases of `Test_hasBOM` and `Test_hasDOSlineEnding`. -/
theorem test_hasBOM_hasDOSlineEndings :
    hasBOM [0xef, 0xbb, 0xbf, 83, 105, 101, 98, 101, 108] = (true, 3) ∧
      hasBOM [83, 105, 101, 98, 101, 108] = (false, 0) ∧
      hasBOM [] = (false, 0) ∧
      hasDOSlineEndings [67, 58, 13, 10] = true ∧
      hasDOSlineEndings [47, 98, 105, 110, 10] = false ∧
      hasDOSlineEndings [47, 98, 105, 110] = false ∧
      hasDOSlineEndings [] = false := by
  decide

set_option maxRecDepth 100000 in
/-- The case `ok` of `Test_readHeader` and the checks of `TestParseHeader` and `TestFixSize`
on the sample file. -/
theorem test_readHeader_FixSize :
    readHeader testfileEmpty = .ret (some sampleHeader, none) ∧
      testfileEmpty.length = 121 ∧
      NSFile.FixSize ⟨some sampleHeader, ⟨testfileEmpty, 121, "siebns.dat"⟩⟩ =
        .ret ((12, none), ⟨some sampleHeader, ⟨testfileCorrect, 69, "siebns.dat"⟩⟩) := by
  decide

/-- The cases of `Test_nsHeader_readEncodedSize`: valid data at offset 3, invalid base64,
and a reader that ends before the offset. -/
theorem test_readEncodedSize :
    (nsHeader.readEncodedSize { sampleHeader with offsets := { checksum := 3 } }
        ⟨[0, 0, 0, 66, 119, 89, 70, 66, 65, 77, 67, 65, 81, 65, 61], 0, ""⟩) =
        .ret ((0x0706050403020100, none),
          { bigEndianHeader with offsets := { checksum := 3 } },
          ⟨[0, 0, 0, 66, 119, 89, 70, 66, 65, 77, 67, 65, 81, 65, 61], 15, ""⟩) ∧
      (nsHeader.readEncodedSize { sampleHeader with offsets := { checksum := 3 } }
        ⟨List.replicate 18 0, 0, ""⟩) =
        .ret ((0, some (.corruptInput 0)), { sampleHeader with offsets := { checksum := 3 } },
          ⟨List.replicate 18 0, 15, ""⟩) ∧
      (nsHeader.readEncodedSize { sampleHeader with offsets := { checksum := 3 } }
        ⟨[0], 0, ""⟩) =
        .ret ((0, some .eof), { sampleHeader with offsets := { checksum := 3 } },
          ⟨[0], 3, ""⟩) := by
  decide

set_option maxRecDepth 100000 in
/-- The case `corrupt file` of `Test_readHeader` (`TestParseHeaderCorrupt`). -/
theorem test_readHeader_corrupt :
    readHeader testfileCorrupt = .ret (none, some .errChecksumCorrupt) := by
  decide

set_option maxRecDepth 100000 in
/-- The index after the third LF of the sample file is 57, the offset `TestParseHeader`
expects; an input with fewer LF bytes has none. -/
theorem test_indexAfterLF :
    indexAfterLF 3 testfileEmpty = some 57 ∧ indexAfterLF 1 [65, 10, 66] = some 2 ∧
      indexAfterLF 2 [65, 10, 66] = none := by
  decide

set_option maxRecDepth 100000 in
/-- The file handle after `Open`: on the sample file, which is shorter than the buffer, the
reader has read the whole file, whether one line or four were asked for; with a buffer of 16
bytes the four header lines of the sample file, which end at byte 83, take the handle to
byte 89 (two full buffers for the first line, two for the second, and 9 and 16 bytes for the
fourth). -/
theorem test_handleOffset :
    handleOffset testfileEmpty 4 = 121 ∧ handleOffset testfileEmpty 1 = 121 ∧
      handleOffsetSize 16 testfileEmpty 1 = 32 ∧ handleOffsetSize 16 testfileEmpty 2 = 64 ∧
      handleOffsetSize 16 testfileEmpty 3 = 64 ∧ handleOffsetSize 16 testfileEmpty 4 = 89 ∧
      handleOffsetSize 16 testfileEmpty 20 = 121 := by
  decide

end Siebns
